import Mathlib

/-!
Verification of the dynamic memory allocator in src/07-Malloc-Lab/mm.c
(segregated free lists, bounded best fit, boundary tags, immediate
coalescing, alternating placement).

The embedding models the heap as the linear sequence of regular blocks
between the prologue and the epilogue.  Each block records the fields the
C code keeps in its boundary tags: the block size in bytes (header bit
field size), the allocated bit, the predecessor-allocated bit, and the
payload bytes (as a function from payload byte index to byte value).
The segregated free lists are modelled as twelve lists of block offsets
(offsets from mem_heap_lo, exactly the 4-byte relative pointers the code
stores; the first regular block payload sits at offset 64, matching
mm_init's layout: 48 bytes of list heads, 4 bytes padding, 8-byte
prologue, 4-byte epilogue header).  The doubly-linked intrusive list of
the C code is represented by the list of its node offsets in list order;
insert_free pushes at the head and remove_free splices one node out,
which on this representation is cons and erase of the matching offset.

The sbrk growth primitive is modelled by a remaining-capacity counter:
mem_sbrk(n) succeeds exactly when n bytes of capacity remain.  Successful
heap growths performed by extend_heap are logged in the grows field.

Headers store sizes in 32 bits and the memlib arena of the lab is smaller
than 4 GiB, so reachable states are generated from initial capacities of
at most 2^32 bytes; size arithmetic that the C code performs in size_t is
modelled modulo 2^64 where the code can actually wrap (calloc's product,
ALIGN, and the csize - asize computation in place).

Payload contents: the code clobbers the first 8 bytes and the last 4
bytes of a block's payload area when the block is free (free-list links
and footer).  The model replaces the payload function of a block by the
all-zero function whenever the block becomes free; no theorem below
depends on the contents of a free block's payload, so the choice of the
zero function is immaterial.
-/

namespace MM

/-- Modulus of size_t arithmetic. -/
def TWO64 : Nat := 2 ^ 64

/-- ALIGN macro of mm.c (round up to a multiple of ALIGNMENT = 8),
computed in size_t arithmetic. -/
def alignUp8 (x : Nat) : Nat := (x + 7) % TWO64 / 8 * 8

/-- adjust_block_size of mm.c: ALIGN(size + WSIZE), raised to
MIN_BLOCK_SIZE = 16 when smaller. -/
def adjust_block_size (size : Nat) : Nat :=
  let asize := alignUp8 (size + 4)
  if asize < 16 then 16 else asize

/-- Bit length of a 64-bit value: 64 - clzl(x) for x in the 64-bit range.
Structural fuel recursion so that the kernel can evaluate it. -/
def bitlenAux : Nat → Nat → Nat
  | 0, _ => 0
  | fuel + 1, x => if x = 0 then 0 else bitlenAux fuel (x / 2) + 1

/-- Bit length of a 64-bit value (0 for x = 0; clzl(0) is undefined in C
and the allocator never reaches that case because sizes are at least 16). -/
def bitlen (x : Nat) : Nat := bitlenAux 64 x

/-- list_index of mm.c: idx = 64 - clzl(size-1) - 4 clamped into
the range 0 .. LIST_MAX - 1 = 11. -/
def list_index (size : Nat) : Nat :=
  let bl := bitlen (size - 1)
  if 16 ≤ bl then 11 else if bl < 4 then 0 else bl - 4

/-- size_t subtraction a - b modulo 2^64 (as in place's csize - asize). -/
def wsub (a b : Nat) : Nat := (a + TWO64 - b % TWO64) % TWO64

/-- The all-zero payload function, used for the payload of free blocks. -/
def zeroData : Nat → Nat := fun _ => 0

/-- One regular heap block: the fields the C code keeps in the block's
boundary tags, plus its payload bytes. -/
structure Block where
  size : Nat
  alloc : Bool
  prevAlloc : Bool
  data : Nat → Nat

/-- Default block used for out-of-range reads (never reached by the
operations on the states the theorems talk about). -/
def defBlock : Block := { size := 0, alloc := true, prevAlloc := true, data := zeroData }

instance : Inhabited Block := ⟨defBlock⟩

/-- Read the k-th block of the linear heap walk. -/
def nth (bs : List Block) (k : Nat) : Block := bs.getD k defBlock

/-- Allocator state: linear sequence of regular blocks, the twelve
segregated list heads (lists of offsets), the place_strategy flag, the
prev-alloc bit stored in the epilogue header, the remaining sbrk
capacity, and the log of successful extend_heap growths. -/
structure Heap where
  blocks : List Block
  freeLists : List (List Nat)
  strategy : Bool
  epiPrevAlloc : Bool
  cap : Nat
  grows : List Nat

/-- Sum of the byte sizes of a block sequence. -/
def sumSizes (bs : List Block) : Nat := bs.foldr (fun b acc => b.size + acc) 0

/-- Heap offset (pointer value relative to mem_heap_lo) of the payload of
the k-th regular block; the first regular block payload is at offset 64. -/
def offsetOf (bs : List Block) (k : Nat) : Nat := 64 + sumSizes (bs.take k)

/-- Scan for the block whose payload offset is off, starting the running
offset at cur; returns the index relative to the scanned list. -/
def idxOfAux : List Block → Nat → Nat → Option Nat
  | [], _, _ => none
  | b :: rest, cur, off =>
    if cur = off then some 0
    else (idxOfAux rest (cur + b.size) off).map (fun k => k + 1)

/-- Index of the regular block whose payload sits at offset off. -/
def indexOfOffset (bs : List Block) (off : Nat) : Option Nat := idxOfAux bs 64 off

/-- Replace cnt blocks starting at index j by the blocks news.  All heap
surgery of the operations (splitting, merging, flag updates, appending)
is expressed through this function. -/
def replaceAt (bs : List Block) (j cnt : Nat) (news : List Block) : List Block :=
  bs.take j ++ news ++ bs.drop (j + cnt)

/-- insert_free of mm.c: push the offset of a free block of the given
size at the head of its size class list. -/
def insert_free (h : Heap) (off size : Nat) : Heap :=
  let idx := list_index size
  { h with freeLists := h.freeLists.set idx (off :: h.freeLists.getD idx []) }

/-- remove_free of mm.c: splice a free block of the given size out of its
size class list. -/
def remove_free (h : Heap) (off size : Nat) : Heap :=
  let idx := list_index size
  { h with freeLists := h.freeLists.set idx ((h.freeLists.getD idx []).erase off) }

/-- set_next_prev_alloc of mm.c: update the prev-alloc bit in the header
of the block physically after block i (the epilogue bit when block i is
the last regular block).  The C code also patches the footer copy of a
free successor; header and footer are one record here. -/
def setNextPrevAlloc (h : Heap) (i : Nat) (pa : Bool) : Heap :=
  if i + 1 < h.blocks.length then
    let b := nth h.blocks (i + 1)
    { h with blocks := replaceAt h.blocks (i + 1) 1 [{ b with prevAlloc := pa }] }
  else
    { h with epiPrevAlloc := pa }

/-- coalesce of mm.c at block index i.  The C code decides the backward
merge from the block's own prev-alloc bit and reaches the predecessor
through its footer; the model guard 0 < i corresponds to the fact that
the prologue (before block 0) is permanently allocated, so a correct
prev-alloc bit of block 0 is true and the branch is never taken there.
Returns the new state and the index of the coalesced block.
nextAllocB reads GET_ALLOC of the header of the next physical block (the
epilogue, which is allocated, when block i is the last regular block). -/
def nextAllocB (bs : List Block) (i : Nat) : Bool :=
  match bs.get? (i + 1) with
  | some nb => nb.alloc
  | none => true

/-- coalesce of mm.c at block index i; see nextAllocB's comment. -/
def coalesce (h : Heap) (i : Nat) : Heap × Nat :=
  let b := nth h.blocks i
  let next_alloc : Bool := nextAllocB h.blocks i
  let mergePrev : Bool := !b.prevAlloc && decide (0 < i)
  let pb := nth h.blocks (i - 1)
  let nb := nth h.blocks (i + 1)
  let j := if mergePrev then i - 1 else i
  let size1 := if mergePrev then b.size + pb.size else b.size
  let pa1 : Bool := if mergePrev then pb.prevAlloc else b.prevAlloc
  let h1 := if mergePrev then remove_free h (offsetOf h.blocks (i - 1)) pb.size else h
  let h2 := if next_alloc then h1 else remove_free h1 (offsetOf h.blocks (i + 1)) nb.size
  let size2 := if next_alloc then size1 else size1 + nb.size
  let cnt : Nat := (if mergePrev = true then 2 else 1) + (if next_alloc = true then 0 else 1)
  let merged : Block := { size := size2, alloc := false, prevAlloc := pa1, data := zeroData }
  let h3 := { h2 with blocks := replaceAt h2.blocks j cnt [merged] }
  let h4 := insert_free h3 (offsetOf h.blocks j) size2
  let h5 := setNextPrevAlloc h4 j false
  (h5, j)

/-- Shift a payload function by r bytes (payload view of the back part of
a split free block). -/
def shiftData (f : Nat → Nat) (r : Nat) : Nat → Nat := fun k => f (r + k)

/-- place of mm.c: carve an allocation of adjusted size asize out of the
free block at offset off.  Splits when the leftover is at least
MIN_BLOCK_SIZE = 16, alternating the split direction through the
persistent place_strategy flag; the subtraction csize - asize is size_t
arithmetic.  Returns the new state and the payload offset handed to the
caller.  (The none branch of the offset lookup is never reached: the
code's callers always pass a pointer to an existing free block.) -/
def place (h : Heap) (off asize : Nat) : Heap × Nat :=
  match indexOfOffset h.blocks off with
  | none => (h, off)
  | some i =>
    let b := nth h.blocks i
    let csize := b.size
    let h1 := remove_free h off csize
    if 16 ≤ wsub csize asize then
      if h1.strategy = false then
        let rem := wsub csize asize
        let abk : Block := { size := asize, alloc := true, prevAlloc := b.prevAlloc, data := b.data }
        let fbk : Block := { size := rem, alloc := false, prevAlloc := true, data := zeroData }
        let h2 := { h1 with blocks := replaceAt h1.blocks i 1 [abk, fbk], strategy := true }
        let h3 := insert_free h2 (off + asize) rem
        let h4 := setNextPrevAlloc h3 (i + 1) false
        (h4, off)
      else
        let rem := wsub csize asize
        let fbk : Block := { size := rem, alloc := false, prevAlloc := b.prevAlloc, data := zeroData }
        let abk : Block := { size := asize, alloc := true, prevAlloc := false, data := shiftData b.data rem }
        let h2 := { h1 with blocks := replaceAt h1.blocks i 1 [fbk, abk], strategy := false }
        let h3 := insert_free h2 off rem
        let h4 := setNextPrevAlloc h3 (i + 1) true
        (h4, off + rem)
    else
      let abk : Block := { b with alloc := true }
      let h2 := { h1 with blocks := replaceAt h1.blocks i 1 [abk] }
      let h3 := setNextPrevAlloc h2 i true
      (h3, off)

/-- Size of the block at a given offset (0 when no block starts there);
GET_SIZE(HDRP(bp)) as find_fit reads it. -/
def szOf (bs : List Block) (off : Nat) : Nat :=
  match indexOfOffset bs off with
  | some i => (nth bs i).size
  | none => 0

/-- Inner loop of find_fit over one size class list.  Arguments: the
remaining nodes, the candidate counter, the best exact-or-larger block
seen so far and its size.  Returns the chosen block (none when the class
yields no candidate) and the number of nodes the loop examined. -/
def scanClass (bs : List Block) (asize : Nat) :
    List Nat → Nat → Option Nat → Nat → Option Nat × Nat
  | [], _, best, _ => (best, 0)
  | off :: rest, count, best, bestSize =>
    let curr := szOf bs off
    if curr = asize then (some off, 1)
    else
      let isNewBest : Bool := decide (asize < curr) && (best.isNone || decide (curr < bestSize))
      let best' := if isNewBest then some off else best
      let bestSize' := if isNewBest then curr else bestSize
      if isNewBest && decide (curr - asize ≤ 32) then (some off, 1)
      else
        let count' := count + 1
        if decide (2 < count') && best'.isSome then (best', 1)
        else
          let r := scanClass bs asize rest count' best' bestSize'
          (r.1, r.2 + 1)

/-- Outer loop of find_fit: try the size classes from the first
sufficient one upward; fuel counts the remaining classes. -/
def findLoop (bs : List Block) (fls : List (List Nat)) (asize : Nat) : Nat → Nat → Option Nat
  | 0, _ => none
  | fuel + 1, i =>
    if 12 ≤ i then none
    else
      match (scanClass bs asize (fls.getD i []) 0 none 0).1 with
      | some off => some off
      | none => findLoop bs fls asize fuel (i + 1)

/-- find_fit of mm.c. -/
def find_fit (h : Heap) (asize : Nat) : Option Nat :=
  findLoop h.blocks h.freeLists asize 12 (list_index asize)

/-- extend_heap of mm.c: round the word count up to even, grow via
mem_sbrk, stitch the new free block (its prev-alloc bit copied from the
old epilogue header), write a fresh epilogue with prev-alloc = 0, and
coalesce.  Returns the new state and the offset of the coalesced block,
or none when the growth primitive reports exhaustion. -/
def extend_heap (h : Heap) (words : Nat) : Option (Heap × Nat) :=
  let size := (if words % 2 = 1 then words + 1 else words) * 4
  if size ≤ h.cap then
    let newb : Block := { size := size, alloc := false, prevAlloc := h.epiPrevAlloc, data := zeroData }
    let h1 : Heap :=
      { h with blocks := h.blocks ++ [newb], cap := h.cap - size,
               grows := size :: h.grows, epiPrevAlloc := false }
    let r := coalesce h1 h.blocks.length
    some (r.1, offsetOf r.1.blocks r.2)
  else
    none

/-- mm_init of mm.c, parametrised by the capacity of the growth
primitive: 64 bytes of list heads, padding and sentinels, then one
CHUNKSIZE = 8192 byte extension. -/
def mm_init (cap0 : Nat) : Option Heap :=
  if 64 ≤ cap0 then
    let h0 : Heap :=
      { blocks := [], freeLists := List.replicate 12 [], strategy := false,
        epiPrevAlloc := true, cap := cap0 - 64, grows := [] }
    match extend_heap h0 2048 with
    | some r => some r.1
    | none => none
  else none

/-- Result of malloc and calloc: the new state, the returned payload
offset (none models a NULL return), and whether a mem_sbrk call made
during the operation reported exhaustion. -/
structure MallocRes where
  heap : Heap
  ret : Option Nat
  sbrkFailed : Bool

/-- malloc of mm.c on an initialised heap. -/
def mm_malloc (h : Heap) (size : Nat) : MallocRes :=
  if size = 0 then ⟨h, none, false⟩
  else
    let asize := adjust_block_size size
    match find_fit h asize with
    | some off =>
      let pr := place h off asize
      ⟨pr.1, some pr.2, false⟩
    | none =>
      let extendsize := max asize 8192
      match extend_heap h (extendsize / 4) with
      | none => ⟨h, none, true⟩
      | some r =>
        let pr := place r.1 r.2 asize
        ⟨pr.1, some pr.2, false⟩

/-- free of mm.c: mark the block free (header and footer rewritten with
the same size and prev-alloc bit) and coalesce.  A pointer that is not
the payload of a regular block is a caller contract violation (undefined
behaviour in C); the model leaves the state unchanged there. -/
def mm_free (h : Heap) (off : Nat) : Heap :=
  match indexOfOffset h.blocks off with
  | none => h
  | some i =>
    let b := nth h.blocks i
    let fb : Block := { size := b.size, alloc := false, prevAlloc := b.prevAlloc, data := zeroData }
    let h1 := { h with blocks := replaceAt h.blocks i 1 [fb] }
    (coalesce h1 i).1

/-- Overwrite the first n payload bytes with the bytes of src (memcpy
into a block's payload). -/
def memcpyData (dst src : Nat → Nat) (n : Nat) : Nat → Nat :=
  fun k => if k < n then src k else dst k

/-- Apply a payload transformation to the block at offset off. -/
def updateDataAt (h : Heap) (off : Nat) (g : (Nat → Nat) → (Nat → Nat)) : Heap :=
  match indexOfOffset h.blocks off with
  | none => h
  | some i =>
    let b := nth h.blocks i
    { h with blocks := replaceAt h.blocks i 1 [{ b with data := g b.data }] }

/-- Result of realloc: the new state and the returned payload offset. -/
structure ReallocRes where
  heap : Heap
  ret : Option Nat

/-- realloc of mm.c.  The three in-place paths (shrink with optional
split, absorb the free successor with or without a split) and the
fall-back allocate + copy min(size, oldsize) bytes + free path follow
the source line by line. -/
def mm_realloc (h : Heap) (optr : Option Nat) (size : Nat) : ReallocRes :=
  match optr with
  | none =>
    let m := mm_malloc h size
    ⟨m.heap, m.ret⟩
  | some oldptr =>
    if size = 0 then ⟨mm_free h oldptr, none⟩
    else
      match indexOfOffset h.blocks oldptr with
      | none => ⟨h, none⟩
      | some i =>
        let b := nth h.blocks i
        let oldsize := b.size
        let asize := adjust_block_size size
        if asize ≤ oldsize then
          let remainder := oldsize - asize
          if 16 ≤ remainder then
            let ab : Block := { size := asize, alloc := true, prevAlloc := b.prevAlloc, data := b.data }
            let sp : Block := { size := remainder, alloc := false, prevAlloc := true, data := zeroData }
            let h1 := { h with blocks := replaceAt h.blocks i 1 [ab, sp] }
            let h2 := setNextPrevAlloc h1 (i + 1) false
            ⟨(coalesce h2 (i + 1)).1, some oldptr⟩
          else ⟨h, some oldptr⟩
        else
          let nextFree : Bool := !nextAllocB h.blocks i
          let nb := nth h.blocks (i + 1)
          if nextFree && decide (asize ≤ oldsize + nb.size) then
            let combined := oldsize + nb.size
            let h1 := remove_free h (offsetOf h.blocks (i + 1)) nb.size
            let remainder := combined - asize
            if 16 ≤ remainder then
              let ab : Block := { size := asize, alloc := true, prevAlloc := b.prevAlloc, data := b.data }
              let sp : Block := { size := remainder, alloc := false, prevAlloc := true, data := zeroData }
              let h2 := { h1 with blocks := replaceAt h1.blocks i 2 [ab, sp] }
              let h3 := insert_free h2 (oldptr + asize) remainder
              let h4 := setNextPrevAlloc h3 (i + 1) false
              ⟨h4, some oldptr⟩
            else
              let ab : Block := { size := combined, alloc := true, prevAlloc := b.prevAlloc, data := b.data }
              let h2 := { h1 with blocks := replaceAt h1.blocks i 2 [ab] }
              let h3 := setNextPrevAlloc h2 i true
              ⟨h3, some oldptr⟩
          else
            let m := mm_malloc h size
            match m.ret with
            | none => ⟨m.heap, none⟩
            | some np =>
              let csz := min size oldsize
              let h1 := updateDataAt m.heap np (fun d => memcpyData d b.data csz)
              let h2 := mm_free h1 oldptr
              ⟨h2, some np⟩

/-- calloc of mm.c: the byte count is the size_t product nmemb * size,
which wraps modulo 2^64 with no overflow check; on success the wrapped
number of bytes is zero-filled. -/
def mm_calloc (h : Heap) (nmemb size : Nat) : MallocRes :=
  let bytes := nmemb * size % TWO64
  let m := mm_malloc h bytes
  match m.ret with
  | some p =>
    { heap := updateDataAt m.heap p (fun d => memcpyData d zeroData bytes), ret := some p,
      sbrkFailed := m.sbrkFailed }
  | none => m

/-- Offsets of the free blocks in the linear walk, running offset cur. -/
def freeOffsetsAux : List Block → Nat → List Nat
  | [], _ => []
  | b :: rest, cur =>
    (if b.alloc = false then [cur] else []) ++ freeOffsetsAux rest (cur + b.size)

/-- Offsets of the free blocks in the linear heap walk. -/
def freeOffsets (bs : List Block) : List Nat := freeOffsetsAux bs 64

/-- Offsets of the free blocks of size class c in the linear walk. -/
def freeClassAux (c : Nat) : List Block → Nat → List Nat
  | [], _ => []
  | b :: rest, cur =>
    (if b.alloc = false ∧ list_index b.size = c then [cur] else []) ++
      freeClassAux c rest (cur + b.size)

/-- Offsets of the free blocks of size class c in the linear heap walk. -/
def freeClass (bs : List Block) (c : Nat) : List Nat := freeClassAux c bs 64

/-- Concatenation of all twelve class lists in class order: the nodes the
free-list walk of check_free_lists visits. -/
def joinLists (fls : List (List Nat)) : List Nat :=
  (List.range 12).foldr (fun c acc => fls.getD c [] ++ acc) []

/-- Free-block count of the free-list walk (check_free_lists). -/
def check_free_lists_count (h : Heap) : Nat := (joinLists h.freeLists).length

/-- Free-block count of the linear heap walk (check_heap_linear). -/
def check_heap_linear_count (h : Heap) : Nat := (freeOffsets h.blocks).length

/-- Final comparison of mm_checkheap (lines 365-367): the checker calls
heap_error, which terminates the process, exactly when the two counts
disagree. -/
def count_mismatch_fatal (h : Heap) : Bool :=
  decide (check_free_lists_count h ≠ check_heap_linear_count h)

/-- All block sizes are positive (true of every block the code creates:
MIN_BLOCK_SIZE = 16). -/
def sizesPos (bs : List Block) : Prop := ∀ b ∈ bs, 0 < b.size

/-- No two physically adjacent regular blocks are both free. -/
def NoAdj (bs : List Block) : Prop :=
  ∀ k < bs.length, k + 1 < bs.length →
    ((nth bs k).alloc = true ∨ (nth bs (k + 1)).alloc = true)

/-- The stored prev-alloc bit of block k matches the allocation state of
its physical predecessor (the permanently allocated prologue for k = 0). -/
def prevOkAt (bs : List Block) (k : Nat) : Prop :=
  (nth bs k).prevAlloc = (if k = 0 then true else (nth bs (k - 1)).alloc)

/-- All stored prev-alloc bits are accurate, including the epilogue's. -/
def PrevBits (h : Heap) : Prop :=
  (∀ k < h.blocks.length, prevOkAt h.blocks k) ∧
    h.epiPrevAlloc =
      (if h.blocks.length = 0 then true else (nth h.blocks (h.blocks.length - 1)).alloc)

/-- The twelve class lists hold exactly the offsets of the free blocks of
their class (as multisets: same members, same counts). -/
def ListsOk (h : Heap) : Prop :=
  h.freeLists.length = 12 ∧
    ∀ c < 12, (h.freeLists.getD c [] : Multiset Nat) = (freeClass h.blocks c : Multiset Nat)

/-- Total heap size plus remaining capacity stays below the 4 GiB bound
of the 32-bit header size fields. -/
def SmallHeap (h : Heap) : Prop := sumSizes h.blocks + h.cap ≤ 2 ^ 32

/-- The allocator invariant. -/
def Inv (h : Heap) : Prop :=
  sizesPos h.blocks ∧ NoAdj h.blocks ∧ PrevBits h ∧ ListsOk h ∧ SmallHeap h

instance (bs : List Block) : Decidable (sizesPos bs) := by
  unfold sizesPos; infer_instance

instance (bs : List Block) : Decidable (NoAdj bs) := by
  unfold NoAdj; infer_instance

instance (bs : List Block) (k : Nat) : Decidable (prevOkAt bs k) := by
  unfold prevOkAt; infer_instance

instance (h : Heap) : Decidable (PrevBits h) := by
  unfold PrevBits; infer_instance

instance (h : Heap) : Decidable (ListsOk h) := by
  unfold ListsOk; infer_instance

instance (h : Heap) : Decidable (SmallHeap h) := by
  unfold SmallHeap; infer_instance

instance (h : Heap) : Decidable (Inv h) := by
  unfold Inv; infer_instance

/-- Heap states reachable through the public interface from a fresh
initialisation, under the caller contract (release and resize are applied
to currently allocated payload pointers). -/
inductive Reachable : Heap → Prop where
  | init : ∀ cap0 h, cap0 ≤ 2 ^ 32 → mm_init cap0 = some h → Reachable h
  | mstep : ∀ h n, Reachable h → Reachable (mm_malloc h n).heap
  | fstep : ∀ h off i, Reachable h → indexOfOffset h.blocks off = some i →
      (nth h.blocks i).alloc = true → Reachable (mm_free h off)
  | rstep : ∀ h off i n, Reachable h → indexOfOffset h.blocks off = some i →
      (nth h.blocks i).alloc = true → Reachable (mm_realloc h (some off) n).heap
  | rnull : ∀ h n, Reachable h → Reachable (mm_realloc h none n).heap
  | cstep : ∀ h a b, Reachable h → Reachable (mm_calloc h a b).heap

/-! Base lemmas on the list primitives used by the heap surgery. -/

theorem sumSizes_nil : sumSizes [] = 0 := rfl

theorem sumSizes_cons (b : Block) (bs : List Block) :
    sumSizes (b :: bs) = b.size + sumSizes bs := rfl

theorem sumSizes_append (xs ys : List Block) :
    sumSizes (xs ++ ys) = sumSizes xs + sumSizes ys := by
  induction xs with
  | nil => simp [sumSizes_nil]
  | cons b bs ih => simp [List.cons_append, sumSizes_cons, ih]; omega

theorem nth_cons_zero (b : Block) (bs : List Block) : nth (b :: bs) 0 = b := rfl

theorem nth_cons_succ (b : Block) (bs : List Block) (k : Nat) :
    nth (b :: bs) (k + 1) = nth bs k := rfl

theorem nth_append_left (xs ys : List Block) (k : Nat) (hk : k < xs.length) :
    nth (xs ++ ys) k = nth xs k := by
  induction xs generalizing k with
  | nil => simp at hk
  | cons b bs ih =>
    cases k with
    | zero => rfl
    | succ k =>
      simp only [List.cons_append, nth_cons_succ]
      exact ih k (by simpa using hk)

theorem nth_append_right (xs ys : List Block) (k : Nat) :
    nth (xs ++ ys) (xs.length + k) = nth ys k := by
  induction xs with
  | nil => simp
  | cons b bs ih =>
    simpa [List.cons_append, Nat.succ_add, nth_cons_succ] using ih

theorem nth_take (bs : List Block) (j k : Nat) (hk : k < j) :
    nth (bs.take j) k = nth bs k := by
  induction bs generalizing j k with
  | nil => simp [nth]
  | cons b bs ih =>
    cases j with
    | zero => omega
    | succ j =>
      cases k with
      | zero => rfl
      | succ k =>
        simp only [List.take_succ_cons, nth_cons_succ]
        exact ih j k (by omega)

theorem nth_drop (bs : List Block) (j k : Nat) :
    nth (bs.drop j) k = nth bs (j + k) := by
  induction j generalizing bs with
  | zero => simp
  | succ j ih =>
    cases bs with
    | nil => simp [nth]
    | cons b bs => simpa [Nat.succ_add, nth_cons_succ] using ih bs

theorem length_take_of_le (bs : List Block) (j : Nat) (hj : j ≤ bs.length) :
    (bs.take j).length = j := by
  simp [List.length_take]; omega

/-- The slice replaced by replaceAt. -/
def slice (bs : List Block) (j cnt : Nat) : List Block := (bs.drop j).take cnt

theorem decomp (bs : List Block) (j cnt : Nat) :
    bs = bs.take j ++ slice bs j cnt ++ bs.drop (j + cnt) := by
  have h1 : bs.drop (j + cnt) = (bs.drop j).drop cnt := by
    rw [List.drop_drop]
  rw [slice, h1, List.append_assoc, List.take_append_drop, List.take_append_drop]

theorem length_slice (bs : List Block) (j cnt : Nat) (hj : j + cnt ≤ bs.length) :
    (slice bs j cnt).length = cnt := by
  simp [slice, List.length_take, List.length_drop]; omega

theorem length_replaceAt (bs : List Block) (j cnt : Nat) (news : List Block)
    (hj : j + cnt ≤ bs.length) :
    (replaceAt bs j cnt news).length = j + news.length + (bs.length - (j + cnt)) := by
  simp [replaceAt, List.length_append, List.length_take, List.length_drop]; omega

theorem nth_replaceAt_left (bs : List Block) (j cnt : Nat) (news : List Block) (k : Nat)
    (hk : k < j) (hj : j ≤ bs.length) :
    nth (replaceAt bs j cnt news) k = nth bs k := by
  rw [replaceAt, List.append_assoc, nth_append_left, nth_take bs j k hk]
  rw [length_take_of_le bs j hj]; exact hk

theorem nth_replaceAt_mid (bs : List Block) (j cnt : Nat) (news : List Block) (k : Nat)
    (hk : k < news.length) (hj : j ≤ bs.length) :
    nth (replaceAt bs j cnt news) (j + k) = nth news k := by
  have hlen : (bs.take j).length = j := length_take_of_le bs j hj
  have h1 := nth_append_right (bs.take j) (news ++ bs.drop (j + cnt)) k
  rw [hlen] at h1
  rw [replaceAt, List.append_assoc, h1, nth_append_left _ _ k hk]

theorem nth_replaceAt_right (bs : List Block) (j cnt : Nat) (news : List Block) (k : Nat)
    (hj : j + cnt ≤ bs.length) :
    nth (replaceAt bs j cnt news) (j + news.length + k) = nth bs (j + cnt + k) := by
  have hlen : (bs.take j).length = j := length_take_of_le bs j (by omega)
  have h1 := nth_append_right (bs.take j) (news ++ bs.drop (j + cnt)) (news.length + k)
  rw [hlen] at h1
  have h2 := nth_append_right news (bs.drop (j + cnt)) k
  have h3 := nth_drop bs (j + cnt) k
  have h4 : j + news.length + k = j + (news.length + k) := by omega
  rw [replaceAt, List.append_assoc, h4, h1, h2, h3]

theorem sumSizes_slice (bs : List Block) (j cnt : Nat) :
    sumSizes bs = sumSizes (bs.take j) + sumSizes (slice bs j cnt) + sumSizes (bs.drop (j + cnt)) := by
  conv_lhs => rw [decomp bs j cnt]
  rw [sumSizes_append, sumSizes_append]

theorem sumSizes_replaceAt (bs : List Block) (j cnt : Nat) (news : List Block)
    (hsum : sumSizes news = sumSizes (slice bs j cnt)) :
    sumSizes (replaceAt bs j cnt news) = sumSizes bs := by
  rw [replaceAt, sumSizes_append, sumSizes_append, hsum]
  conv_rhs => rw [sumSizes_slice bs j cnt]

theorem take_append_of_le (xs ys : List Block) (k : Nat) (hk : k ≤ xs.length) :
    (xs ++ ys).take k = xs.take k := by
  induction xs generalizing k with
  | nil =>
    have hk0 : k = 0 := by simpa using hk
    subst hk0; simp
  | cons b bs ih =>
    cases k with
    | zero => simp
    | succ k =>
      simp only [List.cons_append, List.take_succ_cons]
      rw [ih k (by simpa using hk)]

theorem offsetOf_replaceAt_le (bs : List Block) (j cnt : Nat) (news : List Block) (k : Nat)
    (hk : k ≤ j) (hj : j ≤ bs.length) :
    offsetOf (replaceAt bs j cnt news) k = offsetOf bs k := by
  have hlen : (bs.take j).length = j := length_take_of_le bs j hj
  rw [offsetOf, offsetOf, replaceAt, List.append_assoc,
    take_append_of_le _ _ k (by omega), List.take_take]
  have hmin : min k j = k := by omega
  rw [hmin]

theorem freeOffsetsAux_append (xs ys : List Block) (cur : Nat) :
    freeOffsetsAux (xs ++ ys) cur = freeOffsetsAux xs cur ++ freeOffsetsAux ys (cur + sumSizes xs) := by
  induction xs generalizing cur with
  | nil => simp [freeOffsetsAux, sumSizes_nil]
  | cons b t ih =>
    simp only [List.cons_append, freeOffsetsAux, sumSizes_cons, List.append_eq]
    rw [ih (cur + b.size)]
    have h2 : cur + (b.size + sumSizes t) = cur + b.size + sumSizes t := by omega
    rw [h2, List.append_assoc]

theorem freeClassAux_append (c : Nat) (xs ys : List Block) (cur : Nat) :
    freeClassAux c (xs ++ ys) cur = freeClassAux c xs cur ++ freeClassAux c ys (cur + sumSizes xs) := by
  induction xs generalizing cur with
  | nil => simp [freeClassAux, sumSizes_nil]
  | cons b t ih =>
    simp only [List.cons_append, freeClassAux, sumSizes_cons, List.append_eq]
    rw [ih (cur + b.size)]
    have h2 : cur + (b.size + sumSizes t) = cur + b.size + sumSizes t := by omega
    rw [h2, List.append_assoc]

theorem idxOfAux_offset (bs : List Block) (cur k : Nat) (hk : k < bs.length)
    (hpos : ∀ b ∈ bs, 0 < b.size) :
    idxOfAux bs cur (cur + sumSizes (bs.take k)) = some k := by
  induction bs generalizing cur k with
  | nil => simp at hk
  | cons b t ih =>
    cases k with
    | zero => simp [idxOfAux, sumSizes_nil]
    | succ k =>
      have hb : 0 < b.size := hpos b (by simp)
      have hoff : cur + sumSizes ((b :: t).take (k + 1)) = cur + b.size + sumSizes (t.take k) := by
        simp [List.take_succ_cons, sumSizes_cons]; omega
      have hne : ¬ (cur = cur + sumSizes ((b :: t).take (k + 1))) := by
        rw [hoff]
        have : 0 ≤ sumSizes (t.take k) := Nat.zero_le _
        omega
      rw [idxOfAux, if_neg hne, hoff, ih (cur + b.size) k (by simpa using hk)
        (fun x hx => hpos x (by simp [hx]))]
      rfl

theorem idxOfAux_some (bs : List Block) (cur off k : Nat)
    (h : idxOfAux bs cur off = some k) :
    k < bs.length ∧ off = cur + sumSizes (bs.take k) := by
  induction bs generalizing cur k with
  | nil => simp [idxOfAux] at h
  | cons b t ih =>
    rw [idxOfAux] at h
    by_cases hc : cur = off
    · rw [if_pos hc] at h
      have hk0 : k = 0 := by
        have := Option.some.inj h
        omega
      subst hk0
      exact ⟨by simp, by simp [sumSizes_nil]; omega⟩
    · rw [if_neg hc] at h
      cases hr : idxOfAux t (cur + b.size) off with
      | none => rw [hr] at h; simp at h
      | some k' =>
        rw [hr] at h
        simp at h
        subst h
        obtain ⟨hlt, hoff⟩ := ih (cur + b.size) k' hr
        refine ⟨by simpa using hlt, ?_⟩
        simp [List.take_succ_cons, sumSizes_cons]
        omega

theorem indexOfOffset_offsetOf (bs : List Block) (k : Nat) (hk : k < bs.length)
    (hpos : sizesPos bs) :
    indexOfOffset bs (offsetOf bs k) = some k :=
  idxOfAux_offset bs 64 k hk hpos

theorem indexOfOffset_some (bs : List Block) (off k : Nat)
    (h : indexOfOffset bs off = some k) :
    k < bs.length ∧ off = offsetOf bs k :=
  idxOfAux_some bs 64 off k h

/-! Congruence: the linear-walk functions only read the size and alloc
fields of the blocks. -/

/-- Projection to the fields the linear-walk functions read. -/
def sa (b : Block) : Nat × Bool := (b.size, b.alloc)

theorem sumSizes_congr (bs bs' : List Block) (h : bs.map sa = bs'.map sa) :
    sumSizes bs = sumSizes bs' := by
  induction bs generalizing bs' with
  | nil => cases bs' with
    | nil => rfl
    | cons => simp at h
  | cons b t ih =>
    cases bs' with
    | nil => simp at h
    | cons b' t' =>
      simp only [List.map_cons, List.cons.injEq, sa, Prod.mk.injEq] at h
      obtain ⟨⟨hs, _⟩, ht⟩ := h
      rw [sumSizes_cons, sumSizes_cons, hs, ih t' ht]

theorem freeClassAux_congr (c : Nat) (bs bs' : List Block) (cur : Nat)
    (h : bs.map sa = bs'.map sa) :
    freeClassAux c bs cur = freeClassAux c bs' cur := by
  induction bs generalizing bs' cur with
  | nil => cases bs' with
    | nil => rfl
    | cons => simp at h
  | cons b t ih =>
    cases bs' with
    | nil => simp at h
    | cons b' t' =>
      simp only [List.map_cons, List.cons.injEq, sa, Prod.mk.injEq] at h
      obtain ⟨⟨hs, ha⟩, ht⟩ := h
      rw [freeClassAux, freeClassAux, hs, ha, ih t' (cur + b'.size) ht]

theorem freeOffsetsAux_congr (bs bs' : List Block) (cur : Nat)
    (h : bs.map sa = bs'.map sa) :
    freeOffsetsAux bs cur = freeOffsetsAux bs' cur := by
  induction bs generalizing bs' cur with
  | nil => cases bs' with
    | nil => rfl
    | cons => simp at h
  | cons b t ih =>
    cases bs' with
    | nil => simp at h
    | cons b' t' =>
      simp only [List.map_cons, List.cons.injEq, sa, Prod.mk.injEq] at h
      obtain ⟨⟨hs, ha⟩, ht⟩ := h
      rw [freeOffsetsAux, freeOffsetsAux, hs, ha, ih t' (cur + b'.size) ht]

theorem idxOfAux_congr (bs bs' : List Block) (cur off : Nat)
    (h : bs.map sa = bs'.map sa) :
    idxOfAux bs cur off = idxOfAux bs' cur off := by
  induction bs generalizing bs' cur with
  | nil => cases bs' with
    | nil => rfl
    | cons => simp at h
  | cons b t ih =>
    cases bs' with
    | nil => simp at h
    | cons b' t' =>
      simp only [List.map_cons, List.cons.injEq, sa, Prod.mk.injEq] at h
      obtain ⟨⟨hs, _⟩, ht⟩ := h
      rw [idxOfAux, idxOfAux, hs, ih t' (cur + b'.size) ht]

theorem nth_congr_sa (bs bs' : List Block) (h : bs.map sa = bs'.map sa) (k : Nat) :
    (nth bs k).size = (nth bs' k).size ∧ (nth bs k).alloc = (nth bs' k).alloc := by
  induction bs generalizing bs' k with
  | nil => cases bs' with
    | nil => exact ⟨rfl, rfl⟩
    | cons => simp at h
  | cons b t ih =>
    cases bs' with
    | nil => simp at h
    | cons b' t' =>
      simp only [List.map_cons, List.cons.injEq, sa, Prod.mk.injEq] at h
      obtain ⟨⟨hs, ha⟩, ht⟩ := h
      cases k with
      | zero => exact ⟨hs, ha⟩
      | succ k => simpa [nth_cons_succ] using ih t' ht k

theorem length_congr_sa (bs bs' : List Block) (h : bs.map sa = bs'.map sa) :
    bs.length = bs'.length := by
  have := congrArg List.length h
  simpa using this

theorem NoAdj_congr (bs bs' : List Block) (h : bs.map sa = bs'.map sa) :
    NoAdj bs → NoAdj bs' := by
  intro hn k hk hk1
  have hl := length_congr_sa bs bs' h
  have h1 := nth_congr_sa bs bs' h k
  have h2 := nth_congr_sa bs bs' h (k + 1)
  rw [← h1.2, ← h2.2]
  exact hn k (by omega) (by omega)

/-- A list with one element replaced by an element of the same
projection has the same projection image. -/
theorem take_getD_drop (l : List Block) (j : Nat) (hj : j < l.length) :
    l.take j ++ [nth l j] ++ l.drop (j + 1) = l := by
  induction l generalizing j with
  | nil => simp at hj
  | cons b t ih =>
    cases j with
    | zero => simp [nth_cons_zero]
    | succ j =>
      simp only [List.take_succ_cons, nth_cons_succ, List.drop_succ_cons, List.cons_append]
      rw [ih j (by simpa using hj)]

theorem map_replaceAt_singleton (f : Block → Nat × Bool) (bs : List Block) (j : Nat)
    (b' : Block) (hj : j < bs.length) (hfb : f b' = f (nth bs j)) :
    (replaceAt bs j 1 [b']).map f = bs.map f := by
  conv_rhs => rw [← take_getD_drop bs j hj]
  simp only [replaceAt, List.map_append, List.map_cons, List.map_nil, hfb]

/-! Field-preservation simp lemmas for the small state transformers. -/

theorem insert_free_blocks (h : Heap) (off size : Nat) :
    (insert_free h off size).blocks = h.blocks := rfl

theorem insert_free_cap (h : Heap) (off size : Nat) :
    (insert_free h off size).cap = h.cap := rfl

theorem insert_free_grows (h : Heap) (off size : Nat) :
    (insert_free h off size).grows = h.grows := rfl

theorem insert_free_strategy (h : Heap) (off size : Nat) :
    (insert_free h off size).strategy = h.strategy := rfl

theorem insert_free_epi (h : Heap) (off size : Nat) :
    (insert_free h off size).epiPrevAlloc = h.epiPrevAlloc := rfl

theorem remove_free_blocks (h : Heap) (off size : Nat) :
    (remove_free h off size).blocks = h.blocks := rfl

theorem remove_free_cap (h : Heap) (off size : Nat) :
    (remove_free h off size).cap = h.cap := rfl

theorem remove_free_grows (h : Heap) (off size : Nat) :
    (remove_free h off size).grows = h.grows := rfl

theorem remove_free_strategy (h : Heap) (off size : Nat) :
    (remove_free h off size).strategy = h.strategy := rfl

theorem remove_free_epi (h : Heap) (off size : Nat) :
    (remove_free h off size).epiPrevAlloc = h.epiPrevAlloc := rfl

theorem setNextPrevAlloc_freeLists (h : Heap) (i : Nat) (pa : Bool) :
    (setNextPrevAlloc h i pa).freeLists = h.freeLists := by
  unfold setNextPrevAlloc; split <;> rfl

theorem setNextPrevAlloc_cap (h : Heap) (i : Nat) (pa : Bool) :
    (setNextPrevAlloc h i pa).cap = h.cap := by
  unfold setNextPrevAlloc; split <;> rfl

theorem setNextPrevAlloc_grows (h : Heap) (i : Nat) (pa : Bool) :
    (setNextPrevAlloc h i pa).grows = h.grows := by
  unfold setNextPrevAlloc; split <;> rfl

theorem setNextPrevAlloc_strategy (h : Heap) (i : Nat) (pa : Bool) :
    (setNextPrevAlloc h i pa).strategy = h.strategy := by
  unfold setNextPrevAlloc; split <;> rfl

theorem setNextPrevAlloc_sa (h : Heap) (i : Nat) (pa : Bool) :
    (setNextPrevAlloc h i pa).blocks.map sa = h.blocks.map sa := by
  unfold setNextPrevAlloc
  split
  · exact map_replaceAt_singleton sa h.blocks (i + 1) _ (by omega) rfl
  · rfl

theorem getD_set_self (ls : List (List Nat)) (i : Nat) (x : List Nat) (hi : i < ls.length) :
    (ls.set i x).getD i [] = x := by
  induction ls generalizing i with
  | nil => simp at hi
  | cons a t ih =>
    cases i with
    | zero => rfl
    | succ i => simpa using ih i (by simpa using hi)

theorem getD_set_ne (ls : List (List Nat)) (i j : Nat) (x : List Nat) (hij : i ≠ j) :
    (ls.set i x).getD j [] = ls.getD j [] := by
  induction ls generalizing i j with
  | nil => simp
  | cons a t ih =>
    cases i with
    | zero =>
      cases j with
      | zero => exact absurd rfl hij
      | succ j => rfl
    | succ i =>
      cases j with
      | zero => rfl
      | succ j => simpa using ih i j (by omega)

/-- The heap state right after mm_init with a 10^6 byte arena capacity:
one free 8192-byte block at offset 64 in class 9, prev-alloc bit true
(the prologue), epilogue prev-alloc bit false. -/
def hInit : Heap :=
  { blocks := [{ size := 8192, alloc := false, prevAlloc := true, data := zeroData }],
    freeLists := [[], [], [], [], [], [], [], [], [], [64], [], []],
    strategy := false, epiPrevAlloc := false, cap := 991744, grows := [8192] }

theorem mm_init_million : mm_init 1000000 = some hInit := by rfl

/-- C7: resize(p, 0) has exactly the effect of release(p) on the heap
state and returns null, and resize(null, n) has exactly the state effect
and result of allocate(n); both hold for every state and pointer, in
particular for every currently allocated pointer. -/
theorem claim_c7_realloc_free_malloc :
    (∀ (h : Heap) (p : Nat), mm_realloc h (some p) 0 = ⟨mm_free h p, none⟩) ∧
    (∀ (h : Heap) (n : Nat),
      mm_realloc h none n = ⟨(mm_malloc h n).heap, (mm_malloc h n).ret⟩) :=
  ⟨fun _ _ => rfl, fun _ _ => rfl⟩

/-- C2: allocate returns null exactly when the request is 0 or a
mem_sbrk call made during the operation reported exhaustion; in every
other case the returned pointer is non-null. -/
theorem claim_c2_malloc_null_iff (h : Heap) (n : Nat) :
    (mm_malloc h n).ret = none ↔ (n = 0 ∨ (mm_malloc h n).sbrkFailed = true) := by
  unfold mm_malloc
  by_cases hn : n = 0
  · simp [hn]
  · simp only [if_neg hn]
    cases hf : find_fit h (adjust_block_size n) with
    | some off => simp [hn]
    | none =>
      cases he : extend_heap h (max (adjust_block_size n) 8192 / 4) with
      | none => simp [hn]
      | some r => simp [hn]

/-- Witness for C2 at a concrete input: on the freshly initialised heap,
allocate(0) returns null and allocate(16) returns a non-null pointer with
no growth failure. -/
theorem claim_c2_malloc_null_iff_witness :
    ((mm_malloc hInit 0).ret = none ↔ (0 = 0 ∨ (mm_malloc hInit 0).sbrkFailed = true)) ∧
    ((mm_malloc hInit 16).ret = none ↔ (16 = 0 ∨ (mm_malloc hInit 16).sbrkFailed = true)) :=
  ⟨claim_c2_malloc_null_iff hInit 0, claim_c2_malloc_null_iff hInit 16⟩

/-- C10: allocateZeroed computes its request as the machine product
nmemb * size reduced modulo 2^64 with no overflow check, behaving as
allocate of the wrapped product followed by zero-filling exactly that
wrapped number of bytes; with nmemb = 2^63 + 8 and size = 2, whose
mathematical product 2^64 + 16 exceeds the machine word range, it
returns a non-null block of only 24 bytes whose first 16 payload bytes
are zeroed. -/
theorem claim_c10_calloc_wraps :
    (∀ (h : Heap) (c z : Nat),
      mm_calloc h c z =
        (let bytes := c * z % TWO64
         let m := mm_malloc h bytes
         match m.ret with
         | some p =>
             { heap := updateDataAt m.heap p (fun d => memcpyData d zeroData bytes),
               ret := some p, sbrkFailed := m.sbrkFailed }
         | none => m)) ∧
    (2 ^ 63 + 8) * 2 % TWO64 = 16 ∧
    (2 ^ 63 + 8) * 2 = 2 ^ 64 + 16 ∧
    (mm_calloc hInit (2 ^ 63 + 8) 2).ret = some 64 ∧
    (nth (mm_calloc hInit (2 ^ 63 + 8) 2).heap.blocks 0).size = 24 ∧
    (∀ k < 16, (nth (mm_calloc hInit (2 ^ 63 + 8) 2).heap.blocks 0).data k = 0) := by
  refine ⟨fun h c z => rfl, by decide, by norm_num, ?_, ?_, ?_⟩
  · decide
  · decide
  · decide

/-! Field preservation through coalesce and place, and the growth
arithmetic of extend_heap: needed for the allocation-miss claims. -/

theorem coalesce_grows (h : Heap) (i : Nat) : (coalesce h i).1.grows = h.grows := by
  unfold coalesce
  rw [setNextPrevAlloc_grows, insert_free_grows]
  dsimp only
  split <;> split <;> rfl

theorem coalesce_cap (h : Heap) (i : Nat) : (coalesce h i).1.cap = h.cap := by
  unfold coalesce
  rw [setNextPrevAlloc_cap, insert_free_cap]
  dsimp only
  split <;> split <;> rfl

theorem coalesce_strategy (h : Heap) (i : Nat) : (coalesce h i).1.strategy = h.strategy := by
  unfold coalesce
  rw [setNextPrevAlloc_strategy, insert_free_strategy]
  dsimp only
  split <;> split <;> rfl

theorem place_grows (h : Heap) (off asize : Nat) : (place h off asize).1.grows = h.grows := by
  unfold place
  cases indexOfOffset h.blocks off with
  | none => rfl
  | some i =>
    dsimp only
    split
    · split
      · rw [setNextPrevAlloc_grows, insert_free_grows]; rfl
      · rw [setNextPrevAlloc_grows, insert_free_grows]; rfl
    · rw [setNextPrevAlloc_grows]; rfl

theorem place_cap (h : Heap) (off asize : Nat) : (place h off asize).1.cap = h.cap := by
  unfold place
  cases indexOfOffset h.blocks off with
  | none => rfl
  | some i =>
    dsimp only
    split
    · split
      · rw [setNextPrevAlloc_cap, insert_free_cap]; rfl
      · rw [setNextPrevAlloc_cap, insert_free_cap]; rfl
    · rw [setNextPrevAlloc_cap]; rfl

theorem adjust_mod8 (n : Nat) : adjust_block_size n % 8 = 0 := by
  unfold adjust_block_size alignUp8
  dsimp only
  split
  · rfl
  · omega

theorem extendsize_eq (h : Heap) (e : Nat) (he8 : e % 8 = 0) (hcap : e ≤ h.cap) :
    extend_heap h (e / 4) =
      (let newb : Block := { size := e, alloc := false, prevAlloc := h.epiPrevAlloc, data := zeroData }
       let h1 : Heap :=
         { h with blocks := h.blocks ++ [newb], cap := h.cap - e,
                  grows := e :: h.grows, epiPrevAlloc := false }
       let r := coalesce h1 h.blocks.length
       some (r.1, offsetOf r.1.blocks r.2)) := by
  unfold extend_heap
  have hwords : (e / 4) % 2 = 0 := by omega
  have hsz : (if (e / 4) % 2 = 1 then e / 4 + 1 else e / 4) * 4 = e := by
    rw [if_neg (by omega)]
    omega
  rw [hsz, if_pos hcap]

/-- C8: when allocate misses in the free-list index it grows the heap by
exactly max(asize, CHUNKSIZE) = max(adjusted size, 8192) bytes (one
successful growth logged), treats the new space as one free block and
coalesces it with the free block preceding the old epilogue; concretely,
allocate(100000) on the freshly initialised arena performs exactly one
growth of 100008 >= adjusted size bytes, absorbs the pre-existing free
8192-byte block into the carved region, and the resulting block's
predecessor-allocated bit is true since its predecessor is the prologue. -/
theorem claim_c8_extend_on_miss (h : Heap) (n : Nat) (hn : n ≠ 0)
    (hf : find_fit h (adjust_block_size n) = none)
    (hcap : max (adjust_block_size n) 8192 ≤ h.cap) :
    (mm_malloc h n).heap.grows = (max (adjust_block_size n) 8192) :: h.grows ∧
    adjust_block_size 100000 = 100008 ∧
    max (adjust_block_size 100000) 8192 = 100008 ∧
    (mm_malloc hInit 100000).ret = some 64 ∧
    (mm_malloc hInit 100000).heap.grows = [100008, 8192] ∧
    (nth (mm_malloc hInit 100000).heap.blocks 0).prevAlloc = true ∧
    (nth (mm_malloc hInit 100000).heap.blocks 0).alloc = true ∧
    (nth (mm_malloc hInit 100000).heap.blocks 0).size = 100008 ∧
    (nth (mm_malloc hInit 100000).heap.blocks 1).size = 8192 ∧
    (nth (mm_malloc hInit 100000).heap.blocks 1).alloc = false ∧
    (mm_malloc hInit 100000).heap.blocks.length = 2 ∧
    offsetOf (mm_malloc hInit 100000).heap.blocks 0 = 64 := by
  refine ⟨?_, by decide, by decide, by decide, by decide, by decide, by decide,
    by decide, by decide, by decide, by decide, by decide⟩
  unfold mm_malloc
  rw [if_neg hn]
  dsimp only
  rw [hf]
  have he8 : (max (adjust_block_size n) 8192) % 8 = 0 := by
    have := adjust_mod8 n
    rcases Nat.le_total (adjust_block_size n) 8192 with hle | hle
    · rw [Nat.max_eq_right hle]
    · rw [Nat.max_eq_left hle]; omega
  rw [extendsize_eq h (max (adjust_block_size n) 8192) he8 hcap]
  dsimp only
  rw [place_grows, coalesce_grows]

/-- Witness for C8: the growth equation instantiated on the freshly
initialised heap with request 100000. -/
theorem claim_c8_extend_on_miss_witness :
    (mm_malloc hInit 100000).heap.grows = (max (adjust_block_size 100000) 8192) :: hInit.grows :=
  (claim_c8_extend_on_miss hInit 100000 (by decide) (by decide) (by decide)).1

/-! Lemmas for reading the blocks of a same-length replacement and of
setNextPrevAlloc at unchanged positions. -/

theorem nth_replaceAt_out (bs : List Block) (j cnt : Nat) (news : List Block) (k : Nat)
    (hnews : news.length = cnt) (hj : j + cnt ≤ bs.length) (hk : k < j ∨ j + cnt ≤ k) :
    nth (replaceAt bs j cnt news) k = nth bs k := by
  rcases hk with hk | hk
  · exact nth_replaceAt_left bs j cnt news k hk (by omega)
  · have hm : k = j + news.length + (k - j - cnt) := by omega
    rw [hm, nth_replaceAt_right bs j cnt news _ hj]
    congr 1
    omega

theorem nth_setNextPrevAlloc_of_ne (h : Heap) (i : Nat) (pa : Bool) (k : Nat)
    (hk : k ≠ i + 1) :
    nth (setNextPrevAlloc h i pa).blocks k = nth h.blocks k := by
  unfold setNextPrevAlloc
  split
  · next hlt =>
    exact nth_replaceAt_out h.blocks (i + 1) 1 _ k rfl (by omega) (by omega)
  · rfl

theorem length_setNextPrevAlloc (h : Heap) (i : Nat) (pa : Bool) :
    (setNextPrevAlloc h i pa).blocks.length = h.blocks.length := by
  unfold setNextPrevAlloc
  split
  · next hlt =>
    rw [length_replaceAt h.blocks (i + 1) 1 _ (by omega)]
    simp
    omega
  · rfl

theorem wsub_eq (a b : Nat) (hle : b ≤ a) (hlt : a < TWO64) : wsub a b = a - b := by
  have hb : b % TWO64 = b := Nat.mod_eq_of_lt (by omega)
  rw [wsub, hb]
  have h1 : a + TWO64 - b = (a - b) + TWO64 := by omega
  rw [h1, Nat.add_mod_right]
  exact Nat.mod_eq_of_lt (by omega)

theorem list_index_lt_12 (size : Nat) : list_index size < 12 := by
  unfold list_index
  dsimp only
  split
  · omega
  · split <;> omega

/-- C4: place allocates the whole free block without splitting when the
leftover csize - asize is below MIN_BLOCK_SIZE = 16, leaving the
placement-direction flag untouched; otherwise it splits and toggles the
persistent flag, carving the allocation from the front (remainder
reinserted behind it) when the flag is 0 and from the back (remainder
reinserted in front of it) when the flag is 1. -/
theorem claim_c4_place_alternation (h : Heap) (off asize i : Nat)
    (hidx : indexOfOffset h.blocks off = some i)
    (hlen12 : h.freeLists.length = 12)
    (hle : asize ≤ (nth h.blocks i).size)
    (hlt : (nth h.blocks i).size < TWO64) :
    (((nth h.blocks i).size - asize < 16 →
       (place h off asize).2 = off ∧
       (place h off asize).1.strategy = h.strategy ∧
       (place h off asize).1.blocks.length = h.blocks.length ∧
       nth (place h off asize).1.blocks i = { nth h.blocks i with alloc := true })) ∧
    (16 ≤ (nth h.blocks i).size - asize → h.strategy = false →
       (place h off asize).2 = off ∧
       (place h off asize).1.strategy = true ∧
       (place h off asize).1.blocks.length = h.blocks.length + 1 ∧
       nth (place h off asize).1.blocks i =
         { size := asize, alloc := true, prevAlloc := (nth h.blocks i).prevAlloc,
           data := (nth h.blocks i).data } ∧
       nth (place h off asize).1.blocks (i + 1) =
         { size := (nth h.blocks i).size - asize, alloc := false, prevAlloc := true,
           data := zeroData } ∧
       (off + asize) ∈
         (place h off asize).1.freeLists.getD (list_index ((nth h.blocks i).size - asize)) []) ∧
    (16 ≤ (nth h.blocks i).size - asize → h.strategy = true →
       (place h off asize).2 = off + ((nth h.blocks i).size - asize) ∧
       (place h off asize).1.strategy = false ∧
       (place h off asize).1.blocks.length = h.blocks.length + 1 ∧
       nth (place h off asize).1.blocks i =
         { size := (nth h.blocks i).size - asize, alloc := false,
           prevAlloc := (nth h.blocks i).prevAlloc, data := zeroData } ∧
       nth (place h off asize).1.blocks (i + 1) =
         { size := asize, alloc := true, prevAlloc := false,
           data := shiftData (nth h.blocks i).data ((nth h.blocks i).size - asize) } ∧
       off ∈
         (place h off asize).1.freeLists.getD (list_index ((nth h.blocks i).size - asize)) []) := by
  obtain ⟨hi, hoffeq⟩ := indexOfOffset_some h.blocks off i hidx
  have hw := wsub_eq (nth h.blocks i).size asize hle hlt
  have hfl : ∀ sz, (remove_free h off sz).freeLists.length = 12 := by
    intro sz
    unfold remove_free
    dsimp only
    rw [List.length_set]
    exact hlen12
  unfold place
  rw [hidx]
  dsimp only
  rw [hw]
  refine ⟨?_, ?_, ?_⟩
  · intro hsmall
    rw [if_neg (by omega)]
    refine ⟨rfl, ?_, ?_, ?_⟩
    · rw [setNextPrevAlloc_strategy]; rfl
    · rw [length_setNextPrevAlloc]
      dsimp only
      rw [remove_free_blocks, length_replaceAt h.blocks i 1 _ (by omega)]
      simp
      omega
    · rw [nth_setNextPrevAlloc_of_ne _ _ _ i (by omega)]
      dsimp only
      rw [remove_free_blocks]
      have hm := nth_replaceAt_mid h.blocks i 1
        [{ nth h.blocks i with alloc := true }] 0 (by simp) (by omega)
      simpa using hm
  · intro hbig hstr
    rw [if_pos (by omega)]
    have hstr' : (remove_free h off (nth h.blocks i).size).strategy = false := hstr
    rw [if_pos hstr']
    refine ⟨rfl, ?_, ?_, ?_, ?_, ?_⟩
    · rw [setNextPrevAlloc_strategy, insert_free_strategy]
    · rw [length_setNextPrevAlloc, insert_free_blocks]
      dsimp only
      rw [remove_free_blocks, length_replaceAt h.blocks i 1 _ (by omega)]
      simp
      omega
    · rw [nth_setNextPrevAlloc_of_ne _ _ _ i (by omega), insert_free_blocks]
      dsimp only
      rw [remove_free_blocks]
      have hm := nth_replaceAt_mid h.blocks i 1
        [{ size := asize, alloc := true, prevAlloc := (nth h.blocks i).prevAlloc,
            data := (nth h.blocks i).data },
         { size := (nth h.blocks i).size - asize, alloc := false, prevAlloc := true,
            data := zeroData }] 0 (by simp) (by omega)
      simpa using hm
    · rw [nth_setNextPrevAlloc_of_ne _ _ _ (i + 1) (by omega), insert_free_blocks]
      dsimp only
      rw [remove_free_blocks]
      exact nth_replaceAt_mid h.blocks i 1
        [{ size := asize, alloc := true, prevAlloc := (nth h.blocks i).prevAlloc,
            data := (nth h.blocks i).data },
         { size := (nth h.blocks i).size - asize, alloc := false, prevAlloc := true,
            data := zeroData }] 1 (by simp) (by omega)
    · rw [setNextPrevAlloc_freeLists]
      unfold insert_free
      dsimp only
      rw [getD_set_self _ _ _ (by rw [hfl]; exact list_index_lt_12 _)]
      exact List.mem_cons_self _ _
  · intro hbig hstr
    rw [if_pos (by omega)]
    have hstr' : ¬ ((remove_free h off (nth h.blocks i).size).strategy = false) := by
      simpa [remove_free] using hstr
    rw [if_neg hstr']
    refine ⟨rfl, ?_, ?_, ?_, ?_, ?_⟩
    · rw [setNextPrevAlloc_strategy, insert_free_strategy]
    · rw [length_setNextPrevAlloc, insert_free_blocks]
      dsimp only
      rw [remove_free_blocks, length_replaceAt h.blocks i 1 _ (by omega)]
      simp
      omega
    · rw [nth_setNextPrevAlloc_of_ne _ _ _ i (by omega), insert_free_blocks]
      dsimp only
      rw [remove_free_blocks]
      have hm := nth_replaceAt_mid h.blocks i 1
        [{ size := (nth h.blocks i).size - asize, alloc := false,
            prevAlloc := (nth h.blocks i).prevAlloc, data := zeroData },
         { size := asize, alloc := true, prevAlloc := false,
            data := shiftData (nth h.blocks i).data ((nth h.blocks i).size - asize) }] 0
        (by simp) (by omega)
      simpa using hm
    · rw [nth_setNextPrevAlloc_of_ne _ _ _ (i + 1) (by omega), insert_free_blocks]
      dsimp only
      rw [remove_free_blocks]
      exact nth_replaceAt_mid h.blocks i 1
        [{ size := (nth h.blocks i).size - asize, alloc := false,
            prevAlloc := (nth h.blocks i).prevAlloc, data := zeroData },
         { size := asize, alloc := true, prevAlloc := false,
            data := shiftData (nth h.blocks i).data ((nth h.blocks i).size - asize) }] 1
        (by simp) (by omega)
    · rw [setNextPrevAlloc_freeLists]
      unfold insert_free
      dsimp only
      rw [getD_set_self _ _ _ (by rw [hfl]; exact list_index_lt_12 _)]
      exact List.mem_cons_self _ _

/-- Witness for C4 on the freshly initialised heap: carving 24 bytes out
of the free 8192-byte block splits from the front and toggles the flag. -/
theorem claim_c4_place_alternation_witness :
    (place hInit 64 24).2 = 64 ∧ (place hInit 64 24).1.strategy = true ∧
    nth (place hInit 64 24).1.blocks 1 =
      { size := (nth hInit.blocks 0).size - 24, alloc := false, prevAlloc := true,
        data := zeroData } :=
  ⟨((claim_c4_place_alternation hInit 64 24 0 (by decide) (by decide) (by decide)
      (by decide)).2.1 (by decide) rfl).1,
   ((claim_c4_place_alternation hInit 64 24 0 (by decide) (by decide) (by decide)
      (by decide)).2.1 (by decide) rfl).2.1,
   ((claim_c4_place_alternation hInit 64 24 0 (by decide) (by decide) (by decide)
      (by decide)).2.1 (by decide) rfl).2.2.2.2.1⟩

theorem scanClass_nofit (bs : List Block) (asize : Nat) (lst : List Nat)
    (hall : ∀ off ∈ lst, szOf bs off < asize) (count : Nat) :
    scanClass bs asize lst count none 0 = (none, lst.length) := by
  induction lst generalizing count with
  | nil => rfl
  | cons off rest ih =>
    have hoff := hall off (by simp)
    have hne : ¬ (szOf bs off = asize) := by omega
    have hgt : ¬ (asize < szOf bs off) := by omega
    simp only [scanClass, if_neg hne, hgt, decide_False, Bool.false_and, Bool.and_false,
      Bool.false_eq_true, if_false, Option.isSome_none, List.length_cons]
    rw [ih (fun o ho => hall o (by simp [ho])) (count + 1)]

theorem scanClass_isSome_of_best (bs : List Block) (asize : Nat) (lst : List Nat)
    (count : Nat) (best : Option Nat) (bestSize : Nat) (hb : best.isSome = true) :
    ((scanClass bs asize lst count best bestSize).1).isSome = true := by
  induction lst generalizing count best bestSize with
  | nil => simpa [scanClass] using hb
  | cons o rest ih =>
    simp only [scanClass]
    by_cases h1 : szOf bs o = asize
    · simp [h1]
    · rw [if_neg h1]
      by_cases hnb : (decide (asize < szOf bs o) && (best.isNone || decide (szOf bs o < bestSize))) = true
      · simp only [hnb, Bool.true_and, Option.isSome_some, Bool.and_true, decide_eq_true_eq,
          eq_self_iff_true, if_true]
        split
        · simp
        · split
          · simp
          · exact ih (count + 1) (some o) (szOf bs o) rfl
      · simp only [Bool.not_eq_true] at hnb
        simp only [hnb, Bool.false_and, Bool.false_eq_true, if_false]
        split
        · simpa using hb
        · exact ih (count + 1) best bestSize hb


theorem scanClass_step_unfit (bs : List Block) (asize : Nat) (o : Nat) (rest : List Nat)
    (count : Nat) (h1 : ¬ szOf bs o = asize) (h2 : ¬ asize < szOf bs o) :
    scanClass bs asize (o :: rest) count none 0 =
      ((scanClass bs asize rest (count + 1) none 0).1,
       (scanClass bs asize rest (count + 1) none 0).2 + 1) := by
  have hnb : (decide (asize < szOf bs o) && ((none : Option Nat).isNone || decide (szOf bs o < 0))) = false := by
    simp [h2]
  simp only [scanClass, if_neg h1, hnb, Bool.false_and, Bool.false_eq_true, if_false,
    Option.isSome_none, Bool.and_false]

theorem scanClass_none (bs : List Block) (asize : Nat) (lst : List Nat) (count : Nat)
    (h : (scanClass bs asize lst count none 0).1 = none) :
    ∀ off ∈ lst, szOf bs off < asize := by
  induction lst generalizing count with
  | nil => simp
  | cons o rest ih =>
    have hunfit : szOf bs o < asize := by
      by_cases h1 : szOf bs o = asize
      · exfalso
        simp [scanClass, if_pos h1] at h
      · by_cases h2 : asize < szOf bs o
        · exfalso
          have hs : ((scanClass bs asize (o :: rest) count none 0).1).isSome = true := by
            have hnb : (decide (asize < szOf bs o) &&
                ((none : Option Nat).isNone || decide (szOf bs o < 0))) = true := by
              simp [h2]
            simp only [scanClass, if_neg h1, hnb, Bool.true_and, Option.isSome_some,
              Bool.and_true, decide_eq_true_eq, eq_self_iff_true, if_true]
            split
            · simp
            · split
              · simp
              · exact scanClass_isSome_of_best bs asize rest (count + 1) (some o) (szOf bs o) rfl
          rw [h] at hs
          simp at hs
        · omega
    intro x hx
    rcases List.mem_cons.mp hx with hxo | hxr
    · subst hxo; exact hunfit
    · have h1 : ¬ szOf bs o = asize := by omega
      have h2 : ¬ asize < szOf bs o := by omega
      have hstep := scanClass_step_unfit bs asize o rest count h1 h2
      refine ih (count + 1) ?_ x hxr
      rw [hstep] at h
      exact h

theorem scanClass_some_mem (bs : List Block) (asize : Nat) (lst lst0 : List Nat)
    (count : Nat) (best : Option Nat) (bestSize : Nat)
    (hbest : ∀ b, best = some b → (b ∈ lst0 ∧ asize ≤ szOf bs b))
    (hsub : ∀ x ∈ lst, x ∈ lst0) (off : Nat)
    (h : (scanClass bs asize lst count best bestSize).1 = some off) :
    off ∈ lst0 ∧ asize ≤ szOf bs off := by
  induction lst generalizing count best bestSize with
  | nil =>
    simp [scanClass] at h
    exact hbest off h
  | cons o rest ih =>
    by_cases h1 : szOf bs o = asize
    · simp only [scanClass, if_pos h1] at h
      simp at h
      subst h
      exact ⟨hsub o (by simp), by omega⟩
    · rw [scanClass, if_neg h1] at h
      by_cases hnb : (decide (asize < szOf bs o) && (best.isNone || decide (szOf bs o < bestSize))) = true
      · have hlt : asize < szOf bs o := by
          have := hnb
          simp only [Bool.and_eq_true, decide_eq_true_eq] at this
          exact this.1
        simp only [hnb, Bool.true_and, Option.isSome_some, Bool.and_true, decide_eq_true_eq,
          eq_self_iff_true, if_true] at h
        split at h
        · simp at h
          subst h
          exact ⟨hsub o (by simp), by omega⟩
        · split at h
          · simp at h
            subst h
            exact ⟨hsub o (by simp), by omega⟩
          · refine ih (count + 1) (some o) (szOf bs o) ?_ (fun x hx => hsub x (by simp [hx])) h
            intro b hb
            have hbo : o = b := by injection hb
            subst hbo
            exact ⟨hsub o (by simp), by omega⟩
      · simp only [Bool.not_eq_true] at hnb
        simp only [hnb, Bool.false_and, Bool.false_eq_true, if_false] at h
        split at h
        · simp at h
          exact hbest off h
        · exact ih (count + 1) best bestSize hbest (fun x hx => hsub x (by simp [hx])) h

theorem scanClass_visits_bounded (bs : List Block) (asize : Nat) (lst : List Nat)
    (count : Nat) (best : Option Nat) (bestSize : Nat) (hb : best.isSome = true) :
    (scanClass bs asize lst count best bestSize).2 ≤ max (3 - count) 1 := by
  induction lst generalizing count best bestSize with
  | nil =>
    simp only [scanClass]
    omega
  | cons o rest ih =>
    by_cases h1 : szOf bs o = asize
    · simp only [scanClass, if_pos h1]
      omega
    · simp only [scanClass, if_neg h1]
      by_cases hnb : (decide (asize < szOf bs o) && (best.isNone || decide (szOf bs o < bestSize))) = true
      · simp only [hnb, Bool.true_and, Option.isSome_some, Bool.and_true, decide_eq_true_eq,
          eq_self_iff_true, if_true]
        split
        · omega
        · split
          · omega
          · rename_i hc
            have hrec := ih (count + 1) (some o) (szOf bs o) rfl
            dsimp only
            omega
      · simp only [Bool.not_eq_true] at hnb
        simp only [hnb, Bool.false_and, Bool.false_eq_true, if_false]
        split
        · omega
        · rename_i hc
          have hc2 : ¬ (2 < count + 1) := by
            intro hlt
            exact hc (by simp [hb, hlt])
          have hrec := ih (count + 1) best bestSize hb
          dsimp only
          omega

theorem scanClass_after_fit_visits (bs : List Block) (asize : Nat) (pre rest : List Nat)
    (o : Nat) (hpre : ∀ x ∈ pre, szOf bs x < asize) (ho : asize ≤ szOf bs o) (count : Nat) :
    (scanClass bs asize (pre ++ o :: rest) count none 0).2 ≤ max (3 - count) (pre.length + 1) := by
  induction pre generalizing count with
  | nil =>
    simp only [List.nil_append, List.length_nil]
    by_cases h1 : szOf bs o = asize
    · simp only [scanClass, if_pos h1]
      omega
    · have h2 : asize < szOf bs o := by omega
      have hnb : (decide (asize < szOf bs o) &&
          ((none : Option Nat).isNone || decide (szOf bs o < 0))) = true := by
        simp [h2]
      simp only [scanClass, if_neg h1, hnb, Bool.true_and, Option.isSome_some, Bool.and_true,
        decide_eq_true_eq, eq_self_iff_true, if_true]
      split
      · omega
      · split
        · omega
        · rename_i hc
          have hrec := scanClass_visits_bounded bs asize rest (count + 1) (some o) (szOf bs o) rfl
          dsimp only
          omega
  | cons x pre' ih =>
    have hx := hpre x (by simp)
    have h1 : ¬ szOf bs x = asize := by omega
    have h2 : ¬ asize < szOf bs x := by omega
    rw [List.cons_append, scanClass_step_unfit bs asize x (pre' ++ o :: rest) count h1 h2]
    have hrec := ih (fun y hy => hpre y (by simp [hy])) (count + 1)
    dsimp only
    simp only [List.length_cons]
    omega

theorem scanClass_first_fit (bs : List Block) (asize : Nat) (pre rest : List Nat) (o : Nat)
    (hpre : ∀ x ∈ pre, szOf bs x < asize) (ho : asize ≤ szOf bs o)
    (hclose : szOf bs o - asize ≤ 32) (count : Nat) :
    scanClass bs asize (pre ++ o :: rest) count none 0 = (some o, pre.length + 1) := by
  induction pre generalizing count with
  | nil =>
    simp only [List.nil_append, List.length_nil]
    by_cases h1 : szOf bs o = asize
    · simp [scanClass, h1]
    · have h2 : asize < szOf bs o := by omega
      have hnb : (decide (asize < szOf bs o) &&
          ((none : Option Nat).isNone || decide (szOf bs o < 0))) = true := by
        simp [h2]
      simp only [scanClass, if_neg h1, hnb, Bool.true_and, decide_eq_true_eq]
      rw [if_pos hclose]
  | cons x pre' ih =>
    have hx := hpre x (by simp)
    have h1 : ¬ szOf bs x = asize := by omega
    have h2 : ¬ asize < szOf bs x := by omega
    rw [List.cons_append, scanClass_step_unfit bs asize x (pre' ++ o :: rest) count h1 h2,
      ih (fun y hy => hpre y (by simp [hy])) (count + 1)]
    simp

theorem findLoop_some (bs : List Block) (fls : List (List Nat)) (asize : Nat)
    (fuel : Nat) : ∀ (i off : Nat), findLoop bs fls asize fuel i = some off →
    ∃ c, i ≤ c ∧ c < 12 ∧ off ∈ fls.getD c [] ∧ asize ≤ szOf bs off := by
  induction fuel with
  | zero => intro i off h; simp [findLoop] at h
  | succ fuel ih =>
    intro i off h
    rw [findLoop] at h
    by_cases hi : 12 ≤ i
    · rw [if_pos hi] at h; simp at h
    · rw [if_neg hi] at h
      cases hs : (scanClass bs asize (fls.getD i []) 0 none 0).1 with
      | some off' =>
        rw [hs] at h
        simp at h
        subst h
        have hmem := scanClass_some_mem bs asize (fls.getD i []) (fls.getD i []) 0 none 0
          (fun b hb => by simp at hb) (fun x hx => hx) off' hs
        exact ⟨i, le_refl i, by omega, hmem.1, hmem.2⟩
      | none =>
        rw [hs] at h
        obtain ⟨c, hc1, hc2, hc3, hc4⟩ := ih (i + 1) off h
        exact ⟨c, by omega, hc2, hc3, hc4⟩

theorem findLoop_none (bs : List Block) (fls : List (List Nat)) (asize : Nat)
    (fuel : Nat) : ∀ (i : Nat), findLoop bs fls asize fuel i = none →
    ∀ c, i ≤ c → c < i + fuel → c < 12 → ∀ off ∈ fls.getD c [], szOf bs off < asize := by
  induction fuel with
  | zero => intro i h c hc1 hc2; omega
  | succ fuel ih =>
    intro i h c hc1 hc2 hc3 off hoff
    rw [findLoop] at h
    by_cases hi : 12 ≤ i
    · omega
    · rw [if_neg hi] at h
      cases hs : (scanClass bs asize (fls.getD i []) 0 none 0).1 with
      | some off' => rw [hs] at h; simp at h
      | none =>
        rw [hs] at h
        by_cases hci : c = i
        · subst hci
          exact scanClass_none bs asize (fls.getD c []) 0 hs off hoff
        · exact ih (i + 1) h c (by omega) (by omega) hc3 off hoff

theorem bitlenAux_mono (fuel : Nat) : ∀ x y, x ≤ y → bitlenAux fuel x ≤ bitlenAux fuel y := by
  induction fuel with
  | zero => intro x y _; simp [bitlenAux]
  | succ fuel ih =>
    intro x y hxy
    by_cases hx : x = 0
    · subst hx
      simp [bitlenAux]
    · have hy : ¬ y = 0 := by omega
      simp only [bitlenAux, if_neg hx, if_neg hy]
      have := ih (x / 2) (y / 2) (Nat.div_le_div_right hxy)
      omega

theorem list_index_mono (s t : Nat) (hst : s ≤ t) : list_index s ≤ list_index t := by
  have hb : bitlen (s - 1) ≤ bitlen (t - 1) := bitlenAux_mono 64 _ _ (by omega)
  by_cases h1 : 16 ≤ bitlen (s - 1) <;> by_cases h2 : 16 ≤ bitlen (t - 1) <;>
    by_cases h3 : bitlen (s - 1) < 4 <;> by_cases h4 : bitlen (t - 1) < 4 <;>
    simp [list_index, h1, h2, h3, h4] <;> omega

theorem freeClassAux_mem (c : Nat) (bs : List Block) : ∀ (cur off : Nat),
    off ∈ freeClassAux c bs cur →
    ∃ k, k < bs.length ∧ off = cur + sumSizes (bs.take k) ∧
      (nth bs k).alloc = false ∧ list_index (nth bs k).size = c := by
  induction bs with
  | nil => intro cur off h; simp [freeClassAux] at h
  | cons b t ih =>
    intro cur off h
    rw [freeClassAux] at h
    rcases List.mem_append.mp h with h1 | h2
    · by_cases hcond : (b.alloc = false ∧ list_index b.size = c)
      · rw [if_pos hcond] at h1
        simp at h1
        subst h1
        exact ⟨0, by simp, by simp [sumSizes_nil], hcond.1, hcond.2⟩
      · rw [if_neg hcond] at h1
        simp at h1
    · obtain ⟨k, hk, hoff, ha, hcl⟩ := ih (cur + b.size) off h2
      refine ⟨k + 1, by simpa using hk, ?_, ?_, ?_⟩
      · simp only [List.take_succ_cons, sumSizes_cons]
        omega
      · rw [nth_cons_succ]; exact ha
      · rw [nth_cons_succ]; exact hcl

theorem class_list_mem (h : Heap) (hpos : sizesPos h.blocks) (hlists : ListsOk h)
    (c off : Nat) (hc : c < 12) (hoff : off ∈ h.freeLists.getD c []) :
    ∃ k, indexOfOffset h.blocks off = some k ∧ (nth h.blocks k).alloc = false ∧
      list_index (nth h.blocks k).size = c ∧ szOf h.blocks off = (nth h.blocks k).size := by
  have hms := hlists.2 c hc
  have hmem : off ∈ freeClass h.blocks c := by
    have h1 : off ∈ (h.freeLists.getD c [] : Multiset Nat) := by simpa using hoff
    rw [hms] at h1
    simpa using h1
  obtain ⟨k, hk, hoffeq, ha, hcl⟩ := freeClassAux_mem c h.blocks 64 off hmem
  have hidx : indexOfOffset h.blocks off = some k := by
    rw [hoffeq]
    exact idxOfAux_offset h.blocks 64 k hk hpos
  refine ⟨k, hidx, ha, hcl, ?_⟩
  rw [szOf, hidx]

/-- An allocator state with five free 136-byte blocks (all in size class
4) separated by allocated 24-byte blocks. -/
def hC5 : Heap :=
  { blocks :=
      [ { size := 136, alloc := false, prevAlloc := true, data := zeroData },
        { size := 24, alloc := true, prevAlloc := false, data := zeroData },
        { size := 136, alloc := false, prevAlloc := true, data := zeroData },
        { size := 24, alloc := true, prevAlloc := false, data := zeroData },
        { size := 136, alloc := false, prevAlloc := true, data := zeroData },
        { size := 24, alloc := true, prevAlloc := false, data := zeroData },
        { size := 136, alloc := false, prevAlloc := true, data := zeroData },
        { size := 24, alloc := true, prevAlloc := false, data := zeroData },
        { size := 136, alloc := false, prevAlloc := true, data := zeroData } ],
    freeLists := [[], [], [], [], [64, 224, 384, 544, 704], [], [], [], [], [], [], []],
    strategy := false, epiPrevAlloc := false, cap := 1000, grows := [] }

/-- Counterexample to C5 as stated: in the invariant-satisfying state
hC5, the find_fit scan of size class 4 for the adjusted request 256
(= adjust_block_size 252) examines all five nodes of the five-node class
list --- the whole list --- because the scan-depth cap (count > 2) only
takes effect once an exact-or-larger candidate has been recorded, and no
block of the class fits.  So the per-class candidate count is not
bounded and the whole list can be examined. -/
theorem claim_c5_counterexample :
    Inv hC5 ∧
    adjust_block_size 252 = 256 ∧
    list_index 256 = 4 ∧
    (hC5.freeLists.getD 4 []).length = 5 ∧
    (scanClass hC5.blocks 256 (hC5.freeLists.getD 4 []) 0 none 0).2 = 5 ∧
    find_fit hC5 256 = none := by
  refine ⟨by decide, by decide, by decide, by decide, by decide, by decide⟩

/-- C5 (amended): findFit scans the size classes from the smallest
sufficient class upward; a returned pointer always comes from a scanned
class list and points to an exact-or-larger block; none is returned only
when no class list holds a sufficient candidate; a first sufficient
candidate with slack at most 32 (in particular an exact match) is
accepted immediately at its position p (1-based); after the first
sufficient candidate at position p, the class scan examines at most
max 3 p nodes in total; but a class list without any sufficient
candidate is traversed in full, so the per-class work is not bounded by
a constant. -/
theorem claim_c5_find_fit_amended :
    (∀ (h : Heap) (asize : Nat), find_fit h asize = none →
       ∀ c, list_index asize ≤ c → c < 12 →
         ∀ off ∈ h.freeLists.getD c [], szOf h.blocks off < asize) ∧
    (∀ (h : Heap) (asize : Nat), sizesPos h.blocks → ListsOk h → find_fit h asize = none →
       ∀ c, c < 12 → ∀ off ∈ h.freeLists.getD c [], szOf h.blocks off < asize) ∧
    (∀ (h : Heap) (asize off : Nat), find_fit h asize = some off →
       ∃ c, list_index asize ≤ c ∧ c < 12 ∧ off ∈ h.freeLists.getD c [] ∧
         asize ≤ szOf h.blocks off) ∧
    (∀ (bs : List Block) (asize : Nat) (lst : List Nat),
       (∀ off ∈ lst, szOf bs off < asize) →
       scanClass bs asize lst 0 none 0 = (none, lst.length)) ∧
    (∀ (bs : List Block) (asize : Nat) (pre rest : List Nat) (o : Nat),
       (∀ x ∈ pre, szOf bs x < asize) → asize ≤ szOf bs o →
       (scanClass bs asize (pre ++ o :: rest) 0 none 0).2 ≤ max 3 (pre.length + 1)) ∧
    (∀ (bs : List Block) (asize : Nat) (pre rest : List Nat) (o : Nat),
       (∀ x ∈ pre, szOf bs x < asize) → asize ≤ szOf bs o → szOf bs o - asize ≤ 32 →
       scanClass bs asize (pre ++ o :: rest) 0 none 0 = (some o, pre.length + 1)) := by
  refine ⟨?_, ?_, ?_, ?_, ?_, ?_⟩
  · intro h asize hnone c hc1 hc2 off hoff
    exact findLoop_none h.blocks h.freeLists asize 12 (list_index asize) hnone c hc1
      (by omega) hc2 off hoff
  · intro h asize hpos hlists hnone c hc off hoff
    by_cases hcge : list_index asize ≤ c
    · exact findLoop_none h.blocks h.freeLists asize 12 (list_index asize) hnone c hcge
        (by omega) hc off hoff
    · obtain ⟨k, hidx, ha, hcl, hsz⟩ := class_list_mem h hpos hlists c off hc hoff
      by_contra hge
      push_neg at hge
      have hmono := list_index_mono asize (szOf h.blocks off) hge
      rw [hsz, hcl] at hmono
      omega
  · intro h asize off hsome
    exact findLoop_some h.blocks h.freeLists asize 12 (list_index asize) off hsome
  · intro bs asize lst hall
    exact scanClass_nofit bs asize lst hall 0
  · intro bs asize pre rest o hpre ho
    have hb := scanClass_after_fit_visits bs asize pre rest o hpre ho 0
    simpa using hb
  · intro bs asize pre rest o hpre ho hclose
    exact scanClass_first_fit bs asize pre rest o hpre ho hclose 0

/-- Witness for the amended C5 on concrete states: on hC5 every class
candidate is smaller than 256 after the failed search, and on the
freshly initialised heap the fit for an adjusted size of 24 comes out of
class 9 with an exact-or-larger block. -/
theorem claim_c5_find_fit_amended_witness :
    (∀ c, c < 12 → ∀ off ∈ hC5.freeLists.getD c [], szOf hC5.blocks off < 256) ∧
    (∃ c, list_index 24 ≤ c ∧ c < 12 ∧ 64 ∈ hInit.freeLists.getD c [] ∧
      24 ≤ szOf hInit.blocks 64) ∧
    scanClass hC5.blocks 136 (hC5.freeLists.getD 4 []) 0 none 0 = (some 64, 1) :=
  ⟨claim_c5_find_fit_amended.2.1 hC5 256 (by decide) (by decide) (by decide),
   claim_c5_find_fit_amended.2.2.1 hInit 24 64 (by decide),
   by
     have hf := claim_c5_find_fit_amended.2.2.2.2.2 hC5.blocks 136 [] [224, 384, 544, 704] 64
       (by intro x hx; simp at hx) (by decide) (by decide)
     simpa using hf⟩

/-! Surgery decomposition lemmas for the invariant proofs. -/

theorem drop_append_len (xs ys : List Block) (k : Nat) :
    (xs ++ ys).drop (xs.length + k) = ys.drop k := by
  induction xs with
  | nil => simp
  | cons b t ih => simpa [Nat.succ_add] using ih

theorem take_replaceAt_le (bs : List Block) (j cnt : Nat) (news : List Block) (k : Nat)
    (hk : k ≤ j) (hj : j ≤ bs.length) :
    (replaceAt bs j cnt news).take k = bs.take k := by
  have hlen : (bs.take j).length = j := length_take_of_le bs j hj
  rw [replaceAt, List.append_assoc, take_append_of_le _ _ k (by omega), List.take_take]
  have hmin : min k j = k := by omega
  rw [hmin]

theorem drop_replaceAt_ge (bs : List Block) (j cnt : Nat) (news : List Block) (m : Nat)
    (hj : j + cnt ≤ bs.length) :
    (replaceAt bs j cnt news).drop (j + news.length + m) = bs.drop (j + cnt + m) := by
  have hlen : (bs.take j).length = j := length_take_of_le bs j (by omega)
  have h1 : j + news.length + m = (bs.take j ++ news).length + m := by
    simp [List.length_append, hlen]
  rw [replaceAt, List.append_assoc, ← List.append_assoc, h1, drop_append_len, List.drop_drop]

theorem sumSizes_take_add_drop (l : List Block) (n : Nat) :
    sumSizes (l.take n) + sumSizes (l.drop n) = sumSizes l := by
  conv_rhs => rw [← List.take_append_drop n l]
  rw [sumSizes_append]

theorem offsetOf_replaceAt_right (bs : List Block) (j cnt : Nat) (news : List Block) (m : Nat)
    (hj : j + cnt ≤ bs.length)
    (hsum : sumSizes news = sumSizes (slice bs j cnt)) :
    offsetOf (replaceAt bs j cnt news) (j + news.length + m) = offsetOf bs (j + cnt + m) := by
  have hS : sumSizes (replaceAt bs j cnt news) = sumSizes bs :=
    sumSizes_replaceAt bs j cnt news hsum
  have h1 := sumSizes_take_add_drop (replaceAt bs j cnt news) (j + news.length + m)
  have h2 := sumSizes_take_add_drop bs (j + cnt + m)
  have h3 : (replaceAt bs j cnt news).drop (j + news.length + m) = bs.drop (j + cnt + m) :=
    drop_replaceAt_ge bs j cnt news m hj
  rw [h3] at h1
  rw [offsetOf, offsetOf]
  omega

theorem drop_eq_nth_cons (bs : List Block) (j : Nat) (hj : j < bs.length) :
    bs.drop j = nth bs j :: bs.drop (j + 1) := by
  induction bs generalizing j with
  | nil => simp at hj
  | cons b t ih =>
    cases j with
    | zero => simp [nth_cons_zero]
    | succ j => simpa [nth_cons_succ] using ih j (by simpa using hj)

theorem slice_zero (bs : List Block) (j : Nat) : slice bs j 0 = [] := by
  simp [slice]

theorem slice_succ (bs : List Block) (j cnt : Nat) (hj : j < bs.length) :
    slice bs j (cnt + 1) = nth bs j :: slice bs (j + 1) cnt := by
  rw [slice, drop_eq_nth_cons bs j hj, List.take_succ_cons]
  rfl

theorem slice_one (bs : List Block) (j : Nat) (hj : j < bs.length) :
    slice bs j 1 = [nth bs j] := by
  rw [slice_succ bs j 0 hj, slice_zero]

theorem slice_two (bs : List Block) (j : Nat) (hj : j + 1 < bs.length) :
    slice bs j 2 = [nth bs j, nth bs (j + 1)] := by
  rw [slice_succ bs j 1 (by omega), slice_one bs (j + 1) hj]

theorem slice_three (bs : List Block) (j : Nat) (hj : j + 2 < bs.length) :
    slice bs j 3 = [nth bs j, nth bs (j + 1), nth bs (j + 2)] := by
  rw [slice_succ bs j 2 (by omega), slice_two bs (j + 1) hj]

theorem sizesPos_replaceAt (bs : List Block) (j cnt : Nat) (news : List Block)
    (hpos : sizesPos bs) (hn : ∀ b ∈ news, 0 < b.size) :
    sizesPos (replaceAt bs j cnt news) := by
  intro b hb
  rw [replaceAt] at hb
  rcases List.mem_append.mp hb with hb1 | hb2
  · rcases List.mem_append.mp hb1 with hb3 | hb4
    · exact hpos b (List.take_subset j bs hb3)
    · exact hn b hb4
  · exact hpos b (List.drop_subset _ bs hb2)

theorem frame_replaceAt (bs : List Block) (j cnt : Nat) (news : List Block) (k : Nat)
    (hlen : j + cnt ≤ bs.length)
    (hsum : sumSizes news = sumSizes (slice bs j cnt))
    (hk : k < bs.length) (hout : k < j ∨ j + cnt ≤ k) :
    ∃ k', k' < (replaceAt bs j cnt news).length ∧
      nth (replaceAt bs j cnt news) k' = nth bs k ∧
      offsetOf (replaceAt bs j cnt news) k' = offsetOf bs k := by
  have hL := length_replaceAt bs j cnt news hlen
  rcases hout with hlt | hge
  · exact ⟨k, by omega,
      nth_replaceAt_left bs j cnt news k hlt (by omega),
      offsetOf_replaceAt_le bs j cnt news k (by omega) (by omega)⟩
  · refine ⟨k - cnt + news.length, by omega, ?_, ?_⟩
    · have e1 : k - cnt + news.length = j + news.length + (k - j - cnt) := by omega
      have e2 : k = j + cnt + (k - j - cnt) := by omega
      rw [e1, nth_replaceAt_right bs j cnt news _ hlen]
      congr 1
      omega
    · have e1 : k - cnt + news.length = j + news.length + (k - j - cnt) := by omega
      rw [e1, offsetOf_replaceAt_right bs j cnt news _ hlen hsum]
      congr 1
      omega

/-- Mark block i allocated: the view of the heap that the invariant on
the free lists refers to while block i is detached (freshly freed or
freshly appended, not yet coalesced and re-inserted). -/
def maskAlloc (bs : List Block) (i : Nat) : List Block :=
  replaceAt bs i 1 [{ nth bs i with alloc := true }]

theorem maskAlloc_sa_set (bs : List Block) (i : Nat) (hi : i < bs.length) :
    (maskAlloc bs i).map sa =
      (bs.map sa).take i ++ [((nth bs i).size, true)] ++ (bs.map sa).drop (i + 1) := by
  rw [maskAlloc, replaceAt, List.map_append, List.map_append, List.map_take, List.map_drop]
  rfl

theorem nth_maskAlloc_ne (bs : List Block) (i k : Nat) (hi : i < bs.length) (hk : k ≠ i) :
    nth (maskAlloc bs i) k = nth bs k := by
  exact nth_replaceAt_out bs i 1 _ k rfl (by omega) (by omega)

theorem nth_maskAlloc_self (bs : List Block) (i : Nat) (hi : i < bs.length) :
    nth (maskAlloc bs i) i = { nth bs i with alloc := true } := by
  have hm := nth_replaceAt_mid bs i 1 [{ nth bs i with alloc := true }] 0 (by simp) (by omega)
  simpa using hm

theorem length_maskAlloc (bs : List Block) (i : Nat) (hi : i < bs.length) :
    (maskAlloc bs i).length = bs.length := by
  rw [maskAlloc, length_replaceAt bs i 1 _ (by omega)]
  simp
  omega

theorem replaceAt_maskAlloc (bs : List Block) (i j cnt : Nat) (news : List Block)
    (hji : j ≤ i) (hic : i < j + cnt) (hlen : j + cnt ≤ bs.length) :
    replaceAt (maskAlloc bs i) j cnt news = replaceAt bs j cnt news := by
  have hi : i < bs.length := by omega
  rw [replaceAt, replaceAt]
  congr 1
  · congr 1
    exact take_replaceAt_le bs i 1 _ j hji (by omega)
  · have e1 : j + cnt = i + 1 + (j + cnt - i - 1) := by omega
    rw [maskAlloc, e1]
    have hd := drop_replaceAt_ge bs i 1 [{ nth bs i with alloc := true }] (j + cnt - i - 1)
      (by omega)
    simp only [List.length_cons, List.length_nil] at hd
    rw [hd]

theorem sumSizes_maskAlloc (bs : List Block) (i : Nat) (hi : i < bs.length) :
    sumSizes (maskAlloc bs i) = sumSizes bs := by
  apply sumSizes_replaceAt
  rw [slice_one bs i hi]
  rfl

/-! Master lemmas: adjacency and prev-alloc bits across a replacement. -/

theorem NoAdj_replace (bs : List Block) (j cnt : Nat) (news : List Block)
    (hlen : j + cnt ≤ bs.length) (hne : news ≠ [])
    (hout : ∀ k, k + 1 < bs.length → (k + 1 < j ∨ j + cnt ≤ k) →
      ((nth bs k).alloc = true ∨ (nth bs (k + 1)).alloc = true))
    (hmid : ∀ k, k + 1 < news.length →
      ((nth news k).alloc = true ∨ (nth news (k + 1)).alloc = true))
    (hleft : 0 < j → ((nth bs (j - 1)).alloc = true ∨ (nth news 0).alloc = true))
    (hright : j + cnt < bs.length →
      ((nth news (news.length - 1)).alloc = true ∨ (nth bs (j + cnt)).alloc = true)) :
    NoAdj (replaceAt bs j cnt news) := by
  intro k hk hk1
  have hL : (replaceAt bs j cnt news).length = j + news.length + (bs.length - (j + cnt)) :=
    length_replaceAt bs j cnt news hlen
  have hnl : 0 < news.length := List.length_pos.mpr hne
  have hmidN : ∀ m, m < news.length →
      nth (replaceAt bs j cnt news) (j + m) = nth news m := fun m hm =>
    nth_replaceAt_mid bs j cnt news m hm (by omega)
  have hrightN : ∀ m, nth (replaceAt bs j cnt news) (j + news.length + m) =
      nth bs (j + cnt + m) := fun m => nth_replaceAt_right bs j cnt news m hlen
  by_cases hz1 : k + 1 < j
  · rw [nth_replaceAt_left _ _ _ _ _ (by omega) (by omega),
      nth_replaceAt_left _ _ _ _ _ (by omega) (by omega)]
    exact hout k (by omega) (Or.inl hz1)
  · by_cases hz2 : k + 1 = j
    · have hA : nth (replaceAt bs j cnt news) k = nth bs k :=
        nth_replaceAt_left _ _ _ _ _ (by omega) (by omega)
      have hB : nth (replaceAt bs j cnt news) (k + 1) = nth news 0 := by
        conv_lhs => rw [(by omega : k + 1 = j + 0)]
        exact hmidN 0 (by omega)
      rw [hA, hB]
      have hl := hleft (by omega)
      rw [(by omega : j - 1 = k)] at hl
      exact hl
    · by_cases hz3 : k + 1 < j + news.length
      · have hA : nth (replaceAt bs j cnt news) k = nth news (k - j) := by
          conv_lhs => rw [(by omega : k = j + (k - j))]
          exact hmidN (k - j) (by omega)
        have hB : nth (replaceAt bs j cnt news) (k + 1) = nth news (k - j + 1) := by
          conv_lhs => rw [(by omega : k + 1 = j + (k - j + 1))]
          exact hmidN (k - j + 1) (by omega)
        rw [hA, hB]
        exact hmid (k - j) (by omega)
      · by_cases hz4 : k + 1 = j + news.length
        · have hA : nth (replaceAt bs j cnt news) k = nth news (news.length - 1) := by
            conv_lhs => rw [(by omega : k = j + (news.length - 1))]
            exact hmidN (news.length - 1) (by omega)
          have hB : nth (replaceAt bs j cnt news) (k + 1) = nth bs (j + cnt) := by
            conv_lhs => rw [(by omega : k + 1 = j + news.length + 0)]
            rw [hrightN 0]
            exact congrArg (nth bs) (by omega)
          rw [hA, hB]
          exact hright (by omega)
        · have hA : nth (replaceAt bs j cnt news) k = nth bs (j + cnt + (k - j - news.length)) := by
            conv_lhs => rw [(by omega : k = j + news.length + (k - j - news.length))]
            exact hrightN _
          have hB : nth (replaceAt bs j cnt news) (k + 1) =
              nth bs (j + cnt + (k - j - news.length) + 1) := by
            conv_lhs => rw [(by omega : k + 1 = j + news.length + (k - j - news.length + 1))]
            rw [hrightN _]
            exact congrArg (nth bs) (by omega)
          rw [hA, hB]
          exact hout (j + cnt + (k - j - news.length)) (by omega) (Or.inr (by omega))

/-- Accuracy of the epilogue header's prev-alloc bit. -/
def epiOk (h : Heap) : Prop :=
  h.epiPrevAlloc =
    (if h.blocks.length = 0 then true else (nth h.blocks (h.blocks.length - 1)).alloc)

theorem PrevBits_iff (h : Heap) :
    PrevBits h ↔ ((∀ k < h.blocks.length, prevOkAt h.blocks k) ∧ epiOk h) := Iff.rfl

/-- All prev-alloc bits accurate except possibly the bit of the block at
position e (the epilogue bit when e is the block count). -/
def PrevBitsX (h : Heap) (e : Nat) : Prop :=
  (∀ k < h.blocks.length, k ≠ e → prevOkAt h.blocks k) ∧
    (e ≠ h.blocks.length → epiOk h)

theorem PrevBitsX_replace (h : Heap) (j cnt : Nat) (news : List Block)
    (hlen : j + cnt ≤ h.blocks.length) (hne : news ≠ [])
    (hout : ∀ k, k < h.blocks.length → (k < j ∨ j + cnt < k) → prevOkAt h.blocks k)
    (hin : ∀ k, k + 1 < news.length → (nth news (k + 1)).prevAlloc = (nth news k).alloc)
    (hleft : (nth news 0).prevAlloc = (if j = 0 then true else (nth h.blocks (j - 1)).alloc))
    (hepi : j + cnt < h.blocks.length → epiOk h) :
    PrevBitsX { h with blocks := replaceAt h.blocks j cnt news } (j + news.length) := by
  have hL : (replaceAt h.blocks j cnt news).length =
      j + news.length + (h.blocks.length - (j + cnt)) :=
    length_replaceAt h.blocks j cnt news hlen
  have hnl : 0 < news.length := List.length_pos.mpr hne
  have hmidN : ∀ m, m < news.length →
      nth (replaceAt h.blocks j cnt news) (j + m) = nth news m := fun m hm =>
    nth_replaceAt_mid h.blocks j cnt news m hm (by omega)
  have hrightN : ∀ m, nth (replaceAt h.blocks j cnt news) (j + news.length + m) =
      nth h.blocks (j + cnt + m) := fun m => nth_replaceAt_right h.blocks j cnt news m hlen
  constructor
  · intro k hk hke
    simp only at hk ⊢
    rw [hL] at hk
    unfold prevOkAt
    by_cases hz1 : k < j
    · rw [nth_replaceAt_left _ _ _ _ _ (by omega) (by omega)]
      have ho := hout k (by omega) (Or.inl hz1)
      unfold prevOkAt at ho
      by_cases hk0 : k = 0
      · subst hk0
        simpa using ho
      · rw [if_neg hk0] at ho ⊢
        rw [nth_replaceAt_left _ _ _ _ _ (by omega) (by omega)]
        exact ho
    · by_cases hz2 : k = j
      · have hA : nth (replaceAt h.blocks j cnt news) k = nth news 0 := by
          conv_lhs => rw [(by omega : k = j + 0)]
          exact hmidN 0 (by omega)
        rw [hA]
        by_cases hj0 : k = 0
        · rw [if_pos hj0, hleft, if_pos (by omega)]
        · have hjne : ¬ (j = 0) := by omega
          rw [if_neg hj0, hleft, if_neg hjne,
            nth_replaceAt_left h.blocks j cnt news (k - 1) (by omega) (by omega)]
          exact congrArg (fun x => (nth h.blocks x).alloc) (by omega)
      · by_cases hz3 : k < j + news.length
        · have hA : nth (replaceAt h.blocks j cnt news) k = nth news (k - j) := by
            conv_lhs => rw [(by omega : k = j + (k - j))]
            exact hmidN (k - j) (by omega)
          have hB : nth (replaceAt h.blocks j cnt news) (k - 1) = nth news (k - j - 1) := by
            conv_lhs => rw [(by omega : k - 1 = j + (k - j - 1))]
            exact hmidN (k - j - 1) (by omega)
          rw [hA, if_neg (by omega), hB]
          have hi := hin (k - j - 1) (by omega)
          rw [(by omega : k - j - 1 + 1 = k - j)] at hi
          exact hi
        · have hz4 : j + news.length < k := by omega
          have hA : nth (replaceAt h.blocks j cnt news) k =
              nth h.blocks (j + cnt + (k - j - news.length)) := by
            conv_lhs => rw [(by omega : k = j + news.length + (k - j - news.length))]
            exact hrightN _
          have hB : nth (replaceAt h.blocks j cnt news) (k - 1) =
              nth h.blocks (j + cnt + (k - j - news.length) - 1) := by
            conv_lhs => rw [(by omega : k - 1 = j + news.length + (k - j - news.length - 1))]
            rw [hrightN _]
            exact congrArg (nth h.blocks) (by omega)
          rw [hA, if_neg (by omega), hB]
          have ho := hout (j + cnt + (k - j - news.length)) (by omega) (Or.inr (by omega))
          unfold prevOkAt at ho
          rw [if_neg (by omega)] at ho
          exact ho
  · intro hne'
    simp only at hne' ⊢
    have hsuf : j + cnt < h.blocks.length := by
      by_contra hc
      apply hne'
      rw [hL]
      omega
    have he := hepi hsuf
    unfold epiOk at he ⊢
    simp only
    rw [if_neg (show ¬ (h.blocks.length = 0) by omega)] at he
    rw [if_neg (show ¬ ((replaceAt h.blocks j cnt news).length = 0) by rw [hL]; omega)]
    have hA : nth (replaceAt h.blocks j cnt news) ((replaceAt h.blocks j cnt news).length - 1) =
        nth h.blocks (h.blocks.length - 1) := by
      conv_lhs =>
        rw [hL, (by omega : j + news.length + (h.blocks.length - (j + cnt)) - 1 =
          j + news.length + (h.blocks.length - (j + cnt) - 1))]
      rw [hrightN _]
      exact congrArg (nth h.blocks) (by omega)
    rw [hA]
    exact he

theorem PrevBits_of_X_set (h : Heap) (e : Nat) (he : 0 < e) (hee : e ≤ h.blocks.length)
    (hX : PrevBitsX h e) (v : Bool) (hv : v = (nth h.blocks (e - 1)).alloc) :
    PrevBits (setNextPrevAlloc h (e - 1) v) := by
  unfold setNextPrevAlloc
  rw [(by omega : e - 1 + 1 = e)]
  by_cases hlt : e < h.blocks.length
  · rw [if_pos hlt]
    have hL : (replaceAt h.blocks e 1 [{ nth h.blocks e with prevAlloc := v }]).length =
        h.blocks.length := by
      rw [length_replaceAt h.blocks e 1 _ (by omega)]
      simp
      omega
    have hE : nth (replaceAt h.blocks e 1 [{ nth h.blocks e with prevAlloc := v }]) e =
        { nth h.blocks e with prevAlloc := v } := by
      conv_lhs => rw [(by omega : e = e + 0)]
      have h0 := nth_replaceAt_mid h.blocks e 1 [{ nth h.blocks e with prevAlloc := v }] 0
        (by simp) (by omega)
      simpa using h0
    have hO : ∀ m, m ≠ e →
        nth (replaceAt h.blocks e 1 [{ nth h.blocks e with prevAlloc := v }]) m =
          nth h.blocks m := fun m hm =>
      nth_replaceAt_out h.blocks e 1 [{ nth h.blocks e with prevAlloc := v }] m rfl
        (by omega) (by omega)
    constructor
    · intro k hk
      simp only at hk ⊢
      rw [hL] at hk
      unfold prevOkAt
      by_cases hke : k = e
      · subst hke
        rw [hE, if_neg (by omega), hO (k - 1) (by omega)]
        exact hv
      · rw [hO k hke]
        have hbit := hX.1 k hk hke
        unfold prevOkAt at hbit
        by_cases hk0 : k = 0
        · subst hk0
          simpa using hbit
        · rw [if_neg hk0] at hbit ⊢
          by_cases hk1e : k - 1 = e
          · rw [hk1e, hE]
            rw [hk1e] at hbit
            exact hbit
          · rw [hO (k - 1) hk1e]
            exact hbit
    · show _ = _
      simp only
      rw [hL]
      have heo := hX.2 (by omega)
      unfold epiOk at heo
      rw [if_neg (show ¬ (h.blocks.length = 0) by omega)] at heo
      rw [if_neg (show ¬ (h.blocks.length = 0) by omega)]
      by_cases hle : h.blocks.length - 1 = e
      · rw [hle, hE]
        rw [hle] at heo
        exact heo
      · rw [hO (h.blocks.length - 1) hle]
        exact heo
  · rw [if_neg hlt]
    constructor
    · intro k hk
      simp only at hk ⊢
      exact hX.1 k hk (by omega)
    · show _ = _
      simp only
      rw [if_neg (show ¬ (h.blocks.length = 0) by omega), hv]
      exact congrArg (fun x => (nth h.blocks x).alloc) (by omega)

/-! Decomposition of the classed free-offset walk across a replacement,
and the head formulas for insert_free and remove_free. -/

theorem freeClass_replace (bs : List Block) (j cnt : Nat) (news : List Block) (c : Nat) :
    freeClass (replaceAt bs j cnt news) c =
      freeClassAux c (bs.take j) 64 ++
      freeClassAux c news (offsetOf bs j) ++
      freeClassAux c (bs.drop (j + cnt)) (offsetOf bs j + sumSizes news) := by
  rw [freeClass, replaceAt, freeClassAux_append, freeClassAux_append, sumSizes_append]
  have hb : 64 + (sumSizes (bs.take j) + sumSizes news) =
      offsetOf bs j + sumSizes news := by
    rw [offsetOf]
    omega
  rw [hb]
  rfl

theorem freeClass_decomp (bs : List Block) (j cnt : Nat) (c : Nat) :
    freeClass bs c =
      freeClassAux c (bs.take j) 64 ++
      freeClassAux c (slice bs j cnt) (offsetOf bs j) ++
      freeClassAux c (bs.drop (j + cnt)) (offsetOf bs j + sumSizes (slice bs j cnt)) := by
  conv_lhs => rw [freeClass, decomp bs j cnt]
  rw [freeClassAux_append, freeClassAux_append, sumSizes_append]
  have hb : 64 + (sumSizes (bs.take j) + sumSizes (slice bs j cnt)) =
      offsetOf bs j + sumSizes (slice bs j cnt) := by
    rw [offsetOf]
    omega
  rw [hb]
  rfl

theorem freeClassAux_one (c : Nat) (b : Block) (cur : Nat) :
    freeClassAux c [b] cur =
      if b.alloc = false ∧ list_index b.size = c then [cur] else [] := by
  simp [freeClassAux]

theorem freeClassAux_two (c : Nat) (b1 b2 : Block) (cur : Nat) :
    freeClassAux c [b1, b2] cur =
      (if b1.alloc = false ∧ list_index b1.size = c then [cur] else []) ++
      (if b2.alloc = false ∧ list_index b2.size = c then [cur + b1.size] else []) := by
  simp [freeClassAux]

theorem freeClassAux_three (c : Nat) (b1 b2 b3 : Block) (cur : Nat) :
    freeClassAux c [b1, b2, b3] cur =
      (if b1.alloc = false ∧ list_index b1.size = c then [cur] else []) ++
      (if b2.alloc = false ∧ list_index b2.size = c then [cur + b1.size] else []) ++
      (if b3.alloc = false ∧ list_index b3.size = c then [cur + b1.size + b2.size] else []) := by
  simp [freeClassAux, List.append_assoc, Nat.add_assoc]

theorem getD_insert_free (h : Heap) (off size c : Nat) (hlen : h.freeLists.length = 12) :
    (insert_free h off size).freeLists.getD c [] =
      if c = list_index size then off :: h.freeLists.getD c [] else h.freeLists.getD c [] := by
  unfold insert_free
  dsimp only
  by_cases hc : c = list_index size
  · subst hc
    rw [getD_set_self _ _ _ (by rw [hlen]; exact list_index_lt_12 _), if_pos rfl]
  · rw [getD_set_ne _ _ _ _ (fun he => hc he.symm), if_neg hc]

theorem getD_remove_free (h : Heap) (off size c : Nat) (hlen : h.freeLists.length = 12) :
    (remove_free h off size).freeLists.getD c [] =
      if c = list_index size then (h.freeLists.getD c []).erase off
      else h.freeLists.getD c [] := by
  unfold remove_free
  dsimp only
  by_cases hc : c = list_index size
  · subst hc
    rw [getD_set_self _ _ _ (by rw [hlen]; exact list_index_lt_12 _), if_pos rfl]
  · rw [getD_set_ne _ _ _ _ (fun he => hc he.symm), if_neg hc]

theorem length_insert_free (h : Heap) (off size : Nat) :
    (insert_free h off size).freeLists.length = h.freeLists.length := by
  unfold insert_free
  dsimp only
  exact List.length_set _ _ _

theorem length_remove_free (h : Heap) (off size : Nat) :
    (remove_free h off size).freeLists.length = h.freeLists.length := by
  unfold remove_free
  dsimp only
  exact List.length_set _ _ _

theorem ms_coe_cons (a : Nat) (l : List Nat) :
    ((a :: l : List Nat) : Multiset Nat) = a ::ₘ (l : Multiset Nat) := rfl

theorem ms_coe_append (l1 l2 : List Nat) :
    ((l1 ++ l2 : List Nat) : Multiset Nat) = (l1 : Multiset Nat) + (l2 : Multiset Nat) := rfl

theorem ms_coe_erase (l : List Nat) (a : Nat) :
    ((l.erase a : List Nat) : Multiset Nat) = (l : Multiset Nat).erase a :=
  (Multiset.coe_erase l a).symm

theorem PrevBitsX_ext (h h' : Heap) (e : Nat) (hb : h'.blocks = h.blocks)
    (hepi : h'.epiPrevAlloc = h.epiPrevAlloc) (hX : PrevBitsX h e) : PrevBitsX h' e := by
  constructor
  · intro k hk hke
    rw [hb] at hk ⊢
    exact hX.1 k hk hke
  · intro hne
    rw [hb] at hne
    have he := hX.2 hne
    unfold epiOk at he ⊢
    rw [hb, hepi]
    exact he

theorem get?_eq_nth (bs : List Block) (k : Nat) (hk : k < bs.length) :
    bs.get? k = some (nth bs k) := by
  induction bs generalizing k with
  | nil => simp at hk
  | cons b t ih =>
    cases k with
    | zero => rfl
    | succ k => simpa [nth_cons_succ] using ih k (by simpa using hk)

theorem get?_eq_none_of_ge (bs : List Block) (k : Nat) (hk : ¬ k < bs.length) :
    bs.get? k = none := by
  induction bs generalizing k with
  | nil => rfl
  | cons b t ih =>
    cases k with
    | zero => simp at hk
    | succ k => simpa using ih k (by simp at hk; omega)

theorem nextAllocB_of_lt (bs : List Block) (i : Nat) (hlt : i + 1 < bs.length) :
    nextAllocB bs i = (nth bs (i + 1)).alloc := by
  unfold nextAllocB
  rw [get?_eq_nth bs (i + 1) hlt]

theorem nextAllocB_of_ge (bs : List Block) (i : Nat) (hge : ¬ (i + 1 < bs.length)) :
    nextAllocB bs i = true := by
  unfold nextAllocB
  rw [get?_eq_none_of_ge bs (i + 1) hge]

theorem nth_mem (bs : List Block) (k : Nat) (hk : k < bs.length) : nth bs k ∈ bs := by
  induction bs generalizing k with
  | nil => simp at hk
  | cons b t ih =>
    cases k with
    | zero => exact List.mem_cons_self _ _
    | succ k => exact List.mem_cons_of_mem _ (ih k (by simpa using hk))

theorem sizesPos_nth (bs : List Block) (hpos : ∀ k < bs.length, 0 < (nth bs k).size) :
    sizesPos bs := by
  intro b hb
  obtain ⟨k, hk, hbk⟩ := List.mem_iff_getElem.mp hb
  have : nth bs k = b := by
    rw [nth, List.getD_eq_getElem?_getD, List.getElem?_eq_getElem hk]
    simpa using hbk
  rw [← this]
  exact hpos k hk

theorem sizesPos_congr (bs bs' : List Block) (hsa : bs.map sa = bs'.map sa)
    (hpos : sizesPos bs) : sizesPos bs' := by
  apply sizesPos_nth
  intro k hk
  rw [← (nth_congr_sa bs bs' hsa k).1]
  have hlen := length_congr_sa bs bs' hsa
  exact hpos (nth bs k) (nth_mem bs k (by omega))

theorem ms_add_singleton (A B : Multiset Nat) (a : Nat) :
    A + (a ::ₘ 0) + B = a ::ₘ (A + B) := by
  ext b
  by_cases hb : b = a
  · subst hb
    simp [Multiset.count_cons_self, Multiset.count_add]
    omega
  · simp [Multiset.count_cons_of_ne hb, Multiset.count_add]
    omega

theorem take_succ_nth (bs : List Block) (k : Nat) (hk : k < bs.length) :
    bs.take (k + 1) = bs.take k ++ [nth bs k] := by
  induction bs generalizing k with
  | nil => simp at hk
  | cons b t ih =>
    cases k with
    | zero => simp [nth_cons_zero]
    | succ k =>
      simp only [List.take_succ_cons, nth_cons_succ, List.cons_append]
      rw [ih k (by simpa using hk)]

/-- Decomposition of the masked class walk around position i. -/
theorem lists_mask_decomp (h : Heap) (i : Nat) (hi : i < h.blocks.length)
    (hlistsM : ∀ c < 12, (h.freeLists.getD c [] : Multiset Nat) =
      (freeClass (maskAlloc h.blocks i) c : Multiset Nat)) (c : Nat) (hc : c < 12) :
    (h.freeLists.getD c [] : Multiset Nat) =
      (freeClassAux c (h.blocks.take i) 64 : Multiset Nat) +
      (freeClassAux c (h.blocks.drop (i + 1))
        (offsetOf h.blocks i + (nth h.blocks i).size) : Multiset Nat) := by
  rw [hlistsM c hc]
  rw [freeClass_decomp (maskAlloc h.blocks i) i 1 c]
  have hlen := length_maskAlloc h.blocks i hi
  have h1 : (maskAlloc h.blocks i).take i = h.blocks.take i :=
    take_replaceAt_le h.blocks i 1 _ i (le_refl i) (by omega)
  have h2 : (maskAlloc h.blocks i).drop (i + 1) = h.blocks.drop (i + 1) := by
    have hd := drop_replaceAt_ge h.blocks i 1 [{ nth h.blocks i with alloc := true }] 0 (by omega)
    simpa using hd
  have h3 : offsetOf (maskAlloc h.blocks i) i = offsetOf h.blocks i :=
    offsetOf_replaceAt_le h.blocks i 1 _ i (le_refl i) (by omega)
  have h4 : slice (maskAlloc h.blocks i) i 1 = [{ nth h.blocks i with alloc := true }] := by
    rw [slice_one (maskAlloc h.blocks i) i (by omega), nth_maskAlloc_self h.blocks i hi]
  rw [h1, h2, h3, h4]
  have h5 : freeClassAux c [{ nth h.blocks i with alloc := true }] (offsetOf h.blocks i) = [] := by
    rw [freeClassAux_one]
    simp
  have h6 : sumSizes [{ nth h.blocks i with alloc := true }] = (nth h.blocks i).size := by
    rw [sumSizes_cons, sumSizes_nil]
    rfl
  rw [h5, h6, ms_coe_append, ms_coe_append]
  simp

/-- Offsets of consecutive blocks differ by the block size. -/
theorem offsetOf_succ (bs : List Block) (k : Nat) (hk : k < bs.length) :
    offsetOf bs (k + 1) = offsetOf bs k + (nth bs k).size := by
  rw [offsetOf, offsetOf, take_succ_nth bs k hk, sumSizes_append, sumSizes_cons, sumSizes_nil]
  omega

/-- Erasing an element sitting between two multisets. -/
theorem ms_erase_mid (X Y : Multiset Nat) (a : Nat) : (X + a ::ₘ Y).erase a = X + Y := by
  ext b
  by_cases hb : b = a
  · subst hb
    rw [Multiset.count_erase_self]
    simp [Multiset.count_add, Multiset.count_cons_self]
  · rw [Multiset.count_erase_of_ne hb]
    simp [Multiset.count_add, Multiset.count_cons_of_ne hb]

/-- Decomposition of the class lists around a window [j, j+cnt) containing
the masked position i. -/
theorem lists_mask_window (h : Heap) (i : Nat) (hi : i < h.blocks.length)
    (hlistsM : ∀ c < 12, (h.freeLists.getD c [] : Multiset Nat) =
      (freeClass (maskAlloc h.blocks i) c : Multiset Nat))
    (j cnt : Nat) (hji : j ≤ i) (hic : i < j + cnt) (hlen : j + cnt ≤ h.blocks.length)
    (c : Nat) (hc : c < 12) :
    (h.freeLists.getD c [] : Multiset Nat) =
      (freeClassAux c (h.blocks.take j) 64 : Multiset Nat) +
      (freeClassAux c (slice (maskAlloc h.blocks i) j cnt) (offsetOf h.blocks j) : Multiset Nat) +
      (freeClassAux c (h.blocks.drop (j + cnt))
        (offsetOf h.blocks j + sumSizes (slice (maskAlloc h.blocks i) j cnt)) : Multiset Nat) := by
  rw [hlistsM c hc, freeClass_decomp (maskAlloc h.blocks i) j cnt c]
  have h1 : (maskAlloc h.blocks i).take j = h.blocks.take j :=
    take_replaceAt_le h.blocks i 1 _ j (by omega) (by omega)
  have h2 : (maskAlloc h.blocks i).drop (j + cnt) = h.blocks.drop (j + cnt) := by
    have hd := drop_replaceAt_ge h.blocks i 1 [{ nth h.blocks i with alloc := true }]
      (j + cnt - (i + 1)) (by omega)
    have e1 : i + ([{ nth h.blocks i with alloc := true }] : List Block).length +
        (j + cnt - (i + 1)) = j + cnt := by
      simp only [List.length_singleton]
      omega
    have e2 : i + 1 + (j + cnt - (i + 1)) = j + cnt := by omega
    rw [e1, e2] at hd
    exact hd
  have h3 : offsetOf (maskAlloc h.blocks i) j = offsetOf h.blocks j := by
    rw [offsetOf, offsetOf, h1]
  rw [h1, h2, h3, ms_coe_append, ms_coe_append]

/-- Two elements sitting between two multisets, pulled to the front. -/
theorem ms_add_pair (A B : Multiset Nat) (a b : Nat) :
    A + (a ::ₘ b ::ₘ 0) + B = a ::ₘ b ::ₘ (A + B) := by
  ext t
  simp only [Multiset.count_add, Multiset.count_cons, Multiset.count_zero]
  split_ifs <;> omega

/-- Core assembly lemma: replacing the range [j, j+cnt) of the linear
heap by one fresh free block, inserting it into its class list and
fixing the successor's prev-alloc bit preserves the allocator invariant,
provided the surroundings are allocated, the outer bits are accurate and
the free lists hold exactly the free blocks outside the replaced range. -/
theorem assemble_inv (g : Heap) (j cnt : Nat) (merged : Block)
    (hlen : j + cnt ≤ g.blocks.length) (hcnt : 0 < cnt)
    (hmfree : merged.alloc = false)
    (hmsize : 0 < merged.size)
    (hsum : merged.size = sumSizes (slice g.blocks j cnt))
    (hfll : g.freeLists.length = 12)
    (hpos : sizesPos g.blocks)
    (hsmall : SmallHeap g)
    (houtA : ∀ k, k + 1 < g.blocks.length → (k + 1 < j ∨ j + cnt ≤ k) →
      ((nth g.blocks k).alloc = true ∨ (nth g.blocks (k + 1)).alloc = true))
    (hleftA : 0 < j → (nth g.blocks (j - 1)).alloc = true)
    (hrightA : j + cnt < g.blocks.length → (nth g.blocks (j + cnt)).alloc = true)
    (houtB : ∀ k, k < g.blocks.length → (k < j ∨ j + cnt < k) → prevOkAt g.blocks k)
    (hleftB : merged.prevAlloc = (if j = 0 then true else (nth g.blocks (j - 1)).alloc))
    (hepiB : j + cnt < g.blocks.length → epiOk g)
    (hlists : ∀ c < 12, (g.freeLists.getD c [] : Multiset Nat) =
      (freeClassAux c (g.blocks.take j) 64 : Multiset Nat) +
      (freeClassAux c (g.blocks.drop (j + cnt))
        (offsetOf g.blocks j + merged.size) : Multiset Nat)) :
    Inv (setNextPrevAlloc
      (insert_free { g with blocks := replaceAt g.blocks j cnt [merged] }
        (offsetOf g.blocks j) merged.size) j false) ∧
    nth (setNextPrevAlloc
      (insert_free { g with blocks := replaceAt g.blocks j cnt [merged] }
        (offsetOf g.blocks j) merged.size) j false).blocks j = merged ∧
    (setNextPrevAlloc
      (insert_free { g with blocks := replaceAt g.blocks j cnt [merged] }
        (offsetOf g.blocks j) merged.size) j false).blocks.length =
      j + 1 + (g.blocks.length - (j + cnt)) ∧
    sumSizes (setNextPrevAlloc
      (insert_free { g with blocks := replaceAt g.blocks j cnt [merged] }
        (offsetOf g.blocks j) merged.size) j false).blocks = sumSizes g.blocks ∧
    (setNextPrevAlloc
      (insert_free { g with blocks := replaceAt g.blocks j cnt [merged] }
        (offsetOf g.blocks j) merged.size) j false).cap = g.cap := by
  have hsum1 : sumSizes [merged] = sumSizes (slice g.blocks j cnt) := by
    rw [sumSizes_cons, sumSizes_nil, hsum]
    omega
  have hLR : (replaceAt g.blocks j cnt [merged]).length =
      j + 1 + (g.blocks.length - (j + cnt)) := by
    rw [length_replaceAt g.blocks j cnt _ hlen]
    simp
  have hsumR : sumSizes (replaceAt g.blocks j cnt [merged]) = sumSizes g.blocks :=
    sumSizes_replaceAt g.blocks j cnt [merged] hsum1
  have hmidR : nth (replaceAt g.blocks j cnt [merged]) j = merged := by
    have h0 := nth_replaceAt_mid g.blocks j cnt [merged] 0 (by simp) (by omega)
    simpa using h0
  -- the heap after insert_free, before the bit fix
  have hfl4 : (insert_free { g with blocks := replaceAt g.blocks j cnt [merged] }
      (offsetOf g.blocks j) merged.size).freeLists.length = 12 := by
    rw [length_insert_free]
    exact hfll
  have hsa5 := setNextPrevAlloc_sa
    (insert_free { g with blocks := replaceAt g.blocks j cnt [merged] }
      (offsetOf g.blocks j) merged.size) j false
  have hb4 : (insert_free { g with blocks := replaceAt g.blocks j cnt [merged] }
      (offsetOf g.blocks j) merged.size).blocks = replaceAt g.blocks j cnt [merged] := rfl
  rw [hb4] at hsa5
  have hL5 : (setNextPrevAlloc
      (insert_free { g with blocks := replaceAt g.blocks j cnt [merged] }
        (offsetOf g.blocks j) merged.size) j false).blocks.length =
      j + 1 + (g.blocks.length - (j + cnt)) := by
    rw [length_setNextPrevAlloc, hb4, hLR]
  have hnth5 : nth (setNextPrevAlloc
      (insert_free { g with blocks := replaceAt g.blocks j cnt [merged] }
        (offsetOf g.blocks j) merged.size) j false).blocks j = merged := by
    rw [nth_setNextPrevAlloc_of_ne _ _ _ j (by omega), hb4, hmidR]
  have hsum5 : sumSizes (setNextPrevAlloc
      (insert_free { g with blocks := replaceAt g.blocks j cnt [merged] }
        (offsetOf g.blocks j) merged.size) j false).blocks = sumSizes g.blocks := by
    rw [sumSizes_congr _ _ hsa5, hsumR]
  refine ⟨⟨?_, ?_, ?_, ?_, ?_⟩, hnth5, hL5, hsum5, ?_⟩
  · -- sizesPos
    apply sizesPos_congr _ _ hsa5.symm
    apply sizesPos_replaceAt g.blocks j cnt [merged] hpos
    intro x hx
    simp at hx
    rw [hx]
    exact hmsize
  · -- NoAdj
    apply NoAdj_congr _ _ hsa5.symm
    apply NoAdj_replace g.blocks j cnt [merged] hlen (by simp) houtA
    · intro k hk
      simp at hk
    · intro hj
      exact Or.inl (hleftA hj)
    · intro hjc
      refine Or.inr (hrightA hjc)
  · -- PrevBits
    have hmaster := PrevBitsX_replace g j cnt [merged] hlen (by simp)
      houtB (by intro k hk; simp at hk) (by simpa using hleftB) hepiB
    have hX4 : PrevBitsX (insert_free { g with blocks := replaceAt g.blocks j cnt [merged] }
        (offsetOf g.blocks j) merged.size) (j + 1) := by
      refine PrevBitsX_ext _ _ _ rfl rfl ?_
      simpa using hmaster
    have hfin := PrevBits_of_X_set
      (insert_free { g with blocks := replaceAt g.blocks j cnt [merged] }
        (offsetOf g.blocks j) merged.size) (j + 1) (by omega)
      (by rw [hb4, hLR]; omega) hX4 false
      (by rw [(by omega : j + 1 - 1 = j), hb4, hmidR, hmfree])
    have he : j + 1 - 1 = j := by omega
    rw [he] at hfin
    exact hfin
  · -- ListsOk
    constructor
    · rw [setNextPrevAlloc_freeLists, hfl4]
    · intro c hc
      rw [setNextPrevAlloc_freeLists]
      have hgd := getD_insert_free { g with blocks := replaceAt g.blocks j cnt [merged] }
        (offsetOf g.blocks j) merged.size c hfll
      rw [hgd]
      have hfc : freeClass (setNextPrevAlloc
          (insert_free { g with blocks := replaceAt g.blocks j cnt [merged] }
            (offsetOf g.blocks j) merged.size) j false).blocks c =
          freeClass (replaceAt g.blocks j cnt [merged]) c := by
        rw [freeClass, freeClass]
        exact freeClassAux_congr c _ _ 64 hsa5
      rw [hfc, freeClass_replace g.blocks j cnt [merged] c]
      have hsm : sumSizes [merged] = merged.size := by
        rw [sumSizes_cons, sumSizes_nil]
        omega
      rw [hsm]
      have hmid1 : freeClassAux c [merged] (offsetOf g.blocks j) =
          if c = list_index merged.size then [offsetOf g.blocks j] else [] := by
        rw [freeClassAux_one, hmfree]
        by_cases hcm : c = list_index merged.size
        · rw [if_pos hcm, if_pos ⟨rfl, hcm.symm⟩]
        · rw [if_neg hcm, if_neg (by intro hh; exact hcm hh.2.symm)]
      rw [hmid1]
      by_cases hcm : c = list_index merged.size
      · rw [if_pos hcm, if_pos hcm, ms_coe_cons, hlists c hc,
          ms_coe_append, ms_coe_append, ms_coe_cons]
        have : ((([] : List Nat)) : Multiset Nat) = 0 := rfl
        rw [this]
        exact (ms_add_singleton _ _ _).symm
      · rw [if_neg hcm, if_neg hcm, hlists c hc, ms_coe_append, ms_coe_append]
        simp
  · -- SmallHeap
    show sumSizes _ + _ ≤ _
    rw [hsum5]
    have hcap : (setNextPrevAlloc
        (insert_free { g with blocks := replaceAt g.blocks j cnt [merged] }
          (offsetOf g.blocks j) merged.size) j false).cap = g.cap := by
      rw [setNextPrevAlloc_cap]
      rfl
    rw [hcap]
    exact hsmall
  · rw [setNextPrevAlloc_cap]
    rfl

/-- The conclusion of the coalesce preservation lemma. -/
def CoalescePost (h : Heap) (i : Nat) : Prop :=
  Inv (coalesce h i).1 ∧
  (coalesce h i).2 < (coalesce h i).1.blocks.length ∧
  (nth (coalesce h i).1.blocks (coalesce h i).2).alloc = false ∧
  (nth h.blocks i).size ≤ (nth (coalesce h i).1.blocks (coalesce h i).2).size ∧
  sumSizes (coalesce h i).1.blocks = sumSizes h.blocks

theorem coalesce_inv_nn (h : Heap) (i : Nat)
    (hi : i < h.blocks.length)
    (hfree : (nth h.blocks i).alloc = false)
    (hpos : sizesPos h.blocks)
    (hsmall : SmallHeap h)
    (hadjM : NoAdj (maskAlloc h.blocks i))
    (hbitsM : ∀ k < h.blocks.length, k ≠ i + 1 → prevOkAt h.blocks k)
    (hepiM : i + 1 < h.blocks.length → epiOk h)
    (hfll : h.freeLists.length = 12)
    (hlistsM : ∀ c < 12, (h.freeLists.getD c [] : Multiset Nat) =
      (freeClass (maskAlloc h.blocks i) c : Multiset Nat))
    (hP : (!(nth h.blocks i).prevAlloc && decide (0 < i)) = false)
    (hN : nextAllocB h.blocks i = true) :
    CoalescePost h i := by
  have hL1 : (replaceAt h.blocks i 1
      [{ size := (nth h.blocks i).size, alloc := false,
         prevAlloc := (nth h.blocks i).prevAlloc, data := zeroData }]).length =
      h.blocks.length := by
    rw [length_replaceAt h.blocks i 1 _ (by omega)]
    simp
    omega
  have hsum1 : sumSizes
      [({ size := (nth h.blocks i).size, alloc := false,
          prevAlloc := (nth h.blocks i).prevAlloc, data := zeroData } : Block)] =
      sumSizes (slice h.blocks i 1) := by
    rw [slice_one h.blocks i hi]
    rfl
  have hc : coalesce h i =
      (setNextPrevAlloc
        (insert_free
          { h with
            blocks :=
              replaceAt h.blocks i 1
                [{ size := (nth h.blocks i).size, alloc := false,
                   prevAlloc := (nth h.blocks i).prevAlloc, data := zeroData }] }
          (offsetOf h.blocks i) (nth h.blocks i).size)
        i false, i) := by
    unfold coalesce
    dsimp only
    rw [hP, hN]
    simp only [Bool.false_eq_true, if_false, if_true, eq_self_iff_true]
  have hmain := assemble_inv h i 1
    { size := (nth h.blocks i).size, alloc := false,
      prevAlloc := (nth h.blocks i).prevAlloc, data := zeroData }
    (by omega) (by omega) rfl
    (by show 0 < (nth h.blocks i).size; exact hpos _ (nth_mem h.blocks i hi))
    (by
      show (nth h.blocks i).size = sumSizes (slice h.blocks i 1)
      rw [slice_one h.blocks i hi, sumSizes_cons, sumSizes_nil]; omega)
    hfll hpos hsmall
    (by
      intro k hk1 hd
      have hne1 : k ≠ i := by omega
      have hne2 : k + 1 ≠ i := by omega
      have hadj := hadjM k (by rw [length_maskAlloc h.blocks i hi]; omega)
        (by rw [length_maskAlloc h.blocks i hi]; omega)
      rw [nth_maskAlloc_ne h.blocks i k hi hne1,
        nth_maskAlloc_ne h.blocks i (k + 1) hi hne2] at hadj
      exact hadj)
    (by
      intro hj
      have hPA : (nth h.blocks i).prevAlloc = true := by
        cases hpa : (nth h.blocks i).prevAlloc
        · rw [hpa] at hP
          simp at hP
          omega
        · rfl
      have hok := hbitsM i hi (by omega)
      unfold prevOkAt at hok
      rw [hPA, if_neg (by omega : ¬ i = 0)] at hok
      exact hok.symm)
    (by
      intro hi1
      have hna := nextAllocB_of_lt h.blocks i hi1
      rw [hna] at hN
      exact hN)
    (by
      intro k hk hd
      exact hbitsM k hk (by omega))
    (by
      have hok := hbitsM i hi (by omega)
      unfold prevOkAt at hok
      exact hok)
    hepiM
    (fun c hc => lists_mask_decomp h i hi hlistsM c hc)
  dsimp only at hmain
  unfold CoalescePost
  rw [hc]
  dsimp only
  obtain ⟨hInv, hnthm, hlenm, hsumm, -⟩ := hmain
  refine ⟨hInv, ?_, ?_, ?_, hsumm⟩
  · rw [hlenm]
    omega
  · rw [hnthm]
  · rw [hnthm]

theorem coalesce_inv_np (h : Heap) (i : Nat)
    (hi : i < h.blocks.length)
    (hfree : (nth h.blocks i).alloc = false)
    (hpos : sizesPos h.blocks)
    (hsmall : SmallHeap h)
    (hadjM : NoAdj (maskAlloc h.blocks i))
    (hbitsM : ∀ k < h.blocks.length, k ≠ i + 1 → prevOkAt h.blocks k)
    (hepiM : i + 1 < h.blocks.length → epiOk h)
    (hfll : h.freeLists.length = 12)
    (hlistsM : ∀ c < 12, (h.freeLists.getD c [] : Multiset Nat) =
      (freeClass (maskAlloc h.blocks i) c : Multiset Nat))
    (hP : (!(nth h.blocks i).prevAlloc && decide (0 < i)) = false)
    (hN : nextAllocB h.blocks i = false) :
    CoalescePost h i := by
  have hi1 : i + 1 < h.blocks.length := by
    by_contra hcon
    rw [nextAllocB_of_ge h.blocks i hcon] at hN
    simp at hN
  have hnb : (nth h.blocks (i + 1)).alloc = false := by
    have hna := nextAllocB_of_lt h.blocks i hi1
    rw [hna] at hN
    exact hN
  have hc : coalesce h i =
      (setNextPrevAlloc
        (insert_free
          { remove_free h (offsetOf h.blocks (i + 1)) (nth h.blocks (i + 1)).size with
            blocks :=
              replaceAt h.blocks i 2
                [{ size := (nth h.blocks i).size + (nth h.blocks (i + 1)).size, alloc := false,
                   prevAlloc := (nth h.blocks i).prevAlloc, data := zeroData }] }
          (offsetOf h.blocks i)
          ((nth h.blocks i).size + (nth h.blocks (i + 1)).size))
        i false, i) := by
    unfold coalesce
    dsimp only
    rw [hP, hN]
    simp only [Bool.false_eq_true, if_false]
    rfl
  have hmain := assemble_inv
    (remove_free h (offsetOf h.blocks (i + 1)) (nth h.blocks (i + 1)).size) i 2
    { size := (nth h.blocks i).size + (nth h.blocks (i + 1)).size, alloc := false,
      prevAlloc := (nth h.blocks i).prevAlloc, data := zeroData }
    (by show i + 2 ≤ h.blocks.length; omega) (by omega) rfl
    (by
      show 0 < (nth h.blocks i).size + (nth h.blocks (i + 1)).size
      have hp := hpos _ (nth_mem h.blocks i hi)
      omega)
    (by
      show (nth h.blocks i).size + (nth h.blocks (i + 1)).size =
        sumSizes (slice h.blocks i 2)
      rw [slice_two h.blocks i hi1, sumSizes_cons, sumSizes_cons, sumSizes_nil]
      omega)
    (by rw [length_remove_free]; exact hfll)
    (by show sizesPos h.blocks; exact hpos)
    (by show SmallHeap h; exact hsmall)
    (by
      show ∀ k, k + 1 < h.blocks.length → (k + 1 < i ∨ i + 2 ≤ k) →
        ((nth h.blocks k).alloc = true ∨ (nth h.blocks (k + 1)).alloc = true)
      intro k hk1 hd
      have hne1 : k ≠ i := by omega
      have hne2 : k + 1 ≠ i := by omega
      have hadj := hadjM k (by rw [length_maskAlloc h.blocks i hi]; omega)
        (by rw [length_maskAlloc h.blocks i hi]; omega)
      rw [nth_maskAlloc_ne h.blocks i k hi hne1,
        nth_maskAlloc_ne h.blocks i (k + 1) hi hne2] at hadj
      exact hadj)
    (by
      show 0 < i → (nth h.blocks (i - 1)).alloc = true
      intro hj
      have hPA : (nth h.blocks i).prevAlloc = true := by
        cases hpa : (nth h.blocks i).prevAlloc
        · rw [hpa] at hP
          simp at hP
          omega
        · rfl
      have hok := hbitsM i hi (by omega)
      unfold prevOkAt at hok
      rw [hPA, if_neg (by omega : ¬ i = 0)] at hok
      exact hok.symm)
    (by
      show i + 2 < h.blocks.length → (nth h.blocks (i + 2)).alloc = true
      intro hi2
      have hadj := hadjM (i + 1) (by rw [length_maskAlloc h.blocks i hi]; omega)
        (by rw [length_maskAlloc h.blocks i hi]; omega)
      rw [nth_maskAlloc_ne h.blocks i (i + 1) hi (by omega),
        nth_maskAlloc_ne h.blocks i (i + 2) hi (by omega)] at hadj
      rcases hadj with hadj | hadj
      · rw [hnb] at hadj
        simp at hadj
      · exact hadj)
    (by
      show ∀ k, k < h.blocks.length → (k < i ∨ i + 2 < k) → prevOkAt h.blocks k
      intro k hk hd
      exact hbitsM k hk (by omega))
    (by
      show (nth h.blocks i).prevAlloc =
        (if i = 0 then true else (nth h.blocks (i - 1)).alloc)
      have hok := hbitsM i hi (by omega)
      unfold prevOkAt at hok
      exact hok)
    (by
      show i + 2 < h.blocks.length → epiOk h
      intro hgt
      exact hepiM (by omega))
    (by
      intro c hc
      show ((remove_free h (offsetOf h.blocks (i + 1)) (nth h.blocks (i + 1)).size).freeLists.getD
          c [] : Multiset Nat) =
        (freeClassAux c (h.blocks.take i) 64 : Multiset Nat) +
        (freeClassAux c (h.blocks.drop (i + 2))
          (offsetOf h.blocks i +
            ((nth h.blocks i).size + (nth h.blocks (i + 1)).size)) : Multiset Nat)
      rw [getD_remove_free h _ _ c hfll]
      have hw := lists_mask_window h i hi hlistsM i 2 (le_refl i) (by omega) (by omega) c hc
      have hs2 : slice (maskAlloc h.blocks i) i 2 =
          [{ nth h.blocks i with alloc := true }, nth h.blocks (i + 1)] := by
        rw [slice_two _ i (by rw [length_maskAlloc h.blocks i hi]; omega),
          nth_maskAlloc_self h.blocks i hi,
          nth_maskAlloc_ne h.blocks i (i + 1) hi (by omega)]
      rw [hs2] at hw
      have hmid : freeClassAux c [{ nth h.blocks i with alloc := true }, nth h.blocks (i + 1)]
          (offsetOf h.blocks i) =
          (if (nth h.blocks (i + 1)).alloc = false ∧ list_index (nth h.blocks (i + 1)).size = c
            then [offsetOf h.blocks i + (nth h.blocks i).size] else []) := by
        rw [freeClassAux_two]
        dsimp only
        rw [if_neg (by simp)]
        rw [List.nil_append]
      rw [hmid] at hw
      have hbase : offsetOf h.blocks i +
          sumSizes [{ nth h.blocks i with alloc := true }, nth h.blocks (i + 1)] =
          offsetOf h.blocks i + ((nth h.blocks i).size + (nth h.blocks (i + 1)).size) := by
        rw [sumSizes_cons, sumSizes_cons, sumSizes_nil]
        dsimp only
        omega
      rw [hbase] at hw
      by_cases hcn : c = list_index (nth h.blocks (i + 1)).size
      · rw [if_pos hcn]
        rw [if_pos ⟨hnb, hcn.symm⟩] at hw
        have hoffn : offsetOf h.blocks (i + 1) = offsetOf h.blocks i + (nth h.blocks i).size :=
          offsetOf_succ h.blocks i hi
        have hz : (([] : List Nat) : Multiset Nat) = 0 := rfl
        rw [ms_coe_erase, hw, ms_coe_cons, hz, ms_add_singleton, ← hoffn,
          Multiset.erase_cons_head]
      · rw [if_neg hcn]
        rw [if_neg (fun he => hcn he.2.symm)] at hw
        rw [hw]
        have hz : (([] : List Nat) : Multiset Nat) = 0 := rfl
        rw [hz, add_zero])
  dsimp only at hmain
  rw [remove_free_blocks] at hmain
  unfold CoalescePost
  rw [hc]
  dsimp only
  obtain ⟨hInv, hnthm, hlenm, hsumm, -⟩ := hmain
  refine ⟨hInv, ?_, ?_, ?_, ?_⟩
  · rw [hlenm]
    omega
  · rw [hnthm]
  · rw [hnthm]
    show (nth h.blocks i).size ≤ (nth h.blocks i).size + (nth h.blocks (i + 1)).size
    omega
  · rw [hsumm]

theorem coalesce_inv_pn (h : Heap) (i : Nat)
    (hi : i < h.blocks.length)
    (hfree : (nth h.blocks i).alloc = false)
    (hpos : sizesPos h.blocks)
    (hsmall : SmallHeap h)
    (hadjM : NoAdj (maskAlloc h.blocks i))
    (hbitsM : ∀ k < h.blocks.length, k ≠ i + 1 → prevOkAt h.blocks k)
    (hepiM : i + 1 < h.blocks.length → epiOk h)
    (hfll : h.freeLists.length = 12)
    (hlistsM : ∀ c < 12, (h.freeLists.getD c [] : Multiset Nat) =
      (freeClass (maskAlloc h.blocks i) c : Multiset Nat))
    (hP : (!(nth h.blocks i).prevAlloc && decide (0 < i)) = true)
    (hN : nextAllocB h.blocks i = true) :
    CoalescePost h i := by
  have h0i : 0 < i := by
    by_contra hcon
    rw [decide_eq_false hcon] at hP
    simp at hP
  have hbpa : (nth h.blocks i).prevAlloc = false := by
    cases hpa : (nth h.blocks i).prevAlloc
    · rfl
    · rw [hpa] at hP
      simp at hP
  have hpb_free : (nth h.blocks (i - 1)).alloc = false := by
    have hok := hbitsM i hi (by omega)
    unfold prevOkAt at hok
    rw [hbpa, if_neg (by omega : ¬ i = 0)] at hok
    exact hok.symm
  have hc : coalesce h i =
      (setNextPrevAlloc
        (insert_free
          { remove_free h (offsetOf h.blocks (i - 1)) (nth h.blocks (i - 1)).size with
            blocks :=
              replaceAt h.blocks (i - 1) 2
                [{ size := (nth h.blocks i).size + (nth h.blocks (i - 1)).size, alloc := false,
                   prevAlloc := (nth h.blocks (i - 1)).prevAlloc, data := zeroData }] }
          (offsetOf h.blocks (i - 1))
          ((nth h.blocks i).size + (nth h.blocks (i - 1)).size))
        (i - 1) false, i - 1) := by
    unfold coalesce
    dsimp only
    rw [hP, hN]
    simp only [Bool.false_eq_true, if_false, if_true, eq_self_iff_true]
    rfl
  have hmain := assemble_inv
    (remove_free h (offsetOf h.blocks (i - 1)) (nth h.blocks (i - 1)).size) (i - 1) 2
    { size := (nth h.blocks i).size + (nth h.blocks (i - 1)).size, alloc := false,
      prevAlloc := (nth h.blocks (i - 1)).prevAlloc, data := zeroData }
    (by show i - 1 + 2 ≤ h.blocks.length; omega) (by omega) rfl
    (by
      show 0 < (nth h.blocks i).size + (nth h.blocks (i - 1)).size
      have hp := hpos _ (nth_mem h.blocks i hi)
      omega)
    (by
      show (nth h.blocks i).size + (nth h.blocks (i - 1)).size =
        sumSizes (slice h.blocks (i - 1) 2)
      rw [slice_two h.blocks (i - 1) (by omega), sumSizes_cons, sumSizes_cons, sumSizes_nil]
      have he : nth h.blocks (i - 1 + 1) = nth h.blocks i :=
        congrArg (nth h.blocks) (by omega)
      rw [he]
      omega)
    (by rw [length_remove_free]; exact hfll)
    (by show sizesPos h.blocks; exact hpos)
    (by show SmallHeap h; exact hsmall)
    (by
      show ∀ k, k + 1 < h.blocks.length → (k + 1 < i - 1 ∨ i - 1 + 2 ≤ k) →
        ((nth h.blocks k).alloc = true ∨ (nth h.blocks (k + 1)).alloc = true)
      intro k hk1 hd
      have hne1 : k ≠ i := by omega
      have hne2 : k + 1 ≠ i := by omega
      have hadj := hadjM k (by rw [length_maskAlloc h.blocks i hi]; omega)
        (by rw [length_maskAlloc h.blocks i hi]; omega)
      rw [nth_maskAlloc_ne h.blocks i k hi hne1,
        nth_maskAlloc_ne h.blocks i (k + 1) hi hne2] at hadj
      exact hadj)
    (by
      show 0 < i - 1 → (nth h.blocks (i - 1 - 1)).alloc = true
      intro hj
      have hadj := hadjM (i - 2) (by rw [length_maskAlloc h.blocks i hi]; omega)
        (by rw [length_maskAlloc h.blocks i hi]; omega)
      rw [nth_maskAlloc_ne h.blocks i (i - 2) hi (by omega),
        nth_maskAlloc_ne h.blocks i (i - 2 + 1) hi (by omega)] at hadj
      have he : i - 2 + 1 = i - 1 := by omega
      rw [he] at hadj
      rcases hadj with hadj | hadj
      · rw [(by omega : i - 1 - 1 = i - 2)]
        exact hadj
      · rw [hpb_free] at hadj
        simp at hadj)
    (by
      show i - 1 + 2 < h.blocks.length → (nth h.blocks (i - 1 + 2)).alloc = true
      rw [(by omega : i - 1 + 2 = i + 1)]
      intro h2
      have hna := nextAllocB_of_lt h.blocks i h2
      rw [hna] at hN
      exact hN)
    (by
      show ∀ k, k < h.blocks.length → (k < i - 1 ∨ i - 1 + 2 < k) → prevOkAt h.blocks k
      intro k hk hd
      exact hbitsM k hk (by omega))
    (by
      show (nth h.blocks (i - 1)).prevAlloc =
        (if i - 1 = 0 then true else (nth h.blocks (i - 1 - 1)).alloc)
      have hok := hbitsM (i - 1) (by omega) (by omega)
      unfold prevOkAt at hok
      exact hok)
    (by
      show i - 1 + 2 < h.blocks.length → epiOk h
      intro hgt
      exact hepiM (by omega))
    (by
      intro c hc
      show ((remove_free h (offsetOf h.blocks (i - 1)) (nth h.blocks (i - 1)).size).freeLists.getD
          c [] : Multiset Nat) =
        (freeClassAux c (h.blocks.take (i - 1)) 64 : Multiset Nat) +
        (freeClassAux c (h.blocks.drop (i - 1 + 2))
          (offsetOf h.blocks (i - 1) +
            ((nth h.blocks i).size + (nth h.blocks (i - 1)).size)) : Multiset Nat)
      rw [getD_remove_free h _ _ c hfll]
      have hw := lists_mask_window h i hi hlistsM (i - 1) 2 (by omega) (by omega) (by omega) c hc
      have hs2 : slice (maskAlloc h.blocks i) (i - 1) 2 =
          [nth h.blocks (i - 1), { nth h.blocks i with alloc := true }] := by
        rw [slice_two _ (i - 1) (by rw [length_maskAlloc h.blocks i hi]; omega),
          (by omega : i - 1 + 1 = i),
          nth_maskAlloc_ne h.blocks i (i - 1) hi (by omega),
          nth_maskAlloc_self h.blocks i hi]
      rw [hs2] at hw
      have hmid : freeClassAux c [nth h.blocks (i - 1), { nth h.blocks i with alloc := true }]
          (offsetOf h.blocks (i - 1)) =
          (if (nth h.blocks (i - 1)).alloc = false ∧ list_index (nth h.blocks (i - 1)).size = c
            then [offsetOf h.blocks (i - 1)] else []) := by
        rw [freeClassAux_two]
        dsimp only
        rw [if_neg (show ¬(true = false ∧ list_index (nth h.blocks i).size = c) from by simp)]
        rw [List.append_nil]
      rw [hmid] at hw
      have hbase : offsetOf h.blocks (i - 1) +
          sumSizes [nth h.blocks (i - 1), { nth h.blocks i with alloc := true }] =
          offsetOf h.blocks (i - 1) +
            ((nth h.blocks i).size + (nth h.blocks (i - 1)).size) := by
        rw [sumSizes_cons, sumSizes_cons, sumSizes_nil]
        dsimp only
        omega
      rw [hbase] at hw
      by_cases hcp : c = list_index (nth h.blocks (i - 1)).size
      · rw [if_pos hcp]
        rw [if_pos ⟨hpb_free, hcp.symm⟩] at hw
        have hz : (([] : List Nat) : Multiset Nat) = 0 := rfl
        rw [ms_coe_erase, hw, ms_coe_cons, hz, ms_add_singleton,
          Multiset.erase_cons_head]
      · rw [if_neg hcp]
        rw [if_neg (fun he => hcp he.2.symm)] at hw
        rw [hw]
        have hz : (([] : List Nat) : Multiset Nat) = 0 := rfl
        rw [hz, add_zero])
  dsimp only at hmain
  rw [remove_free_blocks] at hmain
  unfold CoalescePost
  rw [hc]
  dsimp only
  obtain ⟨hInv, hnthm, hlenm, hsumm, -⟩ := hmain
  refine ⟨hInv, ?_, ?_, ?_, ?_⟩
  · rw [hlenm]
    omega
  · rw [hnthm]
  · rw [hnthm]
    show (nth h.blocks i).size ≤ (nth h.blocks i).size + (nth h.blocks (i - 1)).size
    omega
  · rw [hsumm]

theorem coalesce_inv_pp (h : Heap) (i : Nat)
    (hi : i < h.blocks.length)
    (hfree : (nth h.blocks i).alloc = false)
    (hpos : sizesPos h.blocks)
    (hsmall : SmallHeap h)
    (hadjM : NoAdj (maskAlloc h.blocks i))
    (hbitsM : ∀ k < h.blocks.length, k ≠ i + 1 → prevOkAt h.blocks k)
    (hepiM : i + 1 < h.blocks.length → epiOk h)
    (hfll : h.freeLists.length = 12)
    (hlistsM : ∀ c < 12, (h.freeLists.getD c [] : Multiset Nat) =
      (freeClass (maskAlloc h.blocks i) c : Multiset Nat))
    (hP : (!(nth h.blocks i).prevAlloc && decide (0 < i)) = true)
    (hN : nextAllocB h.blocks i = false) :
    CoalescePost h i := by
  have h0i : 0 < i := by
    by_contra hcon
    rw [decide_eq_false hcon] at hP
    simp at hP
  have hbpa : (nth h.blocks i).prevAlloc = false := by
    cases hpa : (nth h.blocks i).prevAlloc
    · rfl
    · rw [hpa] at hP
      simp at hP
  have hpb_free : (nth h.blocks (i - 1)).alloc = false := by
    have hok := hbitsM i hi (by omega)
    unfold prevOkAt at hok
    rw [hbpa, if_neg (by omega : ¬ i = 0)] at hok
    exact hok.symm
  have hi1 : i + 1 < h.blocks.length := by
    by_contra hcon
    rw [nextAllocB_of_ge h.blocks i hcon] at hN
    simp at hN
  have hnb : (nth h.blocks (i + 1)).alloc = false := by
    have hna := nextAllocB_of_lt h.blocks i hi1
    rw [hna] at hN
    exact hN
  have hc : coalesce h i =
      (setNextPrevAlloc
        (insert_free
          { remove_free
              (remove_free h (offsetOf h.blocks (i - 1)) (nth h.blocks (i - 1)).size)
              (offsetOf h.blocks (i + 1)) (nth h.blocks (i + 1)).size with
            blocks :=
              replaceAt h.blocks (i - 1) 3
                [{ size := (nth h.blocks i).size + (nth h.blocks (i - 1)).size +
                     (nth h.blocks (i + 1)).size, alloc := false,
                   prevAlloc := (nth h.blocks (i - 1)).prevAlloc, data := zeroData }] }
          (offsetOf h.blocks (i - 1))
          ((nth h.blocks i).size + (nth h.blocks (i - 1)).size + (nth h.blocks (i + 1)).size))
        (i - 1) false, i - 1) := by
    unfold coalesce
    dsimp only
    rw [hP, hN]
    simp only [Bool.false_eq_true, if_false, if_true, eq_self_iff_true]
    rfl
  have hmain := assemble_inv
    (remove_free (remove_free h (offsetOf h.blocks (i - 1)) (nth h.blocks (i - 1)).size)
      (offsetOf h.blocks (i + 1)) (nth h.blocks (i + 1)).size) (i - 1) 3
    { size := (nth h.blocks i).size + (nth h.blocks (i - 1)).size +
        (nth h.blocks (i + 1)).size, alloc := false,
      prevAlloc := (nth h.blocks (i - 1)).prevAlloc, data := zeroData }
    (by show i - 1 + 3 ≤ h.blocks.length; omega) (by omega) rfl
    (by
      show 0 < (nth h.blocks i).size + (nth h.blocks (i - 1)).size +
        (nth h.blocks (i + 1)).size
      have hp := hpos _ (nth_mem h.blocks i hi)
      omega)
    (by
      show (nth h.blocks i).size + (nth h.blocks (i - 1)).size +
        (nth h.blocks (i + 1)).size = sumSizes (slice h.blocks (i - 1) 3)
      rw [slice_three h.blocks (i - 1) (by omega), sumSizes_cons, sumSizes_cons,
        sumSizes_cons, sumSizes_nil]
      have he1 : nth h.blocks (i - 1 + 1) = nth h.blocks i :=
        congrArg (nth h.blocks) (by omega)
      have he2 : nth h.blocks (i - 1 + 2) = nth h.blocks (i + 1) :=
        congrArg (nth h.blocks) (by omega)
      rw [he1, he2]
      omega)
    (by rw [length_remove_free, length_remove_free]; exact hfll)
    (by show sizesPos h.blocks; exact hpos)
    (by show SmallHeap h; exact hsmall)
    (by
      show ∀ k, k + 1 < h.blocks.length → (k + 1 < i - 1 ∨ i - 1 + 3 ≤ k) →
        ((nth h.blocks k).alloc = true ∨ (nth h.blocks (k + 1)).alloc = true)
      intro k hk1 hd
      have hne1 : k ≠ i := by omega
      have hne2 : k + 1 ≠ i := by omega
      have hadj := hadjM k (by rw [length_maskAlloc h.blocks i hi]; omega)
        (by rw [length_maskAlloc h.blocks i hi]; omega)
      rw [nth_maskAlloc_ne h.blocks i k hi hne1,
        nth_maskAlloc_ne h.blocks i (k + 1) hi hne2] at hadj
      exact hadj)
    (by
      show 0 < i - 1 → (nth h.blocks (i - 1 - 1)).alloc = true
      intro hj
      have hadj := hadjM (i - 2) (by rw [length_maskAlloc h.blocks i hi]; omega)
        (by rw [length_maskAlloc h.blocks i hi]; omega)
      rw [nth_maskAlloc_ne h.blocks i (i - 2) hi (by omega),
        nth_maskAlloc_ne h.blocks i (i - 2 + 1) hi (by omega)] at hadj
      have he : i - 2 + 1 = i - 1 := by omega
      rw [he] at hadj
      rcases hadj with hadj | hadj
      · rw [(by omega : i - 1 - 1 = i - 2)]
        exact hadj
      · rw [hpb_free] at hadj
        simp at hadj)
    (by
      show i - 1 + 3 < h.blocks.length → (nth h.blocks (i - 1 + 3)).alloc = true
      rw [(by omega : i - 1 + 3 = i + 2)]
      intro hi2
      have hadj := hadjM (i + 1) (by rw [length_maskAlloc h.blocks i hi]; omega)
        (by rw [length_maskAlloc h.blocks i hi]; omega)
      rw [nth_maskAlloc_ne h.blocks i (i + 1) hi (by omega),
        nth_maskAlloc_ne h.blocks i (i + 2) hi (by omega)] at hadj
      rcases hadj with hadj | hadj
      · rw [hnb] at hadj
        simp at hadj
      · exact hadj)
    (by
      show ∀ k, k < h.blocks.length → (k < i - 1 ∨ i - 1 + 3 < k) → prevOkAt h.blocks k
      intro k hk hd
      exact hbitsM k hk (by omega))
    (by
      show (nth h.blocks (i - 1)).prevAlloc =
        (if i - 1 = 0 then true else (nth h.blocks (i - 1 - 1)).alloc)
      have hok := hbitsM (i - 1) (by omega) (by omega)
      unfold prevOkAt at hok
      exact hok)
    (by
      show i - 1 + 3 < h.blocks.length → epiOk h
      intro hgt
      exact hepiM (by omega))
    (by
      intro c hc
      show ((remove_free
          (remove_free h (offsetOf h.blocks (i - 1)) (nth h.blocks (i - 1)).size)
          (offsetOf h.blocks (i + 1)) (nth h.blocks (i + 1)).size).freeLists.getD
          c [] : Multiset Nat) =
        (freeClassAux c (h.blocks.take (i - 1)) 64 : Multiset Nat) +
        (freeClassAux c (h.blocks.drop (i - 1 + 3))
          (offsetOf h.blocks (i - 1) +
            ((nth h.blocks i).size + (nth h.blocks (i - 1)).size +
              (nth h.blocks (i + 1)).size)) : Multiset Nat)
      rw [getD_remove_free _ _ _ c (by rw [length_remove_free]; exact hfll)]
      rw [getD_remove_free h _ _ c hfll]
      have hw := lists_mask_window h i hi hlistsM (i - 1) 3 (by omega) (by omega) (by omega) c hc
      have hs3 : slice (maskAlloc h.blocks i) (i - 1) 3 =
          [nth h.blocks (i - 1), { nth h.blocks i with alloc := true },
            nth h.blocks (i + 1)] := by
        rw [slice_three _ (i - 1) (by rw [length_maskAlloc h.blocks i hi]; omega),
          (by omega : i - 1 + 1 = i), (by omega : i - 1 + 2 = i + 1),
          nth_maskAlloc_ne h.blocks i (i - 1) hi (by omega),
          nth_maskAlloc_self h.blocks i hi,
          nth_maskAlloc_ne h.blocks i (i + 1) hi (by omega)]
      rw [hs3] at hw
      have hmid : freeClassAux c
          [nth h.blocks (i - 1), { nth h.blocks i with alloc := true },
            nth h.blocks (i + 1)] (offsetOf h.blocks (i - 1)) =
          (if (nth h.blocks (i - 1)).alloc = false ∧ list_index (nth h.blocks (i - 1)).size = c
            then [offsetOf h.blocks (i - 1)] else []) ++
          (if (nth h.blocks (i + 1)).alloc = false ∧ list_index (nth h.blocks (i + 1)).size = c
            then [offsetOf h.blocks (i - 1) + (nth h.blocks (i - 1)).size + (nth h.blocks i).size]
            else []) := by
        rw [freeClassAux_three]
        dsimp only
        rw [if_neg (show ¬(true = false ∧ list_index (nth h.blocks i).size = c) from by simp)]
        rw [List.append_nil]
      rw [hmid] at hw
      have hbase : offsetOf h.blocks (i - 1) +
          sumSizes [nth h.blocks (i - 1), { nth h.blocks i with alloc := true },
            nth h.blocks (i + 1)] =
          offsetOf h.blocks (i - 1) +
            ((nth h.blocks i).size + (nth h.blocks (i - 1)).size +
              (nth h.blocks (i + 1)).size) := by
        rw [sumSizes_cons, sumSizes_cons, sumSizes_cons, sumSizes_nil]
        dsimp only
        omega
      rw [hbase] at hw
      have hoffn : offsetOf h.blocks (i + 1) =
          offsetOf h.blocks (i - 1) + (nth h.blocks (i - 1)).size + (nth h.blocks i).size := by
        have ho1 := offsetOf_succ h.blocks i hi
        have ho2 := offsetOf_succ h.blocks (i - 1) (by omega)
        rw [(by omega : i - 1 + 1 = i)] at ho2
        omega
      have hz : (([] : List Nat) : Multiset Nat) = 0 := rfl
      by_cases hcn : c = list_index (nth h.blocks (i + 1)).size
      · rw [if_pos hcn]
        by_cases hcp : c = list_index (nth h.blocks (i - 1)).size
        · rw [if_pos hcp]
          rw [if_pos ⟨hpb_free, hcp.symm⟩, if_pos ⟨hnb, hcn.symm⟩] at hw
          rw [ms_coe_erase, ms_coe_erase, hw, ms_coe_append, ms_coe_cons, ms_coe_cons,
            hz, ← hoffn]
          rw [(show (offsetOf h.blocks (i - 1) ::ₘ (0 : Multiset Nat)) +
              offsetOf h.blocks (i + 1) ::ₘ (0 : Multiset Nat) =
              offsetOf h.blocks (i - 1) ::ₘ offsetOf h.blocks (i + 1) ::ₘ (0 : Multiset Nat)
            from by rw [Multiset.cons_add, zero_add])]
          rw [ms_add_pair, Multiset.erase_cons_head, Multiset.erase_cons_head]
        · rw [if_neg hcp]
          rw [if_neg (fun he => hcp he.2.symm), if_pos ⟨hnb, hcn.symm⟩] at hw
          rw [ms_coe_erase, hw, ms_coe_append, ms_coe_cons, hz, zero_add, ← hoffn,
            ms_add_singleton, Multiset.erase_cons_head]
      · rw [if_neg hcn]
        by_cases hcp : c = list_index (nth h.blocks (i - 1)).size
        · rw [if_pos hcp]
          rw [if_pos ⟨hpb_free, hcp.symm⟩, if_neg (fun he => hcn he.2.symm)] at hw
          rw [ms_coe_erase, hw, ms_coe_append, ms_coe_cons, hz, add_zero,
            ms_add_singleton, Multiset.erase_cons_head]
        · rw [if_neg hcp]
          rw [if_neg (fun he => hcp he.2.symm), if_neg (fun he => hcn he.2.symm)] at hw
          rw [hw, ms_coe_append, hz, add_zero, add_zero])
  dsimp only at hmain
  rw [remove_free_blocks, remove_free_blocks] at hmain
  unfold CoalescePost
  rw [hc]
  dsimp only
  obtain ⟨hInv, hnthm, hlenm, hsumm, -⟩ := hmain
  refine ⟨hInv, ?_, ?_, ?_, ?_⟩
  · rw [hlenm]
    omega
  · rw [hnthm]
  · rw [hnthm]
    show (nth h.blocks i).size ≤ (nth h.blocks i).size + (nth h.blocks (i - 1)).size +
      (nth h.blocks (i + 1)).size
    omega
  · rw [hsumm]

/-- coalesce restores the full invariant from a heap whose block i is a
free block detached from the class lists (read as allocated by the list
invariant), with accurate bits everywhere except possibly at i + 1. -/
theorem coalesce_inv (h : Heap) (i : Nat)
    (hi : i < h.blocks.length)
    (hfree : (nth h.blocks i).alloc = false)
    (hpos : sizesPos h.blocks)
    (hsmall : SmallHeap h)
    (hadjM : NoAdj (maskAlloc h.blocks i))
    (hbitsM : ∀ k < h.blocks.length, k ≠ i + 1 → prevOkAt h.blocks k)
    (hepiM : i + 1 < h.blocks.length → epiOk h)
    (hfll : h.freeLists.length = 12)
    (hlistsM : ∀ c < 12, (h.freeLists.getD c [] : Multiset Nat) =
      (freeClass (maskAlloc h.blocks i) c : Multiset Nat)) :
    CoalescePost h i := by
  cases hP : (!(nth h.blocks i).prevAlloc && decide (0 < i)) <;>
    cases hN : nextAllocB h.blocks i
  · exact coalesce_inv_np h i hi hfree hpos hsmall hadjM hbitsM hepiM hfll hlistsM hP hN
  · exact coalesce_inv_nn h i hi hfree hpos hsmall hadjM hbitsM hepiM hfll hlistsM hP hN
  · exact coalesce_inv_pp h i hi hfree hpos hsmall hadjM hbitsM hepiM hfll hlistsM hP hN
  · exact coalesce_inv_pn h i hi hfree hpos hsmall hadjM hbitsM hepiM hfll hlistsM hP hN

/-- Re-marking an allocated block free and then masking it allocated
again is invisible to the size/alloc view of the heap. -/
theorem mask_free_sa (bs : List Block) (i : Nat) (hi : i < bs.length)
    (halloc : (nth bs i).alloc = true) (fb : Block) (hsz : fb.size = (nth bs i).size) :
    (maskAlloc (replaceAt bs i 1 [fb]) i).map sa = bs.map sa := by
  have hL : (replaceAt bs i 1 [fb]).length = bs.length := by
    rw [length_replaceAt bs i 1 _ (by omega)]
    simp
    omega
  rw [maskAlloc_sa_set (replaceAt bs i 1 [fb]) i (by rw [hL]; exact hi)]
  have e1 : (replaceAt bs i 1 [fb]).take i = bs.take i :=
    take_replaceAt_le bs i 1 [fb] i (le_refl i) (by omega)
  have e2 : (replaceAt bs i 1 [fb]).drop (i + 1) = bs.drop (i + 1) := by
    have hd := drop_replaceAt_ge bs i 1 [fb] 0 (by omega)
    simpa using hd
  have e3 : nth (replaceAt bs i 1 [fb]) i = fb := by
    have hm := nth_replaceAt_mid bs i 1 [fb] 0 (by simp) (by omega)
    simpa using hm
  rw [← List.map_take, ← List.map_drop, e1, e2, e3, hsz]
  conv_rhs => rw [decomp bs i 1, slice_one bs i hi]
  rw [List.map_append, List.map_append, List.map_cons, List.map_nil]
  have hsa : sa (nth bs i) = ((nth bs i).size, true) := by
    rw [sa, halloc]
  rw [hsa, List.map_take, List.map_drop]

/-- mm_free on an allocated regular block preserves the invariant. -/
theorem free_inv (h : Heap) (off i : Nat) (hInv : Inv h)
    (hidx : indexOfOffset h.blocks off = some i)
    (halloc : (nth h.blocks i).alloc = true) :
    Inv (mm_free h off) := by
  obtain ⟨hpos, hadj, hbits, hlists, hsmall⟩ := hInv
  obtain ⟨hbits1, hbits2⟩ := hbits
  have hi : i < h.blocks.length := (indexOfOffset_some h.blocks off i hidx).1
  have hL1 : (replaceAt h.blocks i 1
      [{ size := (nth h.blocks i).size, alloc := false,
         prevAlloc := (nth h.blocks i).prevAlloc, data := zeroData }]).length =
      h.blocks.length := by
    rw [length_replaceAt h.blocks i 1 _ (by omega)]
    simp
    omega
  have hmid : nth (replaceAt h.blocks i 1
      [{ size := (nth h.blocks i).size, alloc := false,
         prevAlloc := (nth h.blocks i).prevAlloc, data := zeroData }]) i =
      { size := (nth h.blocks i).size, alloc := false,
         prevAlloc := (nth h.blocks i).prevAlloc, data := zeroData } := by
    have hm := nth_replaceAt_mid h.blocks i 1
      [{ size := (nth h.blocks i).size, alloc := false,
         prevAlloc := (nth h.blocks i).prevAlloc, data := zeroData }] 0 (by simp) (by omega)
    simpa using hm
  have hOut : ∀ m, m ≠ i → nth (replaceAt h.blocks i 1
      [{ size := (nth h.blocks i).size, alloc := false,
         prevAlloc := (nth h.blocks i).prevAlloc, data := zeroData }]) m = nth h.blocks m :=
    fun m hm => nth_replaceAt_out h.blocks i 1 _ m rfl (by omega) (by omega)
  have hsa := mask_free_sa h.blocks i hi halloc
    { size := (nth h.blocks i).size, alloc := false,
         prevAlloc := (nth h.blocks i).prevAlloc, data := zeroData } rfl
  have hpost := coalesce_inv
    { h with
      blocks :=
        replaceAt h.blocks i 1
          [{ size := (nth h.blocks i).size, alloc := false,
             prevAlloc := (nth h.blocks i).prevAlloc, data := zeroData }] } i
    (by dsimp only; rw [hL1]; exact hi)
    (by dsimp only; rw [hmid])
    (by
      dsimp only
      apply sizesPos_replaceAt h.blocks i 1 _ hpos
      intro x hx
      simp at hx
      rw [hx]
      exact hpos (nth h.blocks i) (nth_mem h.blocks i hi))
    (by
      show sumSizes (replaceAt h.blocks i 1
          [{ size := (nth h.blocks i).size, alloc := false,
             prevAlloc := (nth h.blocks i).prevAlloc, data := zeroData }]) +
        h.cap ≤ 2 ^ 32
      rw [sumSizes_replaceAt h.blocks i 1
        [{ size := (nth h.blocks i).size, alloc := false,
           prevAlloc := (nth h.blocks i).prevAlloc, data := zeroData }]
        (by rw [slice_one h.blocks i hi]; rfl)]
      exact hsmall)
    (by
      dsimp only
      exact NoAdj_congr h.blocks _ hsa.symm hadj)
    (by
      dsimp only
      intro k hk hne
      have hk' : k < h.blocks.length := by rw [← hL1]; exact hk
      unfold prevOkAt
      by_cases hki : k = i
      · subst hki
        rw [hmid]
        have hpok := hbits1 k hk'
        unfold prevOkAt at hpok
        by_cases hk0 : k = 0
        · rw [if_pos hk0] at hpok ⊢
          exact hpok
        · rw [if_neg hk0] at hpok ⊢
          rw [hOut (k - 1) (by omega)]
          exact hpok
      · rw [hOut k hki]
        have hpok := hbits1 k hk'
        unfold prevOkAt at hpok
        by_cases hk0 : k = 0
        · rw [if_pos hk0] at hpok ⊢
          exact hpok
        · rw [if_neg hk0] at hpok ⊢
          rw [hOut (k - 1) (by omega)]
          exact hpok)
    (by
      dsimp only
      intro hlt
      unfold epiOk
      dsimp only
      rw [hL1] at hlt ⊢
      rw [if_neg (by omega : ¬ h.blocks.length = 0)]
      rw [hOut (h.blocks.length - 1) (by omega)]
      rw [if_neg (by omega : ¬ h.blocks.length = 0)] at hbits2
      exact hbits2)
    (by dsimp only; exact hlists.1)
    (by
      dsimp only
      intro c hc
      have hfc : freeClass (maskAlloc (replaceAt h.blocks i 1
          [{ size := (nth h.blocks i).size, alloc := false,
             prevAlloc := (nth h.blocks i).prevAlloc, data := zeroData }]) i) c =
          freeClass h.blocks c := by
        rw [freeClass, freeClass]
        exact freeClassAux_congr c _ _ 64 hsa
      rw [hfc]
      exact hlists.2 c hc)
  have hfree_eq : mm_free h off =
      (coalesce
        { h with
          blocks :=
            replaceAt h.blocks i 1
              [{ size := (nth h.blocks i).size, alloc := false,
                 prevAlloc := (nth h.blocks i).prevAlloc, data := zeroData }] } i).1 := by
    unfold mm_free
    rw [hidx]
  rw [hfree_eq]
  exact hpost.1

/-- Second assembly lemma: replacing a single block by a nonempty run of
blocks of the same total size (the place/split shapes), with the class
lists already matching the new block layout, then fixing the prev-alloc
bit of the first block after the run, yields an invariant heap. -/
theorem place_assemble (g : Heap) (j cnt : Nat) (news : List Block) (v : Bool) (h2 : Heap)
    (hlen : j + cnt ≤ g.blocks.length) (hcnt : 0 < cnt) (hne : news ≠ [])
    (hb : h2.blocks = replaceAt g.blocks j cnt news)
    (hfll2 : h2.freeLists.length = 12)
    (hfl : ∀ c < 12, (h2.freeLists.getD c [] : Multiset Nat) =
      (freeClass (replaceAt g.blocks j cnt news) c : Multiset Nat))
    (hepi2 : h2.epiPrevAlloc = g.epiPrevAlloc) (hcap2 : h2.cap = g.cap)
    (hpos : sizesPos g.blocks) (hsmall : SmallHeap g)
    (hposN : ∀ b ∈ news, 0 < b.size)
    (hsum : sumSizes news = sumSizes (slice g.blocks j cnt))
    (houtA : ∀ k, k + 1 < g.blocks.length → (k + 1 < j ∨ j + cnt ≤ k) →
      ((nth g.blocks k).alloc = true ∨ (nth g.blocks (k + 1)).alloc = true))
    (hmidA : ∀ k, k + 1 < news.length →
      ((nth news k).alloc = true ∨ (nth news (k + 1)).alloc = true))
    (hleftA : 0 < j → ((nth g.blocks (j - 1)).alloc = true ∨ (nth news 0).alloc = true))
    (hrightA : j + cnt < g.blocks.length →
      ((nth news (news.length - 1)).alloc = true ∨ (nth g.blocks (j + cnt)).alloc = true))
    (houtB : ∀ k, k < g.blocks.length → (k < j ∨ j + cnt < k) → prevOkAt g.blocks k)
    (hinB : ∀ k, k + 1 < news.length → (nth news (k + 1)).prevAlloc = (nth news k).alloc)
    (hleftB : (nth news 0).prevAlloc = (if j = 0 then true else (nth g.blocks (j - 1)).alloc))
    (hepiB : j + cnt < g.blocks.length → epiOk g)
    (hv : v = (nth news (news.length - 1)).alloc) :
    Inv (setNextPrevAlloc h2 (j + news.length - 1) v) ∧
    (setNextPrevAlloc h2 (j + news.length - 1) v).blocks.length =
      j + news.length + (g.blocks.length - (j + cnt)) ∧
    sumSizes (setNextPrevAlloc h2 (j + news.length - 1) v).blocks = sumSizes g.blocks ∧
    (setNextPrevAlloc h2 (j + news.length - 1) v).cap = g.cap := by
  have hnl : 0 < news.length := List.length_pos.mpr hne
  have hLR : (replaceAt g.blocks j cnt news).length =
      j + news.length + (g.blocks.length - (j + cnt)) :=
    length_replaceAt g.blocks j cnt news hlen
  have hsumR : sumSizes (replaceAt g.blocks j cnt news) = sumSizes g.blocks :=
    sumSizes_replaceAt g.blocks j cnt news hsum
  have hsa5 := setNextPrevAlloc_sa h2 (j + news.length - 1) v
  rw [hb] at hsa5
  have hL5 : (setNextPrevAlloc h2 (j + news.length - 1) v).blocks.length =
      j + news.length + (g.blocks.length - (j + cnt)) := by
    rw [length_setNextPrevAlloc, hb, hLR]
  have hsum5 : sumSizes (setNextPrevAlloc h2 (j + news.length - 1) v).blocks =
      sumSizes g.blocks := by
    rw [sumSizes_congr _ _ hsa5, hsumR]
  have hcap5 : (setNextPrevAlloc h2 (j + news.length - 1) v).cap = g.cap := by
    rw [setNextPrevAlloc_cap, hcap2]
  refine ⟨⟨?_, ?_, ?_, ?_, ?_⟩, hL5, hsum5, hcap5⟩
  · exact sizesPos_congr _ _ hsa5.symm (sizesPos_replaceAt g.blocks j cnt news hpos hposN)
  · exact NoAdj_congr _ _ hsa5.symm
      (NoAdj_replace g.blocks j cnt news hlen hne houtA hmidA hleftA hrightA)
  · have hmaster := PrevBitsX_replace g j cnt news hlen hne houtB hinB hleftB hepiB
    have hX2 : PrevBitsX h2 (j + news.length) :=
      PrevBitsX_ext _ _ _ (by rw [hb]) (by rw [hepi2]) hmaster
    have hvv : v = (nth h2.blocks (j + news.length - 1)).alloc := by
      rw [hb]
      have hm := nth_replaceAt_mid g.blocks j cnt news (news.length - 1) (by omega) (by omega)
      rw [(by omega : j + news.length - 1 = j + (news.length - 1)), hm, hv]
    have hfin := PrevBits_of_X_set h2 (j + news.length) (by omega)
      (by rw [hb, hLR]; omega) hX2 v hvv
    rw [(by omega : j + news.length - 1 = j + news.length - 1)] at hfin
    exact hfin
  · constructor
    · rw [setNextPrevAlloc_freeLists, hfll2]
    · intro c hc
      rw [setNextPrevAlloc_freeLists]
      have hfc : freeClass (setNextPrevAlloc h2 (j + news.length - 1) v).blocks c =
          freeClass (replaceAt g.blocks j cnt news) c := by
        rw [freeClass, freeClass]
        exact freeClassAux_congr c _ _ 64 hsa5
      rw [hfc]
      exact hfl c hc
  · show sumSizes _ + _ ≤ _
    rw [hsum5, hcap5]
    exact hsmall

/-- The class walk of a masked heap skips the masked block. -/
theorem freeClass_mask_eq (bs : List Block) (i : Nat) (hi : i < bs.length) (c : Nat) :
    freeClass (maskAlloc bs i) c =
      freeClassAux c (bs.take i) 64 ++
      freeClassAux c (bs.drop (i + 1)) (offsetOf bs i + (nth bs i).size) := by
  rw [maskAlloc, freeClass_replace bs i 1 [{ nth bs i with alloc := true }] c]
  rw [freeClassAux_one]
  dsimp only
  rw [if_neg (show ¬ (true = false ∧ list_index (nth bs i).size = c) from by simp)]
  rw [List.append_nil]
  have hsz : sumSizes [({ nth bs i with alloc := true } : Block)] = (nth bs i).size := by
    rw [sumSizes_cons, sumSizes_nil]
    dsimp only
    omega
  rw [hsz]

/-- Splitting a free block's offset out of the class walk. -/
theorem freeClass_mask_split (bs : List Block) (i : Nat) (hi : i < bs.length)
    (hfree : (nth bs i).alloc = false) (c : Nat) :
    (freeClass bs c : Multiset Nat) =
      (freeClass (maskAlloc bs i) c : Multiset Nat) +
      (if c = list_index (nth bs i).size then offsetOf bs i ::ₘ 0 else 0) := by
  have hz : (([] : List Nat) : Multiset Nat) = 0 := rfl
  rw [freeClass_decomp bs i 1 c, slice_one bs i hi, freeClass_mask_eq bs i hi c]
  rw [(show sumSizes [nth bs i] = (nth bs i).size from by
    rw [sumSizes_cons, sumSizes_nil]; omega)]
  rw [freeClassAux_one, hfree]
  by_cases hcc : c = list_index (nth bs i).size
  · rw [if_pos ⟨rfl, hcc.symm⟩, if_pos hcc]
    simp only [ms_coe_append, ms_coe_cons, hz]
    rw [ms_add_singleton]
    ext t
    simp only [Multiset.count_add, Multiset.count_cons, Multiset.count_zero]
    split_ifs <;> omega
  · rw [if_neg (fun he => hcc he.2.symm), if_neg hcc]
    simp only [ms_coe_append, hz]
    rw [add_zero, add_zero]

/-- remove_free of a free block's offset leaves lists matching the walk
with that block read as allocated. -/
theorem lists_after_remove (h : Heap) (i : Nat) (hi : i < h.blocks.length)
    (hfree : (nth h.blocks i).alloc = false) (hlists : ListsOk h) (c : Nat) (hc : c < 12) :
    ((remove_free h (offsetOf h.blocks i) (nth h.blocks i).size).freeLists.getD c []
        : Multiset Nat) =
      (freeClass (maskAlloc h.blocks i) c : Multiset Nat) := by
  rw [getD_remove_free h _ _ c hlists.1]
  have hms := freeClass_mask_split h.blocks i hi hfree c
  by_cases hcc : c = list_index (nth h.blocks i).size
  · rw [if_pos hcc, ms_coe_erase, hlists.2 c hc, hms, if_pos hcc, ms_erase_mid, add_zero]
  · rw [if_neg hcc, hlists.2 c hc, hms, if_neg hcc, add_zero]

/-- A block's size is at most the total heap size. -/
theorem size_le_sum (bs : List Block) (i : Nat) (hi : i < bs.length) :
    (nth bs i).size ≤ sumSizes bs := by
  conv_rhs => rw [sumSizes_slice bs i 1]
  rw [slice_one bs i hi, sumSizes_cons, sumSizes_nil]
  omega

/-- place on a free block of sufficient size preserves the invariant. -/
theorem place_inv (h : Heap) (i asize : Nat) (hInv : Inv h)
    (hi : i < h.blocks.length)
    (hfree : (nth h.blocks i).alloc = false)
    (hasize : 0 < asize)
    (hle : asize ≤ (nth h.blocks i).size) :
    Inv (place h (offsetOf h.blocks i) asize).1 := by
  obtain ⟨hpos, hadj, ⟨hbits1, hbits2⟩, hlists, hsmall⟩ := hInv
  have hidx : indexOfOffset h.blocks (offsetOf h.blocks i) = some i :=
    indexOfOffset_offsetOf h.blocks i hi hpos
  have hcslt : (nth h.blocks i).size < TWO64 := by
    have h1 := size_le_sum h.blocks i hi
    have h2 : sumSizes h.blocks ≤ 2 ^ 32 := by
      have h3 := hsmall
      unfold SmallHeap at h3
      omega
    have h4 : (2 : Nat) ^ 32 < TWO64 := by
      unfold TWO64
      norm_num
    omega
  have hws : wsub (nth h.blocks i).size asize = (nth h.blocks i).size - asize :=
    wsub_eq _ _ hle hcslt
  have hN1 : 0 < i → (nth h.blocks (i - 1)).alloc = true := by
    intro hj
    have ha := hadj (i - 1) (by omega) (by omega)
    rw [(by omega : i - 1 + 1 = i)] at ha
    rcases ha with ha | ha
    · exact ha
    · rw [hfree] at ha
      simp at ha
  have hN2 : i + 1 < h.blocks.length → (nth h.blocks (i + 1)).alloc = true := by
    intro hlt
    have ha := hadj i (by omega) (by omega)
    rcases ha with ha | ha
    · rw [hfree] at ha
      simp at ha
    · exact ha
  have hpokI : (nth h.blocks i).prevAlloc =
      (if i = 0 then true else (nth h.blocks (i - 1)).alloc) := by
    have hok := hbits1 i hi
    unfold prevOkAt at hok
    exact hok
  by_cases h16 : 16 ≤ (nth h.blocks i).size - asize
  · cases hstr : h.strategy
    · -- split, front allocation
      have hc : place h (offsetOf h.blocks i) asize =
          (setNextPrevAlloc
            (insert_free
              { remove_free h (offsetOf h.blocks i) (nth h.blocks i).size with
                blocks :=
                  replaceAt h.blocks i 1
                    [{ size := asize, alloc := true,
                       prevAlloc := (nth h.blocks i).prevAlloc,
                       data := (nth h.blocks i).data },
                     { size := (nth h.blocks i).size - asize, alloc := false,
                       prevAlloc := true, data := zeroData }],
                strategy := true }
              (offsetOf h.blocks i + asize) ((nth h.blocks i).size - asize))
            (i + 1) false,
           offsetOf h.blocks i) := by
        unfold place
        rw [hidx]
        dsimp only
        rw [hws, if_pos h16, remove_free_strategy, hstr, if_pos rfl]
        rfl
      rw [hc]
      have hres := place_assemble
        (remove_free h (offsetOf h.blocks i) (nth h.blocks i).size) i 1
        [{ size := asize, alloc := true,
           prevAlloc := (nth h.blocks i).prevAlloc, data := (nth h.blocks i).data },
         { size := (nth h.blocks i).size - asize, alloc := false,
           prevAlloc := true, data := zeroData }] false
        (insert_free
          { remove_free h (offsetOf h.blocks i) (nth h.blocks i).size with
            blocks :=
              replaceAt h.blocks i 1
                [{ size := asize, alloc := true,
                   prevAlloc := (nth h.blocks i).prevAlloc,
                   data := (nth h.blocks i).data },
                 { size := (nth h.blocks i).size - asize, alloc := false,
                   prevAlloc := true, data := zeroData }],
            strategy := true }
          (offsetOf h.blocks i + asize) ((nth h.blocks i).size - asize))
        (by show i + 1 ≤ h.blocks.length; omega) (by omega) (by simp)
        (by rw [insert_free_blocks, remove_free_blocks])
        (by rw [length_insert_free, length_remove_free]; exact hlists.1)
        (by
          intro c hc
          rw [getD_insert_free _ _ _ c (by rw [length_remove_free]; exact hlists.1)]
          have hrm := lists_after_remove h i hi hfree hlists c hc
          rw [freeClass_mask_eq h.blocks i hi c] at hrm
          show _ = (freeClass (replaceAt h.blocks i 1
            [{ size := asize, alloc := true,
               prevAlloc := (nth h.blocks i).prevAlloc, data := (nth h.blocks i).data },
             { size := (nth h.blocks i).size - asize, alloc := false,
               prevAlloc := true, data := zeroData }]) c : Multiset Nat)
          rw [freeClass_replace h.blocks i 1 _ c, freeClassAux_two]
          dsimp only
          rw [if_neg (show ¬ (true = false ∧ list_index asize = c) from by simp)]
          rw [List.nil_append]
          rw [(show offsetOf h.blocks i +
              sumSizes
                [({ size := asize, alloc := true,
                    prevAlloc := (nth h.blocks i).prevAlloc,
                    data := (nth h.blocks i).data } : Block),
                 { size := (nth h.blocks i).size - asize, alloc := false,
                   prevAlloc := true, data := zeroData }] =
              offsetOf h.blocks i + (nth h.blocks i).size from by
            rw [sumSizes_cons, sumSizes_cons, sumSizes_nil]
            dsimp only
            omega)]
          have hz : (([] : List Nat) : Multiset Nat) = 0 := rfl
          by_cases hcr : c = list_index ((nth h.blocks i).size - asize)
          · rw [if_pos hcr, if_pos ⟨rfl, hcr.symm⟩, ms_coe_cons, hrm]
            simp only [ms_coe_append, ms_coe_cons, hz]
            rw [ms_add_singleton]
          · rw [if_neg hcr, if_neg (fun he => hcr he.2.symm), hrm]
            simp only [ms_coe_append, hz]
            rw [add_zero]
        )
        (by rw [insert_free_epi])
        (by rw [insert_free_cap])
        (by show sizesPos h.blocks; exact hpos)
        (by show SmallHeap h; exact hsmall)
        (by
          intro x hx
          simp at hx
          rcases hx with hx | hx <;> rw [hx] <;> dsimp only <;> omega)
        (by
          rw [remove_free_blocks, slice_one h.blocks i hi]
          simp only [sumSizes_cons, sumSizes_nil]
          omega)
        (by
          intro k hk1 hd
          have hk1' : k + 1 < h.blocks.length := by
            rw [remove_free_blocks] at hk1
            exact hk1
          exact hadj k (by omega) hk1')
        (by
          intro k hk
          have hk0 : k = 0 := by simp at hk; omega
          subst hk0
          exact Or.inl rfl)
        (by intro hj; exact Or.inr rfl)
        (by intro h1i; exact Or.inr (hN2 h1i))
        (by intro k hk hd; exact hbits1 k hk)
        (by
          intro k hk
          have hk0 : k = 0 := by simp at hk; omega
          subst hk0
          rfl)
        (by
          show (nth h.blocks i).prevAlloc = _
          exact hpokI)
        (by intro hgt; exact hbits2)
        rfl
      exact hres.1
    · -- split, back allocation
      have hc : place h (offsetOf h.blocks i) asize =
          (setNextPrevAlloc
            (insert_free
              { remove_free h (offsetOf h.blocks i) (nth h.blocks i).size with
                blocks :=
                  replaceAt h.blocks i 1
                    [{ size := (nth h.blocks i).size - asize, alloc := false,
                       prevAlloc := (nth h.blocks i).prevAlloc, data := zeroData },
                     { size := asize, alloc := true, prevAlloc := false,
                       data := shiftData (nth h.blocks i).data
                         ((nth h.blocks i).size - asize) }],
                strategy := false }
              (offsetOf h.blocks i) ((nth h.blocks i).size - asize))
            (i + 1) true,
           offsetOf h.blocks i + ((nth h.blocks i).size - asize)) := by
        unfold place
        rw [hidx]
        dsimp only
        rw [hws, if_pos h16, remove_free_strategy, hstr,
          if_neg (show ¬ (true = false) from by simp)]
        rfl
      rw [hc]
      have hres := place_assemble
        (remove_free h (offsetOf h.blocks i) (nth h.blocks i).size) i 1
        [{ size := (nth h.blocks i).size - asize, alloc := false,
           prevAlloc := (nth h.blocks i).prevAlloc, data := zeroData },
         { size := asize, alloc := true, prevAlloc := false,
           data := shiftData (nth h.blocks i).data ((nth h.blocks i).size - asize) }] true
        (insert_free
          { remove_free h (offsetOf h.blocks i) (nth h.blocks i).size with
            blocks :=
              replaceAt h.blocks i 1
                [{ size := (nth h.blocks i).size - asize, alloc := false,
                   prevAlloc := (nth h.blocks i).prevAlloc, data := zeroData },
                 { size := asize, alloc := true, prevAlloc := false,
                   data := shiftData (nth h.blocks i).data
                     ((nth h.blocks i).size - asize) }],
            strategy := false }
          (offsetOf h.blocks i) ((nth h.blocks i).size - asize))
        (by show i + 1 ≤ h.blocks.length; omega) (by omega) (by simp)
        (by rw [insert_free_blocks, remove_free_blocks])
        (by rw [length_insert_free, length_remove_free]; exact hlists.1)
        (by
          intro c hc
          rw [getD_insert_free _ _ _ c (by rw [length_remove_free]; exact hlists.1)]
          have hrm := lists_after_remove h i hi hfree hlists c hc
          rw [freeClass_mask_eq h.blocks i hi c] at hrm
          show _ = (freeClass (replaceAt h.blocks i 1
            [{ size := (nth h.blocks i).size - asize, alloc := false,
               prevAlloc := (nth h.blocks i).prevAlloc, data := zeroData },
             { size := asize, alloc := true, prevAlloc := false,
               data := shiftData (nth h.blocks i).data
                 ((nth h.blocks i).size - asize) }]) c : Multiset Nat)
          rw [freeClass_replace h.blocks i 1 _ c, freeClassAux_two]
          dsimp only
          rw [if_neg (show ¬ (true = false ∧ list_index asize = c) from by simp)]
          rw [List.append_nil]
          rw [(show offsetOf h.blocks i +
              sumSizes
                [({ size := (nth h.blocks i).size - asize, alloc := false,
                    prevAlloc := (nth h.blocks i).prevAlloc, data := zeroData } : Block),
                 { size := asize, alloc := true, prevAlloc := false,
                   data := shiftData (nth h.blocks i).data
                     ((nth h.blocks i).size - asize) }] =
              offsetOf h.blocks i + (nth h.blocks i).size from by
            rw [sumSizes_cons, sumSizes_cons, sumSizes_nil]
            dsimp only
            omega)]
          have hz : (([] : List Nat) : Multiset Nat) = 0 := rfl
          by_cases hcr : c = list_index ((nth h.blocks i).size - asize)
          · rw [if_pos hcr, if_pos ⟨rfl, hcr.symm⟩, ms_coe_cons, hrm]
            simp only [ms_coe_append, ms_coe_cons, hz]
            rw [ms_add_singleton]
          · rw [if_neg hcr, if_neg (fun he => hcr he.2.symm), hrm]
            simp only [ms_coe_append, hz]
            rw [add_zero]
        )
        (by rw [insert_free_epi])
        (by rw [insert_free_cap])
        (by show sizesPos h.blocks; exact hpos)
        (by show SmallHeap h; exact hsmall)
        (by
          intro x hx
          simp at hx
          rcases hx with hx | hx <;> rw [hx] <;> dsimp only <;> omega)
        (by
          rw [remove_free_blocks, slice_one h.blocks i hi]
          simp only [sumSizes_cons, sumSizes_nil]
          omega)
        (by
          intro k hk1 hd
          have hk1' : k + 1 < h.blocks.length := by
            rw [remove_free_blocks] at hk1
            exact hk1
          exact hadj k (by omega) hk1')
        (by
          intro k hk
          have hk0 : k = 0 := by simp at hk; omega
          subst hk0
          exact Or.inr rfl)
        (by intro hj; exact Or.inl (hN1 hj))
        (by intro h1i; exact Or.inl rfl)
        (by intro k hk hd; exact hbits1 k hk)
        (by
          intro k hk
          have hk0 : k = 0 := by simp at hk; omega
          subst hk0
          rfl)
        (by
          show (nth h.blocks i).prevAlloc = _
          exact hpokI)
        (by intro hgt; exact hbits2)
        rfl
      exact hres.1
  · -- no split
    have hc : place h (offsetOf h.blocks i) asize =
        (setNextPrevAlloc
          { remove_free h (offsetOf h.blocks i) (nth h.blocks i).size with
            blocks :=
              replaceAt h.blocks i 1 [{ nth h.blocks i with alloc := true }] }
          i true,
         offsetOf h.blocks i) := by
      unfold place
      rw [hidx]
      dsimp only
      rw [hws, if_neg h16]
      rfl
    rw [hc]
    have hres := place_assemble
      (remove_free h (offsetOf h.blocks i) (nth h.blocks i).size) i 1
      [{ nth h.blocks i with alloc := true }] true
      { remove_free h (offsetOf h.blocks i) (nth h.blocks i).size with
        blocks := replaceAt h.blocks i 1 [{ nth h.blocks i with alloc := true }] }
      (by show i + 1 ≤ h.blocks.length; omega) (by omega) (by simp)
      (by rfl)
      (by show (remove_free h _ _).freeLists.length = 12
          rw [length_remove_free]; exact hlists.1)
      (by
        intro c hc
        show ((remove_free h (offsetOf h.blocks i)
            (nth h.blocks i).size).freeLists.getD c [] : Multiset Nat) =
          (freeClass (maskAlloc h.blocks i) c : Multiset Nat)
        exact lists_after_remove h i hi hfree hlists c hc)
      (by rfl)
      (by rfl)
      (by show sizesPos h.blocks; exact hpos)
      (by show SmallHeap h; exact hsmall)
      (by
        intro x hx
        simp at hx
        rw [hx]
        dsimp only
        exact hpos (nth h.blocks i) (nth_mem h.blocks i hi))
      (by
        rw [remove_free_blocks, slice_one h.blocks i hi]
        simp only [sumSizes_cons, sumSizes_nil])
      (by
        intro k hk1 hd
        have hk1' : k + 1 < h.blocks.length := by
          rw [remove_free_blocks] at hk1
          exact hk1
        exact hadj k (by omega) hk1')
      (by intro k hk; simp at hk)
      (by intro hj; exact Or.inr rfl)
      (by intro h1i; exact Or.inl rfl)
      (by intro k hk hd; exact hbits1 k hk)
      (by intro k hk; simp at hk)
      (by
        show (nth h.blocks i).prevAlloc = _
        exact hpokI)
      (by intro hgt; exact hbits2)
      rfl
    exact hres.1

/-- Appending a fresh free block carrying the old epilogue bit and
coalescing it preserves the invariant. -/
theorem coalesce_append_inv (h : Heap) (nb : Block) (cap2 : Nat) (gr2 : List Nat)
    (hInv : Inv h)
    (hnb_alloc : nb.alloc = false) (hnb_pos : 0 < nb.size)
    (hnb_pa : nb.prevAlloc = h.epiPrevAlloc)
    (hcap2 : sumSizes h.blocks + nb.size + cap2 ≤ 2 ^ 32) :
    CoalescePost
      { h with
        blocks := h.blocks ++ [nb], cap := cap2, grows := gr2,
        epiPrevAlloc := false } h.blocks.length ∧
    nth (h.blocks ++ [nb]) h.blocks.length = nb := by
  obtain ⟨hpos, hadj, ⟨hbits1, hbits2⟩, hlists, hsmall⟩ := hInv
  have hnthN : nth (h.blocks ++ [nb]) h.blocks.length = nb := by
    have h0 := nth_append_right h.blocks [nb] 0
    rw [Nat.add_zero] at h0
    exact h0
  have hLen1 : (h.blocks ++ [nb]).length = h.blocks.length + 1 := by
    rw [List.length_append, List.length_singleton]
  have hmask : maskAlloc (h.blocks ++ [nb]) h.blocks.length =
      h.blocks ++ [{ nb with alloc := true }] := by
    rw [maskAlloc, hnthN, replaceAt]
    rw [take_append_of_le _ _ _ (le_refl _), List.take_length]
    have hdrop : (h.blocks ++ [nb]).drop (h.blocks.length + 1) = [] := by
      rw [drop_append_len]
      rfl
    rw [hdrop, List.append_nil]
  have hnthM : nth (h.blocks ++ [{ nb with alloc := true }]) h.blocks.length =
      { nb with alloc := true } := by
    have h0 := nth_append_right h.blocks [{ nb with alloc := true }] 0
    rw [Nat.add_zero] at h0
    exact h0
  refine ⟨coalesce_inv _ h.blocks.length ?_ ?_ ?_ ?_ ?_ ?_ ?_ ?_ ?_, hnthN⟩
  · dsimp only
    rw [hLen1]
    omega
  · dsimp only
    rw [hnthN]
    exact hnb_alloc
  · dsimp only
    intro b hb
    rcases List.mem_append.mp hb with hb | hb
    · exact hpos b hb
    · simp at hb
      rw [hb]
      exact hnb_pos
  · show sumSizes _ + _ ≤ _
    dsimp only
    rw [sumSizes_append, sumSizes_cons, sumSizes_nil]
    omega
  · dsimp only
    rw [hmask]
    intro k hk hk1
    rw [List.length_append, List.length_singleton] at hk1
    by_cases hkN : k + 1 < h.blocks.length
    · rw [nth_append_left _ _ k (by omega), nth_append_left _ _ (k + 1) (by omega)]
      exact hadj k (by omega) hkN
    · have hke : k + 1 = h.blocks.length := by omega
      refine Or.inr ?_
      rw [hke, hnthM]
  · dsimp only
    intro k hk hne
    rw [hLen1] at hk
    unfold prevOkAt
    by_cases hkN : k < h.blocks.length
    · rw [nth_append_left _ _ k hkN]
      have hpok := hbits1 k hkN
      unfold prevOkAt at hpok
      by_cases hk0 : k = 0
      · rw [if_pos hk0] at hpok ⊢
        exact hpok
      · rw [if_neg hk0] at hpok ⊢
        rw [nth_append_left _ _ (k - 1) (by omega)]
        exact hpok
    · have hke : k = h.blocks.length := by omega
      rw [hke, hnthN, hnb_pa]
      by_cases hk0 : h.blocks.length = 0
      · rw [if_pos hk0]
        rw [if_pos hk0] at hbits2
        exact hbits2
      · rw [if_neg hk0]
        rw [if_neg hk0] at hbits2
        rw [nth_append_left _ _ (h.blocks.length - 1) (by omega)]
        exact hbits2
  · dsimp only
    intro hlt
    rw [hLen1] at hlt
    exact absurd hlt (by omega)
  · dsimp only
    exact hlists.1
  · dsimp only
    intro c hc
    rw [hmask]
    rw [freeClass, freeClassAux_append]
    have hone : freeClassAux c [{ nb with alloc := true }] (64 + sumSizes h.blocks) = [] := by
      rw [freeClassAux_one]
      dsimp only
      rw [if_neg (by simp)]
    rw [hone, List.append_nil]
    exact hlists.2 c hc

/-- extend_heap preserves the invariant; the returned offset names a free
block at least as large as the extension. -/
theorem extend_inv (h : Heap) (words : Nat) (hInv : Inv h) (hw : 0 < words)
    (p : Heap × Nat) (hr : extend_heap h words = some p) :
    Inv p.1 ∧
    ∃ idx, idx < p.1.blocks.length ∧ p.2 = offsetOf p.1.blocks idx ∧
      (nth p.1.blocks idx).alloc = false ∧
      (if words % 2 = 1 then words + 1 else words) * 4 ≤ (nth p.1.blocks idx).size := by
  by_cases hsz : (if words % 2 = 1 then words + 1 else words) * 4 ≤ h.cap
  swap
  · unfold extend_heap at hr
    rw [if_neg hsz] at hr
    simp at hr
  have hszpos : 0 < (if words % 2 = 1 then words + 1 else words) * 4 := by
    split_ifs <;> omega
  have hsmall := hInv.2.2.2.2
  unfold SmallHeap at hsmall
  have hpost := coalesce_append_inv h
    { size := (if words % 2 = 1 then words + 1 else words) * 4, alloc := false,
      prevAlloc := h.epiPrevAlloc, data := zeroData }
    (h.cap - (if words % 2 = 1 then words + 1 else words) * 4)
    ((if words % 2 = 1 then words + 1 else words) * 4 :: h.grows)
    hInv rfl hszpos rfl (by dsimp only; omega)
  obtain ⟨⟨hInvC, hlt, hallocC, hsizeC, -⟩, hnthN⟩ := hpost
  unfold extend_heap at hr
  rw [if_pos hsz] at hr
  dsimp only at hr
  obtain rfl := Option.some.inj hr
  dsimp only
  refine ⟨hInvC, _, hlt, rfl, hallocC, ?_⟩
  rw [hnthN] at hsizeC
  exact hsizeC

/-- The adjusted block size is at least the minimum block size. -/
theorem adjust_ge16 (n : Nat) : 16 ≤ adjust_block_size n := by
  unfold adjust_block_size
  dsimp only
  split_ifs <;> omega

/-- mm_malloc preserves the invariant. -/
theorem malloc_inv (h : Heap) (n : Nat) (hInv : Inv h) : Inv (mm_malloc h n).heap := by
  by_cases hn : n = 0
  · subst hn
    unfold mm_malloc
    rw [if_pos rfl]
    exact hInv
  · have ha16 := adjust_ge16 n
    unfold mm_malloc
    rw [if_neg hn]
    dsimp only
    cases hf : find_fit h (adjust_block_size n) with
    | some off =>
      dsimp only
      obtain ⟨c, hc1, hc2, hc3, hc4⟩ :=
        findLoop_some h.blocks h.freeLists (adjust_block_size n) 12 _ off hf
      obtain ⟨k, hk, hkfree, hkcl, hksz⟩ :=
        class_list_mem h hInv.1 hInv.2.2.2.1 c off hc2 hc3
      obtain ⟨hklen, hkoff⟩ := indexOfOffset_some h.blocks off k hk
      rw [hkoff]
      exact place_inv h k (adjust_block_size n) hInv hklen hkfree (by omega)
        (by rw [hksz] at hc4; exact hc4)
    | none =>
      dsimp only
      cases he : extend_heap h (max (adjust_block_size n) 8192 / 4) with
      | none =>
        exact hInv
      | some r =>
        dsimp only
        have hm8 := adjust_mod8 n
        have hwpos : 0 < max (adjust_block_size n) 8192 / 4 := by omega
        obtain ⟨hInvR, idx, hlt, hoff, hfree, hsz⟩ :=
          extend_inv h (max (adjust_block_size n) 8192 / 4) hInv hwpos r he
        rw [hoff]
        refine place_inv r.1 idx (adjust_block_size n) hInvR hlt hfree (by omega) ?_
        have hle2 : adjust_block_size n ≤
            (if max (adjust_block_size n) 8192 / 4 % 2 = 1
              then max (adjust_block_size n) 8192 / 4 + 1
              else max (adjust_block_size n) 8192 / 4) * 4 := by
          split_ifs <;> omega
        omega

/-- Replacing the second element of a freshly written pair in place. -/
theorem replaceAt_snd (bs : List Block) (i : Nat) (hi : i < bs.length) (a c x : Block) :
    replaceAt (replaceAt bs i 1 [a, c]) (i + 1) 1 [x] = replaceAt bs i 1 [a, x] := by
  have hT : (bs.take i).length = i := length_take_of_le bs i (by omega)
  have hL2 : (bs.take i ++ [a, c]).length = i + 2 := by
    rw [List.length_append, hT]
    rfl
  have htk : (replaceAt bs i 1 [a, c]).take (i + 1) = bs.take i ++ [a] := by
    rw [replaceAt, List.take_append_eq_append_take, List.take_append_eq_append_take]
    rw [hT, hL2]
    rw [List.take_of_length_le (by rw [hT]; omega)]
    rw [(by omega : i + 1 - i = 1), (by omega : i + 1 - (i + 2) = 0), List.take_zero,
      List.append_nil]
    rfl
  have hdp : (replaceAt bs i 1 [a, c]).drop (i + 1 + 1) = bs.drop (i + 1) := by
    rw [replaceAt, List.drop_append_eq_append_drop]
    rw [hL2]
    rw [List.drop_eq_nil_of_le (by rw [hL2])]
    simp
  conv_lhs => rw [replaceAt]
  rw [htk, hdp]
  conv_rhs => rw [replaceAt]
  simp [List.append_assoc]

/-- The class walk of an all-allocated run is empty. -/
theorem freeClassAux_allalloc (c : Nat) (l : List Block) :
    ∀ cur, (∀ x ∈ l, x.alloc = true) → freeClassAux c l cur = [] := by
  induction l with
  | nil => intro cur h; rfl
  | cons b t ih =>
    intro cur h
    rw [freeClassAux]
    rw [if_neg (by
      intro hc
      have hb := h b (by simp)
      rw [hb] at hc
      simp at hc)]
    rw [List.nil_append]
    exact ih _ (fun x hx => h x (List.mem_cons_of_mem _ hx))

/-- Replacing an allocated block by an all-allocated run of the same total
size leaves the class walk unchanged. -/
theorem freeClass_replace_allalloc (bs : List Block) (i : Nat) (news : List Block)
    (hi : i < bs.length) (halloc : (nth bs i).alloc = true)
    (hnews : ∀ x ∈ news, x.alloc = true)
    (hsum : sumSizes news = (nth bs i).size) (c : Nat) :
    freeClass (replaceAt bs i 1 news) c = freeClass bs c := by
  rw [freeClass_replace bs i 1 news c]
  rw [freeClassAux_allalloc c news _ hnews, List.append_nil, hsum]
  conv_rhs => rw [freeClass_decomp bs i 1 c]
  rw [slice_one bs i hi, freeClassAux_one]
  rw [if_neg (by
    intro hc
    rw [halloc] at hc
    simp at hc)]
  rw [List.append_nil]
  rw [(show sumSizes [nth bs i] = (nth bs i).size from by
    rw [sumSizes_cons, sumSizes_nil]; omega)]

/-- Offsets only depend on the size view. -/
theorem offsetOf_congr_sa (bs bs' : List Block) (h : bs.map sa = bs'.map sa) (k : Nat) :
    offsetOf bs k = offsetOf bs' k := by
  rw [offsetOf, offsetOf]
  have ht : (bs.take k).map sa = (bs'.take k).map sa := by
    rw [List.map_take, List.map_take, h]
  rw [sumSizes_congr _ _ ht]

/-- Masking commutes with the size/alloc view. -/
theorem maskAlloc_congr_sa (bs bs' : List Block) (e : Nat)
    (h : bs.map sa = bs'.map sa) (he : e < bs.length) :
    (maskAlloc bs e).map sa = (maskAlloc bs' e).map sa := by
  have he' : e < bs'.length := by
    rw [← length_congr_sa bs bs' h]
    exact he
  rw [maskAlloc_sa_set bs e he, maskAlloc_sa_set bs' e he', h,
    (nth_congr_sa bs bs' h e).1]

/-- Shrinking an allocated block in place: splitting it into an allocated
front part and a fresh free tail, fixing the following prev-alloc bit and
coalescing the tail restores the invariant. -/
theorem shrink_split_inv (h : Heap) (i asize : Nat) (hInv : Inv h)
    (hi : i < h.blocks.length)
    (halloc : (nth h.blocks i).alloc = true)
    (h16a : 0 < asize)
    (h16r : 16 ≤ (nth h.blocks i).size - asize) :
    CoalescePost
      (setNextPrevAlloc
        { h with
          blocks :=
            replaceAt h.blocks i 1
              [{ size := asize, alloc := true, prevAlloc := (nth h.blocks i).prevAlloc,
                 data := (nth h.blocks i).data },
               { size := (nth h.blocks i).size - asize, alloc := false, prevAlloc := true,
                 data := zeroData }] } (i + 1) false)
      (i + 1) := by
  obtain ⟨hpos, hadj, ⟨hbits1, hbits2⟩, hlists, hsmall⟩ := hInv
  have hLR2 : (replaceAt h.blocks i 1
      [{ size := asize, alloc := true, prevAlloc := (nth h.blocks i).prevAlloc,
         data := (nth h.blocks i).data },
       { size := (nth h.blocks i).size - asize, alloc := false, prevAlloc := true,
         data := zeroData }]).length = h.blocks.length + 1 := by
    rw [length_replaceAt h.blocks i 1 _ (by omega)]
    simp
    omega
  have hsumN : sumSizes
      [({ size := asize, alloc := true, prevAlloc := (nth h.blocks i).prevAlloc,
          data := (nth h.blocks i).data } : Block),
       { size := (nth h.blocks i).size - asize, alloc := false, prevAlloc := true,
         data := zeroData }] = sumSizes (slice h.blocks i 1) := by
    rw [slice_one h.blocks i hi]
    simp only [sumSizes_cons, sumSizes_nil]
    omega
  have hnAB : nth (replaceAt h.blocks i 1
      [{ size := asize, alloc := true, prevAlloc := (nth h.blocks i).prevAlloc,
         data := (nth h.blocks i).data },
       { size := (nth h.blocks i).size - asize, alloc := false, prevAlloc := true,
         data := zeroData }]) i =
      { size := asize, alloc := true, prevAlloc := (nth h.blocks i).prevAlloc,
        data := (nth h.blocks i).data } := by
    have hm := nth_replaceAt_mid h.blocks i 1
      [{ size := asize, alloc := true, prevAlloc := (nth h.blocks i).prevAlloc,
         data := (nth h.blocks i).data },
       { size := (nth h.blocks i).size - asize, alloc := false, prevAlloc := true,
         data := zeroData }] 0 (by simp) (by omega)
    simpa using hm
  have hnSP : nth (replaceAt h.blocks i 1
      [{ size := asize, alloc := true, prevAlloc := (nth h.blocks i).prevAlloc,
         data := (nth h.blocks i).data },
       { size := (nth h.blocks i).size - asize, alloc := false, prevAlloc := true,
         data := zeroData }]) (i + 1) =
      { size := (nth h.blocks i).size - asize, alloc := false, prevAlloc := true,
        data := zeroData } := by
    have hm := nth_replaceAt_mid h.blocks i 1
      [{ size := asize, alloc := true, prevAlloc := (nth h.blocks i).prevAlloc,
         data := (nth h.blocks i).data },
       { size := (nth h.blocks i).size - asize, alloc := false, prevAlloc := true,
         data := zeroData }] 1 (by simp) (by omega)
    simpa using hm
  have houtL : ∀ m, m < i → nth (replaceAt h.blocks i 1
      [{ size := asize, alloc := true, prevAlloc := (nth h.blocks i).prevAlloc,
         data := (nth h.blocks i).data },
       { size := (nth h.blocks i).size - asize, alloc := false, prevAlloc := true,
         data := zeroData }]) m = nth h.blocks m :=
    fun m hm => nth_replaceAt_left h.blocks i 1 _ m hm (by omega)
  have houtG : ∀ m, i + 2 ≤ m → nth (replaceAt h.blocks i 1
      [{ size := asize, alloc := true, prevAlloc := (nth h.blocks i).prevAlloc,
         data := (nth h.blocks i).data },
       { size := (nth h.blocks i).size - asize, alloc := false, prevAlloc := true,
         data := zeroData }]) m = nth h.blocks (m - 1) := by
    intro m hm
    have hr := nth_replaceAt_right h.blocks i 1
      [{ size := asize, alloc := true, prevAlloc := (nth h.blocks i).prevAlloc,
         data := (nth h.blocks i).data },
       { size := (nth h.blocks i).size - asize, alloc := false, prevAlloc := true,
         data := zeroData }] (m - i - 2) (by omega)
    simp only [List.length_cons, List.length_nil] at hr
    rw [(by omega : i + (0 + 1 + 1) + (m - i - 2) = m),
      (by omega : i + 1 + (m - i - 2) = m - 1)] at hr
    exact hr
  have hsa2 := setNextPrevAlloc_sa
    { h with
      blocks :=
        replaceAt h.blocks i 1
          [{ size := asize, alloc := true, prevAlloc := (nth h.blocks i).prevAlloc,
             data := (nth h.blocks i).data },
           { size := (nth h.blocks i).size - asize, alloc := false, prevAlloc := true,
             data := zeroData }] } (i + 1) false
  have hL2 : (setNextPrevAlloc
      { h with
        blocks :=
          replaceAt h.blocks i 1
            [{ size := asize, alloc := true, prevAlloc := (nth h.blocks i).prevAlloc,
               data := (nth h.blocks i).data },
             { size := (nth h.blocks i).size - asize, alloc := false, prevAlloc := true,
               data := zeroData }] } (i + 1) false).blocks.length =
      h.blocks.length + 1 := by
    rw [length_setNextPrevAlloc]
    exact hLR2
  have hmaskR : maskAlloc (replaceAt h.blocks i 1
      [{ size := asize, alloc := true, prevAlloc := (nth h.blocks i).prevAlloc,
         data := (nth h.blocks i).data },
       { size := (nth h.blocks i).size - asize, alloc := false, prevAlloc := true,
         data := zeroData }]) (i + 1) =
      replaceAt h.blocks i 1
        [{ size := asize, alloc := true, prevAlloc := (nth h.blocks i).prevAlloc,
           data := (nth h.blocks i).data },
         { size := (nth h.blocks i).size - asize, alloc := true, prevAlloc := true,
           data := zeroData }] := by
    rw [maskAlloc, hnSP]
    exact replaceAt_snd h.blocks i hi _ _ _
  apply coalesce_inv
  · rw [hL2]
    omega
  · rw [nth_setNextPrevAlloc_of_ne _ _ _ (i + 1) (by omega)]
    rw [hnSP]
  · apply sizesPos_congr _ _ hsa2.symm
    apply sizesPos_replaceAt h.blocks i 1 _ hpos
    intro x hx
    simp at hx
    rcases hx with hx | hx <;> rw [hx] <;> dsimp only <;> omega
  · show sumSizes _ + _ ≤ _
    rw [sumSizes_congr _ _ hsa2, sumSizes_replaceAt h.blocks i 1 _ hsumN,
      setNextPrevAlloc_cap]
    exact hsmall
  · have hms := maskAlloc_congr_sa _ _ (i + 1) hsa2 (by rw [hL2]; omega)
    rw [hmaskR] at hms
    apply NoAdj_congr _ _ hms.symm
    apply NoAdj_replace h.blocks i 1 _ (by omega) (by simp)
    · intro k hk1 hd
      exact hadj k (by omega) hk1
    · intro k hk
      have hk0 : k = 0 := by simp at hk; omega
      subst hk0
      exact Or.inl rfl
    · intro hj
      exact Or.inr rfl
    · intro h1i
      exact Or.inl rfl
  · intro k hk hne
    rw [hL2] at hk
    unfold prevOkAt
    by_cases hki : k = i
    · subst hki
      rw [nth_setNextPrevAlloc_of_ne _ _ _ k (by omega)]
      rw [hnAB]
      have hpok := hbits1 k (by omega)
      unfold prevOkAt at hpok
      by_cases hk0 : k = 0
      · rw [if_pos hk0] at hpok ⊢
        exact hpok
      · rw [if_neg hk0] at hpok ⊢
        rw [nth_setNextPrevAlloc_of_ne _ _ _ (k - 1) (by omega)]
        rw [houtL (k - 1) (by omega)]
        exact hpok
    · by_cases hki1 : k = i + 1
      · subst hki1
        rw [nth_setNextPrevAlloc_of_ne _ _ _ (i + 1) (by omega)]
        rw [hnSP, if_neg (by omega : ¬ i + 1 = 0)]
        rw [(by omega : i + 1 - 1 = i)]
        rw [nth_setNextPrevAlloc_of_ne _ _ _ i (by omega)]
        rw [hnAB]
      · by_cases hklt : k < i
        · rw [nth_setNextPrevAlloc_of_ne _ _ _ k (by omega)]
          rw [houtL k hklt]
          have hpok := hbits1 k (by omega)
          unfold prevOkAt at hpok
          by_cases hk0 : k = 0
          · rw [if_pos hk0] at hpok ⊢
            exact hpok
          · rw [if_neg hk0] at hpok ⊢
            rw [nth_setNextPrevAlloc_of_ne _ _ _ (k - 1) (by omega)]
            rw [houtL (k - 1) (by omega)]
            exact hpok
        · have hkgt : i + 2 < k := by omega
          rw [nth_setNextPrevAlloc_of_ne _ _ _ k (by omega)]
          rw [houtG k (by omega)]
          have hpok := hbits1 (k - 1) (by omega)
          unfold prevOkAt at hpok
          rw [if_neg (by omega : ¬ k - 1 = 0)] at hpok
          rw [if_neg (by omega : ¬ k = 0)]
          rw [(nth_congr_sa _ _ hsa2 (k - 1)).2]
          rw [houtG (k - 1) (by omega)]
          rw [(by omega : k - 1 - 1 = k - 2)] at hpok
          rw [(by omega : k - 1 - 1 = k - 2)]
          exact hpok
  · intro hlt
    rw [hL2] at hlt
    unfold epiOk
    have hepi2 : (setNextPrevAlloc
        { h with
          blocks :=
            replaceAt h.blocks i 1
              [{ size := asize, alloc := true, prevAlloc := (nth h.blocks i).prevAlloc,
                 data := (nth h.blocks i).data },
               { size := (nth h.blocks i).size - asize, alloc := false, prevAlloc := true,
                 data := zeroData }] } (i + 1) false).epiPrevAlloc = h.epiPrevAlloc := by
      unfold setNextPrevAlloc
      rw [if_pos (by dsimp only; rw [hLR2]; omega)]
    rw [hepi2, hL2]
    rw [if_neg (by omega : ¬ h.blocks.length + 1 = 0)]
    have hlast := (nth_congr_sa _ _ hsa2 (h.blocks.length + 1 - 1)).2
    rw [hlast]
    rw [(by omega : h.blocks.length + 1 - 1 = h.blocks.length)]
    rw [houtG h.blocks.length (by omega)]
    rw [if_neg (by omega : ¬ h.blocks.length = 0)] at hbits2
    exact hbits2
  · rw [setNextPrevAlloc_freeLists]
    exact hlists.1
  · intro c hc
    rw [setNextPrevAlloc_freeLists]
    show (h.freeLists.getD c [] : Multiset Nat) = _
    have hms := maskAlloc_congr_sa _ _ (i + 1) hsa2 (by rw [hL2]; omega)
    rw [hmaskR] at hms
    have hfc : freeClass (maskAlloc (setNextPrevAlloc
        { h with
          blocks :=
            replaceAt h.blocks i 1
              [{ size := asize, alloc := true, prevAlloc := (nth h.blocks i).prevAlloc,
                 data := (nth h.blocks i).data },
               { size := (nth h.blocks i).size - asize, alloc := false, prevAlloc := true,
                 data := zeroData }] } (i + 1) false).blocks (i + 1)) c =
        freeClass h.blocks c := by
      rw [freeClass, freeClassAux_congr c _ _ 64 hms, ← freeClass]
      apply freeClass_replace_allalloc h.blocks i _ hi halloc
      · intro x hx
        simp at hx
        rcases hx with hx | hx <;> rw [hx]
      · simp only [sumSizes_cons, sumSizes_nil]
        omega
    rw [hfc]
    exact hlists.2 c hc

/-- Absorbing the free successor with a split: the block grows to asize,
the rest becomes a fresh free block reinserted into the lists. -/
theorem absorb_split_inv (h : Heap) (i asize : Nat) (hInv : Inv h)
    (hi1 : i + 1 < h.blocks.length)
    (halloc : (nth h.blocks i).alloc = true)
    (hnb : (nth h.blocks (i + 1)).alloc = false)
    (hasize : 0 < asize)
    (hale : asize ≤ (nth h.blocks i).size + (nth h.blocks (i + 1)).size)
    (h16r : 16 ≤ (nth h.blocks i).size + (nth h.blocks (i + 1)).size - asize) :
    Inv (setNextPrevAlloc
      (insert_free
        { remove_free h (offsetOf h.blocks (i + 1)) (nth h.blocks (i + 1)).size with
          blocks :=
            replaceAt h.blocks i 2
              [{ size := asize, alloc := true, prevAlloc := (nth h.blocks i).prevAlloc,
                 data := (nth h.blocks i).data },
               { size := (nth h.blocks i).size + (nth h.blocks (i + 1)).size - asize,
                 alloc := false, prevAlloc := true, data := zeroData }] }
        (offsetOf h.blocks i + asize)
        ((nth h.blocks i).size + (nth h.blocks (i + 1)).size - asize))
      (i + 1) false) := by
  obtain ⟨hpos, hadj, ⟨hbits1, hbits2⟩, hlists, hsmall⟩ := hInv
  have hN2 : i + 2 < h.blocks.length → (nth h.blocks (i + 2)).alloc = true := by
    intro hlt
    have ha := hadj (i + 1) (by omega) (by omega)
    rcases ha with ha | ha
    · rw [hnb] at ha
      simp at ha
    · exact ha
  have hres := place_assemble
    (remove_free h (offsetOf h.blocks (i + 1)) (nth h.blocks (i + 1)).size) i 2
    [{ size := asize, alloc := true, prevAlloc := (nth h.blocks i).prevAlloc,
       data := (nth h.blocks i).data },
     { size := (nth h.blocks i).size + (nth h.blocks (i + 1)).size - asize,
       alloc := false, prevAlloc := true, data := zeroData }] false
    (insert_free
      { remove_free h (offsetOf h.blocks (i + 1)) (nth h.blocks (i + 1)).size with
        blocks :=
          replaceAt h.blocks i 2
            [{ size := asize, alloc := true, prevAlloc := (nth h.blocks i).prevAlloc,
               data := (nth h.blocks i).data },
             { size := (nth h.blocks i).size + (nth h.blocks (i + 1)).size - asize,
               alloc := false, prevAlloc := true, data := zeroData }] }
      (offsetOf h.blocks i + asize)
      ((nth h.blocks i).size + (nth h.blocks (i + 1)).size - asize))
    (by show i + 2 ≤ h.blocks.length; omega) (by omega) (by simp)
    (by rw [insert_free_blocks, remove_free_blocks])
    (by rw [length_insert_free, length_remove_free]; exact hlists.1)
    (by
      intro c hc
      rw [getD_insert_free _ _ _ c (by rw [length_remove_free]; exact hlists.1)]
      have hrm := lists_after_remove h (i + 1) (by omega) hnb hlists c hc
      rw [freeClass_mask_eq h.blocks (i + 1) (by omega) c] at hrm
      rw [take_succ_nth h.blocks i (by omega), freeClassAux_append, freeClassAux_one] at hrm
      rw [if_neg (by
        intro hcc
        rw [halloc] at hcc
        simp at hcc)] at hrm
      rw [List.append_nil] at hrm
      rw [(show offsetOf h.blocks (i + 1) + (nth h.blocks (i + 1)).size =
          offsetOf h.blocks i + ((nth h.blocks i).size + (nth h.blocks (i + 1)).size) from by
        rw [offsetOf_succ h.blocks i (by omega)]
        omega)] at hrm
      show _ = (freeClass (replaceAt h.blocks i 2
        [{ size := asize, alloc := true, prevAlloc := (nth h.blocks i).prevAlloc,
           data := (nth h.blocks i).data },
         { size := (nth h.blocks i).size + (nth h.blocks (i + 1)).size - asize,
           alloc := false, prevAlloc := true, data := zeroData }]) c : Multiset Nat)
      rw [freeClass_replace h.blocks i 2 _ c, freeClassAux_two]
      dsimp only
      rw [if_neg (show ¬ (true = false ∧ list_index asize = c) from by simp)]
      rw [List.nil_append]
      rw [(show offsetOf h.blocks i +
          sumSizes
            [({ size := asize, alloc := true,
                prevAlloc := (nth h.blocks i).prevAlloc,
                data := (nth h.blocks i).data } : Block),
             { size := (nth h.blocks i).size + (nth h.blocks (i + 1)).size - asize,
               alloc := false, prevAlloc := true, data := zeroData }] =
          offsetOf h.blocks i + ((nth h.blocks i).size + (nth h.blocks (i + 1)).size) from by
        simp only [sumSizes_cons, sumSizes_nil]
        omega)]
      rw [(show i + 1 + 1 = i + 2 from by omega)] at hrm
      have hz : (([] : List Nat) : Multiset Nat) = 0 := rfl
      by_cases hcr : c = list_index ((nth h.blocks i).size + (nth h.blocks (i + 1)).size - asize)
      · rw [if_pos hcr, if_pos ⟨rfl, hcr.symm⟩, ms_coe_cons, hrm]
        simp only [ms_coe_append, ms_coe_cons, hz]
        rw [ms_add_singleton]
      · rw [if_neg hcr, if_neg (fun he => hcr he.2.symm), hrm]
        simp only [ms_coe_append, hz]
        rw [add_zero])
    (by rw [insert_free_epi])
    (by rw [insert_free_cap])
    (by show sizesPos h.blocks; exact hpos)
    (by show SmallHeap h; exact hsmall)
    (by
      intro x hx
      simp at hx
      rcases hx with hx | hx <;> rw [hx] <;> dsimp only <;> omega)
    (by
      rw [remove_free_blocks, slice_two h.blocks i hi1]
      simp only [sumSizes_cons, sumSizes_nil]
      omega)
    (by
      intro k hk1 hd
      have hk1' : k + 1 < h.blocks.length := by
        rw [remove_free_blocks] at hk1
        exact hk1
      exact hadj k (by omega) hk1')
    (by
      intro k hk
      have hk0 : k = 0 := by simp at hk; omega
      subst hk0
      exact Or.inl rfl)
    (by intro hj; exact Or.inr rfl)
    (by
      intro h2i
      have h2i' : i + 2 < h.blocks.length := by
        rw [remove_free_blocks] at h2i
        exact h2i
      exact Or.inr (hN2 h2i'))
    (by intro k hk hd; exact hbits1 k hk)
    (by
      intro k hk
      have hk0 : k = 0 := by simp at hk; omega
      subst hk0
      rfl)
    (by
      show (nth h.blocks i).prevAlloc = _
      have hok := hbits1 i (by omega)
      unfold prevOkAt at hok
      exact hok)
    (by intro hgt; exact hbits2)
    rfl
  exact hres.1

/-- Absorbing the free successor without a split: the two blocks become
one allocated block. -/
theorem absorb_whole_inv (h : Heap) (i asize : Nat) (hInv : Inv h)
    (hi1 : i + 1 < h.blocks.length)
    (halloc : (nth h.blocks i).alloc = true)
    (hnb : (nth h.blocks (i + 1)).alloc = false) :
    Inv (setNextPrevAlloc
      { remove_free h (offsetOf h.blocks (i + 1)) (nth h.blocks (i + 1)).size with
        blocks :=
          replaceAt h.blocks i 2
            [{ size := (nth h.blocks i).size + (nth h.blocks (i + 1)).size, alloc := true,
               prevAlloc := (nth h.blocks i).prevAlloc, data := (nth h.blocks i).data }] }
      i true) := by
  obtain ⟨hpos, hadj, ⟨hbits1, hbits2⟩, hlists, hsmall⟩ := hInv
  have hres := place_assemble
    (remove_free h (offsetOf h.blocks (i + 1)) (nth h.blocks (i + 1)).size) i 2
    [{ size := (nth h.blocks i).size + (nth h.blocks (i + 1)).size, alloc := true,
       prevAlloc := (nth h.blocks i).prevAlloc, data := (nth h.blocks i).data }] true
    { remove_free h (offsetOf h.blocks (i + 1)) (nth h.blocks (i + 1)).size with
      blocks :=
        replaceAt h.blocks i 2
          [{ size := (nth h.blocks i).size + (nth h.blocks (i + 1)).size, alloc := true,
             prevAlloc := (nth h.blocks i).prevAlloc, data := (nth h.blocks i).data }] }
    (by show i + 2 ≤ h.blocks.length; omega) (by omega) (by simp)
    (by rw [remove_free_blocks])
    (by
      show (remove_free h _ _).freeLists.length = 12
      rw [length_remove_free]
      exact hlists.1)
    (by
      intro c hc
      have hrm := lists_after_remove h (i + 1) (by omega) hnb hlists c hc
      rw [freeClass_mask_eq h.blocks (i + 1) (by omega) c] at hrm
      rw [take_succ_nth h.blocks i (by omega), freeClassAux_append, freeClassAux_one] at hrm
      rw [if_neg (by
        intro hcc
        rw [halloc] at hcc
        simp at hcc)] at hrm
      rw [List.append_nil] at hrm
      rw [(show offsetOf h.blocks (i + 1) + (nth h.blocks (i + 1)).size =
          offsetOf h.blocks i + ((nth h.blocks i).size + (nth h.blocks (i + 1)).size) from by
        rw [offsetOf_succ h.blocks i (by omega)]
        omega)] at hrm
      show _ = (freeClass (replaceAt h.blocks i 2
        [{ size := (nth h.blocks i).size + (nth h.blocks (i + 1)).size, alloc := true,
           prevAlloc := (nth h.blocks i).prevAlloc, data := (nth h.blocks i).data }]) c
          : Multiset Nat)
      rw [freeClass_replace h.blocks i 2 _ c, freeClassAux_one]
      dsimp only
      rw [if_neg (show ¬ (true = false ∧
        list_index ((nth h.blocks i).size + (nth h.blocks (i + 1)).size) = c) from by simp)]
      rw [List.append_nil]
      rw [(show offsetOf h.blocks i +
          sumSizes
            [({ size := (nth h.blocks i).size + (nth h.blocks (i + 1)).size, alloc := true,
                prevAlloc := (nth h.blocks i).prevAlloc,
                data := (nth h.blocks i).data } : Block)] =
          offsetOf h.blocks i + ((nth h.blocks i).size + (nth h.blocks (i + 1)).size) from by
        simp only [sumSizes_cons, sumSizes_nil]
        omega)]
      rw [(show i + 1 + 1 = i + 2 from by omega)] at hrm
      rw [hrm])
    (by rfl)
    (by rfl)
    (by show sizesPos h.blocks; exact hpos)
    (by show SmallHeap h; exact hsmall)
    (by
      intro x hx
      simp at hx
      rw [hx]
      dsimp only
      have hp := hpos _ (nth_mem h.blocks i (by omega))
      omega)
    (by
      rw [remove_free_blocks, slice_two h.blocks i hi1]
      simp only [sumSizes_cons, sumSizes_nil]
      omega)
    (by
      intro k hk1 hd
      have hk1' : k + 1 < h.blocks.length := by
        rw [remove_free_blocks] at hk1
        exact hk1
      exact hadj k (by omega) hk1')
    (by intro k hk; simp at hk)
    (by intro hj; exact Or.inr rfl)
    (by intro h2i; exact Or.inl rfl)
    (by intro k hk hd; exact hbits1 k hk)
    (by intro k hk; simp at hk)
    (by
      show (nth h.blocks i).prevAlloc = _
      have hok := hbits1 i (by omega)
      unfold prevOkAt at hok
      exact hok)
    (by intro hgt; exact hbits2)
    rfl
  exact hres.1

/-- Replacing a block by one with the same size and alloc bit is invisible
to the size/alloc view. -/
theorem replace_same_sa (bs : List Block) (i : Nat) (hi : i < bs.length) (nb : Block)
    (hsz : nb.size = (nth bs i).size) (hal : nb.alloc = (nth bs i).alloc) :
    (replaceAt bs i 1 [nb]).map sa = bs.map sa := by
  conv_rhs => rw [decomp bs i 1, slice_one bs i hi]
  rw [replaceAt, List.map_append, List.map_append, List.map_append, List.map_append]
  rw [List.map_cons, List.map_nil, List.map_cons, List.map_nil]
  rw [(show sa nb = sa (nth bs i) from by rw [sa, sa, hsz, hal])]

/-- Replacing a block by one of the same size, alloc bit and prev-alloc
bit preserves the invariant. -/
theorem replace_same_inv (h : Heap) (i : Nat) (hi : i < h.blocks.length) (nb : Block)
    (hsz : nb.size = (nth h.blocks i).size) (hal : nb.alloc = (nth h.blocks i).alloc)
    (hpa : nb.prevAlloc = (nth h.blocks i).prevAlloc)
    (hInv : Inv h) : Inv { h with blocks := replaceAt h.blocks i 1 [nb] } := by
  obtain ⟨hpos, hadj, ⟨hbits1, hbits2⟩, hlists, hsmall⟩ := hInv
  have hsa := replace_same_sa h.blocks i hi nb hsz hal
  have hL : (replaceAt h.blocks i 1 [nb]).length = h.blocks.length := by
    rw [length_replaceAt h.blocks i 1 _ (by omega)]
    simp
    omega
  have hmid : nth (replaceAt h.blocks i 1 [nb]) i = nb := by
    have hm := nth_replaceAt_mid h.blocks i 1 [nb] 0 (by simp) (by omega)
    simpa using hm
  have hOut : ∀ m, m ≠ i → nth (replaceAt h.blocks i 1 [nb]) m = nth h.blocks m :=
    fun m hm => nth_replaceAt_out h.blocks i 1 [nb] m rfl (by omega) (by omega)
  refine ⟨?_, ?_, ⟨?_, ?_⟩, ⟨?_, ?_⟩, ?_⟩
  · exact sizesPos_congr _ _ hsa.symm hpos
  · exact NoAdj_congr _ _ hsa.symm hadj
  · intro k hk
    rw [hL] at hk
    unfold prevOkAt
    have hpok := hbits1 k hk
    unfold prevOkAt at hpok
    by_cases hki : k = i
    · subst hki
      rw [hmid, hpa]
      by_cases hk0 : k = 0
      · rw [if_pos hk0] at hpok ⊢
        exact hpok
      · rw [if_neg hk0] at hpok ⊢
        rw [hOut (k - 1) (by omega)]
        exact hpok
    · rw [hOut k hki]
      by_cases hk0 : k = 0
      · rw [if_pos hk0] at hpok ⊢
        exact hpok
      · rw [if_neg hk0] at hpok ⊢
        by_cases hki1 : k - 1 = i
        · rw [hki1, hmid, hal, ← hki1]
          exact hpok
        · rw [hOut (k - 1) hki1]
          exact hpok
  · show h.epiPrevAlloc = _
    rw [hL]
    by_cases hk0 : h.blocks.length = 0
    · omega
    · rw [if_neg hk0]
      rw [if_neg hk0] at hbits2
      by_cases hli : h.blocks.length - 1 = i
      · rw [hli, hmid, hal, ← hli]
        exact hbits2
      · rw [hOut (h.blocks.length - 1) hli]
        exact hbits2
  · exact hlists.1
  · intro c hc
    show (h.freeLists.getD c [] : Multiset Nat) = _
    have hfc : freeClass (replaceAt h.blocks i 1 [nb]) c = freeClass h.blocks c := by
      rw [freeClass, freeClass]
      exact freeClassAux_congr c _ _ 64 hsa
    rw [hfc]
    exact hlists.2 c hc
  · show sumSizes _ + _ ≤ _
    rw [sumSizes_congr _ _ hsa]
    exact hsmall

/-- updateDataAt preserves the invariant. -/
theorem updateDataAt_inv (h : Heap) (off : Nat) (g : (Nat → Nat) → (Nat → Nat))
    (hInv : Inv h) : Inv (updateDataAt h off g) := by
  unfold updateDataAt
  cases hidx : indexOfOffset h.blocks off with
  | none => exact hInv
  | some i =>
    dsimp only
    have hi : i < h.blocks.length := (indexOfOffset_some h.blocks off i hidx).1
    exact replace_same_inv h i hi _ rfl rfl rfl hInv

/-- The size/alloc/data view of a block: everything except the prev-alloc
bit, which neighbours may rewrite. -/
def sad (b : Block) : Nat × Bool × (Nat → Nat) := (b.size, b.alloc, b.data)

/-- Every allocated block of g survives in g' at the same offset with the
same size, allocation bit and payload. -/
def AllocFrame (g g' : Heap) : Prop :=
  ∀ m, m < g.blocks.length → (nth g.blocks m).alloc = true →
    ∃ m', m' < g'.blocks.length ∧ offsetOf g'.blocks m' = offsetOf g.blocks m ∧
      sad (nth g'.blocks m') = sad (nth g.blocks m)

theorem sad_alloc (b b' : Block) (h : sad b = sad b') : b.alloc = b'.alloc := by
  have := congrArg (fun p => p.2.1) h
  simpa [sad] using this

theorem sad_data (b b' : Block) (h : sad b = sad b') : b.data = b'.data := by
  have := congrArg (fun p => p.2.2) h
  simpa [sad] using this

theorem sad_size (b b' : Block) (h : sad b = sad b') : b.size = b'.size := by
  have := congrArg (fun p => p.1) h
  simpa [sad] using this

theorem AllocFrame_refl (g : Heap) : AllocFrame g g :=
  fun m hm _ => ⟨m, hm, rfl, rfl⟩

theorem AllocFrame_trans (g g' g'' : Heap) (h1 : AllocFrame g g') (h2 : AllocFrame g' g'') :
    AllocFrame g g'' := by
  intro m hm ha
  obtain ⟨m', hm', hoff', hsad'⟩ := h1 m hm ha
  obtain ⟨m'', hm'', hoff'', hsad''⟩ := h2 m' hm'
    (by rw [sad_alloc _ _ hsad']; exact ha)
  exact ⟨m'', hm'', by rw [hoff'', hoff'], by rw [hsad'', hsad']⟩

/-- setNextPrevAlloc only rewrites a prev-alloc bit. -/
theorem sad_setNext (h : Heap) (e : Nat) (v : Bool) (m : Nat) :
    sad (nth (setNextPrevAlloc h e v).blocks m) = sad (nth h.blocks m) := by
  unfold setNextPrevAlloc
  by_cases hlt : e + 1 < h.blocks.length
  · rw [if_pos hlt]
    dsimp only
    by_cases hme : m = e + 1
    · subst hme
      have hm := nth_replaceAt_mid h.blocks (e + 1) 1
        [{ nth h.blocks (e + 1) with prevAlloc := v }] 0 (by simp) (by omega)
      rw [Nat.add_zero] at hm
      rw [hm]
      rfl
    · rw [nth_replaceAt_out h.blocks (e + 1) 1
        [{ nth h.blocks (e + 1) with prevAlloc := v }] m rfl (by omega) (by omega)]
  · rw [if_neg hlt]

theorem AllocFrame_setNext (h : Heap) (e : Nat) (v : Bool) :
    AllocFrame h (setNextPrevAlloc h e v) := by
  intro m hm ha
  refine ⟨m, by rw [length_setNextPrevAlloc]; exact hm, ?_, sad_setNext h e v m⟩
  exact offsetOf_congr_sa _ _ (setNextPrevAlloc_sa h e v) m

/-- Offsets grow strictly along the heap when all sizes are positive. -/
theorem offsetOf_mono (bs : List Block) (hpos : sizesPos bs) (a b : Nat)
    (hab : a < b) (hb : b ≤ bs.length) : offsetOf bs a < offsetOf bs b := by
  have h1 : offsetOf bs (a + 1) = offsetOf bs a + (nth bs a).size :=
    offsetOf_succ bs a (by omega)
  have h2 : 0 < (nth bs a).size := hpos _ (nth_mem bs a (by omega))
  have h3 : offsetOf bs (a + 1) ≤ offsetOf bs b := by
    rw [offsetOf, offsetOf]
    have hsub : sumSizes (bs.take (a + 1)) ≤ sumSizes (bs.take b) := by
      conv_rhs => rw [← List.take_append_drop (a + 1) (bs.take b)]
      rw [sumSizes_append, List.take_take, min_eq_left (by omega : a + 1 ≤ b)]
      omega
    omega
  omega

/-- Frame through the coalesce assembly shape: blocks outside the merged
window survive with offset and contents intact. -/
theorem frame_assembled (g : Heap) (j cnt : Nat) (merged : Block) (off sz e : Nat) (v : Bool)
    (hlen : j + cnt ≤ g.blocks.length)
    (hsum : sumSizes [merged] = sumSizes (slice g.blocks j cnt))
    (m : Nat) (hm : m < g.blocks.length) (hout : m < j ∨ j + cnt ≤ m) :
    ∃ m', m' < (setNextPrevAlloc
        (insert_free { g with blocks := replaceAt g.blocks j cnt [merged] } off sz)
        e v).blocks.length ∧
      offsetOf (setNextPrevAlloc
        (insert_free { g with blocks := replaceAt g.blocks j cnt [merged] } off sz)
        e v).blocks m' = offsetOf g.blocks m ∧
      sad (nth (setNextPrevAlloc
        (insert_free { g with blocks := replaceAt g.blocks j cnt [merged] } off sz)
        e v).blocks m') = sad (nth g.blocks m) := by
  obtain ⟨m', hm', hnth', hoff'⟩ :=
    frame_replaceAt g.blocks j cnt [merged] m hlen hsum hm hout
  have hbX : (insert_free { g with blocks := replaceAt g.blocks j cnt [merged] } off sz).blocks =
      replaceAt g.blocks j cnt [merged] := by
    rw [insert_free_blocks]
  refine ⟨m', ?_, ?_, ?_⟩
  · rw [length_setNextPrevAlloc, hbX]
    exact hm'
  · rw [offsetOf_congr_sa _ _ (setNextPrevAlloc_sa _ e v) m', hbX]
    exact hoff'
  · rw [sad_setNext _ e v m', hbX, hnth']

/-- Allocated blocks survive a coalesce of a free block, keeping their
offset, size, allocation bit and payload. -/
theorem coalesce_frame (h : Heap) (i : Nat) (hi : i < h.blocks.length)
    (hfree : (nth h.blocks i).alloc = false)
    (hpok : prevOkAt h.blocks i) :
    AllocFrame h (coalesce h i).1 := by
  intro m hm ha
  have hmi : m ≠ i := by
    intro he
    rw [he, hfree] at ha
    simp at ha
  cases hP : (!(nth h.blocks i).prevAlloc && decide (0 < i)) <;>
    cases hN : nextAllocB h.blocks i
  · -- merge with next only
    have hi1 : i + 1 < h.blocks.length := by
      by_contra hcon
      rw [nextAllocB_of_ge h.blocks i hcon] at hN
      simp at hN
    have hnb : (nth h.blocks (i + 1)).alloc = false := by
      have hna := nextAllocB_of_lt h.blocks i hi1
      rw [hna] at hN
      exact hN
    have hmi1 : m ≠ i + 1 := by
      intro he
      rw [he, hnb] at ha
      simp at ha
    have hc : coalesce h i =
        (setNextPrevAlloc
          (insert_free
            { remove_free h (offsetOf h.blocks (i + 1)) (nth h.blocks (i + 1)).size with
              blocks :=
                replaceAt h.blocks i 2
                  [{ size := (nth h.blocks i).size + (nth h.blocks (i + 1)).size, alloc := false,
                     prevAlloc := (nth h.blocks i).prevAlloc, data := zeroData }] }
            (offsetOf h.blocks i)
            ((nth h.blocks i).size + (nth h.blocks (i + 1)).size))
          i false, i) := by
      unfold coalesce
      dsimp only
      rw [hP, hN]
      simp only [Bool.false_eq_true, if_false]
      rfl
    rw [hc]
    exact frame_assembled
      (remove_free h (offsetOf h.blocks (i + 1)) (nth h.blocks (i + 1)).size) i 2
      _ _ _ i false
      (by show i + 2 ≤ h.blocks.length; omega)
      (by
        show _ = sumSizes (slice h.blocks i 2)
        rw [slice_two h.blocks i hi1]
        simp only [sumSizes_cons, sumSizes_nil]
        omega)
      m hm (by omega)
  · -- no merge
    have hc : coalesce h i =
        (setNextPrevAlloc
          (insert_free
            { h with
              blocks :=
                replaceAt h.blocks i 1
                  [{ size := (nth h.blocks i).size, alloc := false,
                     prevAlloc := (nth h.blocks i).prevAlloc, data := zeroData }] }
            (offsetOf h.blocks i) (nth h.blocks i).size)
          i false, i) := by
      unfold coalesce
      dsimp only
      rw [hP, hN]
      simp only [Bool.false_eq_true, if_false, if_true, eq_self_iff_true]
    rw [hc]
    exact frame_assembled h i 1 _ _ _ i false
      (by omega)
      (by
        show _ = sumSizes (slice h.blocks i 1)
        rw [slice_one h.blocks i hi]
        simp only [sumSizes_cons, sumSizes_nil])
      m hm (by omega)
  · -- merge with both
    have h0i : 0 < i := by
      by_contra hcon
      rw [decide_eq_false hcon] at hP
      simp at hP
    have hbpa : (nth h.blocks i).prevAlloc = false := by
      cases hpa : (nth h.blocks i).prevAlloc
      · rfl
      · rw [hpa] at hP
        simp at hP
    have hpb_free : (nth h.blocks (i - 1)).alloc = false := by
      unfold prevOkAt at hpok
      rw [hbpa, if_neg (by omega : ¬ i = 0)] at hpok
      exact hpok.symm
    have hi1 : i + 1 < h.blocks.length := by
      by_contra hcon
      rw [nextAllocB_of_ge h.blocks i hcon] at hN
      simp at hN
    have hnb : (nth h.blocks (i + 1)).alloc = false := by
      have hna := nextAllocB_of_lt h.blocks i hi1
      rw [hna] at hN
      exact hN
    have hmi1 : m ≠ i + 1 := by
      intro he
      rw [he, hnb] at ha
      simp at ha
    have hmip : m ≠ i - 1 := by
      intro he
      rw [he, hpb_free] at ha
      simp at ha
    have hc : coalesce h i =
        (setNextPrevAlloc
          (insert_free
            { remove_free
                (remove_free h (offsetOf h.blocks (i - 1)) (nth h.blocks (i - 1)).size)
                (offsetOf h.blocks (i + 1)) (nth h.blocks (i + 1)).size with
              blocks :=
                replaceAt h.blocks (i - 1) 3
                  [{ size := (nth h.blocks i).size + (nth h.blocks (i - 1)).size +
                       (nth h.blocks (i + 1)).size, alloc := false,
                     prevAlloc := (nth h.blocks (i - 1)).prevAlloc, data := zeroData }] }
            (offsetOf h.blocks (i - 1))
            ((nth h.blocks i).size + (nth h.blocks (i - 1)).size + (nth h.blocks (i + 1)).size))
          (i - 1) false, i - 1) := by
      unfold coalesce
      dsimp only
      rw [hP, hN]
      simp only [Bool.false_eq_true, if_false, if_true, eq_self_iff_true]
      rfl
    rw [hc]
    exact frame_assembled
      (remove_free (remove_free h (offsetOf h.blocks (i - 1)) (nth h.blocks (i - 1)).size)
        (offsetOf h.blocks (i + 1)) (nth h.blocks (i + 1)).size) (i - 1) 3
      _ _ _ (i - 1) false
      (by show i - 1 + 3 ≤ h.blocks.length; omega)
      (by
        show _ = sumSizes (slice h.blocks (i - 1) 3)
        rw [slice_three h.blocks (i - 1) (by omega)]
        simp only [sumSizes_cons, sumSizes_nil]
        have he1 : nth h.blocks (i - 1 + 1) = nth h.blocks i :=
          congrArg (nth h.blocks) (by omega)
        have he2 : nth h.blocks (i - 1 + 2) = nth h.blocks (i + 1) :=
          congrArg (nth h.blocks) (by omega)
        rw [he1, he2]
        omega)
      m hm (by omega)
  · -- merge with previous only
    have h0i : 0 < i := by
      by_contra hcon
      rw [decide_eq_false hcon] at hP
      simp at hP
    have hbpa : (nth h.blocks i).prevAlloc = false := by
      cases hpa : (nth h.blocks i).prevAlloc
      · rfl
      · rw [hpa] at hP
        simp at hP
    have hpb_free : (nth h.blocks (i - 1)).alloc = false := by
      unfold prevOkAt at hpok
      rw [hbpa, if_neg (by omega : ¬ i = 0)] at hpok
      exact hpok.symm
    have hmip : m ≠ i - 1 := by
      intro he
      rw [he, hpb_free] at ha
      simp at ha
    have hc : coalesce h i =
        (setNextPrevAlloc
          (insert_free
            { remove_free h (offsetOf h.blocks (i - 1)) (nth h.blocks (i - 1)).size with
              blocks :=
                replaceAt h.blocks (i - 1) 2
                  [{ size := (nth h.blocks i).size + (nth h.blocks (i - 1)).size, alloc := false,
                     prevAlloc := (nth h.blocks (i - 1)).prevAlloc, data := zeroData }] }
            (offsetOf h.blocks (i - 1))
            ((nth h.blocks i).size + (nth h.blocks (i - 1)).size))
          (i - 1) false, i - 1) := by
      unfold coalesce
      dsimp only
      rw [hP, hN]
      simp only [Bool.false_eq_true, if_false, if_true, eq_self_iff_true]
      rfl
    rw [hc]
    exact frame_assembled
      (remove_free h (offsetOf h.blocks (i - 1)) (nth h.blocks (i - 1)).size) (i - 1) 2
      _ _ _ (i - 1) false
      (by show i - 1 + 2 ≤ h.blocks.length; omega)
      (by
        show _ = sumSizes (slice h.blocks (i - 1) 2)
        rw [slice_two h.blocks (i - 1) (by omega)]
        simp only [sumSizes_cons, sumSizes_nil]
        have he1 : nth h.blocks (i - 1 + 1) = nth h.blocks i :=
          congrArg (nth h.blocks) (by omega)
        rw [he1]
        omega)
      m hm (by omega)

theorem offsetOf_le_mono (bs : List Block) (hpos : sizesPos bs) (a b : Nat)
    (hab : a ≤ b) (hb : b ≤ bs.length) : offsetOf bs a ≤ offsetOf bs b := by
  rcases Nat.eq_or_lt_of_le hab with he | hlt
  · rw [he]
  · exact Nat.le_of_lt (offsetOf_mono bs hpos a b hlt hb)

/-- Frame through a size-preserving single replacement followed by a
prev-alloc bit fix, for any intermediate heap carrying the new blocks. -/
theorem frame_assembled2 (g X : Heap) (j cnt : Nat) (news : List Block) (e : Nat) (v : Bool)
    (hX : X.blocks = replaceAt g.blocks j cnt news)
    (hlen : j + cnt ≤ g.blocks.length)
    (hsum : sumSizes news = sumSizes (slice g.blocks j cnt))
    (m : Nat) (hm : m < g.blocks.length) (hout : m < j ∨ j + cnt ≤ m) :
    ∃ m', m' < (setNextPrevAlloc X e v).blocks.length ∧
      offsetOf (setNextPrevAlloc X e v).blocks m' = offsetOf g.blocks m ∧
      sad (nth (setNextPrevAlloc X e v).blocks m') = sad (nth g.blocks m) := by
  obtain ⟨m', hm', hnth', hoff'⟩ :=
    frame_replaceAt g.blocks j cnt news m hlen hsum hm hout
  refine ⟨m', ?_, ?_, ?_⟩
  · rw [length_setNextPrevAlloc, hX]
    exact hm'
  · rw [offsetOf_congr_sa _ _ (setNextPrevAlloc_sa _ e v) m', hX]
    exact hoff'
  · rw [sad_setNext _ e v m', hX, hnth']

/-- place: allocated blocks survive, the returned offset names an
allocated block in the result, and the returned offset is fresh (not the
offset of any previously allocated block). -/
theorem place_props (g : Heap) (i asize : Nat) (hInv : Inv g)
    (hi : i < g.blocks.length)
    (hfree : (nth g.blocks i).alloc = false)
    (hasize : 0 < asize)
    (hle : asize ≤ (nth g.blocks i).size) :
    AllocFrame g (place g (offsetOf g.blocks i) asize).1 ∧
    (∃ ip, ip < (place g (offsetOf g.blocks i) asize).1.blocks.length ∧
      (place g (offsetOf g.blocks i) asize).2 =
        offsetOf (place g (offsetOf g.blocks i) asize).1.blocks ip ∧
      (nth (place g (offsetOf g.blocks i) asize).1.blocks ip).alloc = true) ∧
    (∀ m, m < g.blocks.length → (nth g.blocks m).alloc = true →
      (place g (offsetOf g.blocks i) asize).2 ≠ offsetOf g.blocks m) := by
  obtain ⟨hpos, hadj, hbits, hlists, hsmall⟩ := hInv
  have hidx : indexOfOffset g.blocks (offsetOf g.blocks i) = some i :=
    indexOfOffset_offsetOf g.blocks i hi hpos
  have hcslt : (nth g.blocks i).size < TWO64 := by
    have h1 := size_le_sum g.blocks i hi
    have h2 : sumSizes g.blocks ≤ 2 ^ 32 := by
      have h3 := hsmall
      unfold SmallHeap at h3
      omega
    have h4 : (2 : Nat) ^ 32 < TWO64 := by
      unfold TWO64
      norm_num
    omega
  have hws : wsub (nth g.blocks i).size asize = (nth g.blocks i).size - asize :=
    wsub_eq _ _ hle hcslt
  have hdistinct : ∀ np, offsetOf g.blocks i ≤ np →
      np < offsetOf g.blocks i + (nth g.blocks i).size →
      ∀ m, m < g.blocks.length → (nth g.blocks m).alloc = true →
      np ≠ offsetOf g.blocks m := by
    intro np hnp1 hnp2 m hm ha he
    have hmi : m ≠ i := by
      intro hmi
      rw [hmi, hfree] at ha
      simp at ha
    rcases Nat.lt_or_ge m i with hlt | hge
    · have := offsetOf_mono g.blocks hpos m i hlt (by omega)
      omega
    · have hgt : i < m := by omega
      have h1 := offsetOf_mono g.blocks hpos i m hgt (by omega)
      have h2 : offsetOf g.blocks (i + 1) ≤ offsetOf g.blocks m :=
        offsetOf_le_mono g.blocks hpos (i + 1) m (by omega) (by omega)
      rw [offsetOf_succ g.blocks i hi] at h2
      omega
  by_cases h16 : 16 ≤ (nth g.blocks i).size - asize
  · cases hstr : g.strategy
    · -- split, front allocation
      have hc : place g (offsetOf g.blocks i) asize =
          (setNextPrevAlloc
            (insert_free
              { remove_free g (offsetOf g.blocks i) (nth g.blocks i).size with
                blocks :=
                  replaceAt g.blocks i 1
                    [{ size := asize, alloc := true,
                       prevAlloc := (nth g.blocks i).prevAlloc,
                       data := (nth g.blocks i).data },
                     { size := (nth g.blocks i).size - asize, alloc := false,
                       prevAlloc := true, data := zeroData }],
                strategy := true }
              (offsetOf g.blocks i + asize) ((nth g.blocks i).size - asize))
            (i + 1) false,
           offsetOf g.blocks i) := by
        unfold place
        rw [hidx]
        dsimp only
        rw [hws, if_pos h16, remove_free_strategy, hstr, if_pos rfl]
        rfl
      rw [hc]
      dsimp only
      refine ⟨?_, ⟨i, ?_, ?_, ?_⟩, ?_⟩
      · intro m hm ha
        have hmi : m ≠ i := by
          intro hmi
          rw [hmi, hfree] at ha
          simp at ha
        exact frame_assembled2 g _ i 1 _ (i + 1) false
          (by rw [insert_free_blocks])
          (by omega)
          (by
            show _ = sumSizes (slice g.blocks i 1)
            rw [slice_one g.blocks i hi]
            simp only [sumSizes_cons, sumSizes_nil]
            omega)
          m hm (by omega)
      · rw [length_setNextPrevAlloc, insert_free_blocks,
          length_replaceAt g.blocks i 1 _ (by omega)]
        simp
        omega
      · rw [offsetOf_congr_sa _ _ (setNextPrevAlloc_sa _ (i + 1) false) i,
          insert_free_blocks, offsetOf_replaceAt_le g.blocks i 1 _ i (le_refl i) (by omega)]
      · rw [nth_setNextPrevAlloc_of_ne _ _ _ i (by omega), insert_free_blocks]
        have hm := nth_replaceAt_mid g.blocks i 1
          [{ size := asize, alloc := true, prevAlloc := (nth g.blocks i).prevAlloc,
             data := (nth g.blocks i).data },
           { size := (nth g.blocks i).size - asize, alloc := false,
             prevAlloc := true, data := zeroData }] 0 (by simp) (by omega)
        rw [Nat.add_zero] at hm
        rw [hm]
        rfl
      · exact hdistinct _ (le_refl _) (by
          have hp := hpos _ (nth_mem g.blocks i hi)
          omega)
    · -- split, back allocation
      have hc : place g (offsetOf g.blocks i) asize =
          (setNextPrevAlloc
            (insert_free
              { remove_free g (offsetOf g.blocks i) (nth g.blocks i).size with
                blocks :=
                  replaceAt g.blocks i 1
                    [{ size := (nth g.blocks i).size - asize, alloc := false,
                       prevAlloc := (nth g.blocks i).prevAlloc, data := zeroData },
                     { size := asize, alloc := true, prevAlloc := false,
                       data := shiftData (nth g.blocks i).data
                         ((nth g.blocks i).size - asize) }],
                strategy := false }
              (offsetOf g.blocks i) ((nth g.blocks i).size - asize))
            (i + 1) true,
           offsetOf g.blocks i + ((nth g.blocks i).size - asize)) := by
        unfold place
        rw [hidx]
        dsimp only
        rw [hws, if_pos h16, remove_free_strategy, hstr,
          if_neg (show ¬ (true = false) from by simp)]
        rfl
      rw [hc]
      dsimp only
      have hnth0 : nth (replaceAt g.blocks i 1
          [{ size := (nth g.blocks i).size - asize, alloc := false,
             prevAlloc := (nth g.blocks i).prevAlloc, data := zeroData },
           { size := asize, alloc := true, prevAlloc := false,
             data := shiftData (nth g.blocks i).data
               ((nth g.blocks i).size - asize) }]) i =
          { size := (nth g.blocks i).size - asize, alloc := false,
            prevAlloc := (nth g.blocks i).prevAlloc, data := zeroData } := by
        have hm := nth_replaceAt_mid g.blocks i 1
          [{ size := (nth g.blocks i).size - asize, alloc := false,
             prevAlloc := (nth g.blocks i).prevAlloc, data := zeroData },
           { size := asize, alloc := true, prevAlloc := false,
             data := shiftData (nth g.blocks i).data
               ((nth g.blocks i).size - asize) }] 0 (by simp) (by omega)
        rw [Nat.add_zero] at hm
        exact hm
      refine ⟨?_, ⟨i + 1, ?_, ?_, ?_⟩, ?_⟩
      · intro m hm ha
        have hmi : m ≠ i := by
          intro hmi
          rw [hmi, hfree] at ha
          simp at ha
        exact frame_assembled2 g _ i 1 _ (i + 1) true
          (by rw [insert_free_blocks])
          (by omega)
          (by
            show _ = sumSizes (slice g.blocks i 1)
            rw [slice_one g.blocks i hi]
            simp only [sumSizes_cons, sumSizes_nil]
            omega)
          m hm (by omega)
      · rw [length_setNextPrevAlloc, insert_free_blocks,
          length_replaceAt g.blocks i 1 _ (by omega)]
        simp
        omega
      · rw [offsetOf_congr_sa _ _ (setNextPrevAlloc_sa _ (i + 1) true) (i + 1),
          insert_free_blocks]
        rw [offsetOf_succ _ i (by
          rw [length_replaceAt g.blocks i 1 _ (by omega)]
          simp
          omega)]
        rw [offsetOf_replaceAt_le g.blocks i 1 _ i (le_refl i) (by omega), hnth0]
      · rw [nth_setNextPrevAlloc_of_ne _ _ _ (i + 1) (by omega), insert_free_blocks]
        have hm := nth_replaceAt_mid g.blocks i 1
          [{ size := (nth g.blocks i).size - asize, alloc := false,
             prevAlloc := (nth g.blocks i).prevAlloc, data := zeroData },
           { size := asize, alloc := true, prevAlloc := false,
             data := shiftData (nth g.blocks i).data
               ((nth g.blocks i).size - asize) }] 1 (by simp) (by omega)
        rw [hm]
        rfl
      · exact hdistinct _ (by omega) (by
          have hp := hpos _ (nth_mem g.blocks i hi)
          omega)
  · -- no split
    have hc : place g (offsetOf g.blocks i) asize =
        (setNextPrevAlloc
          { remove_free g (offsetOf g.blocks i) (nth g.blocks i).size with
            blocks :=
              replaceAt g.blocks i 1 [{ nth g.blocks i with alloc := true }] }
          i true,
         offsetOf g.blocks i) := by
      unfold place
      rw [hidx]
      dsimp only
      rw [hws, if_neg h16]
      rfl
    rw [hc]
    dsimp only
    refine ⟨?_, ⟨i, ?_, ?_, ?_⟩, ?_⟩
    · intro m hm ha
      have hmi : m ≠ i := by
        intro hmi
        rw [hmi, hfree] at ha
        simp at ha
      exact frame_assembled2 g _ i 1 _ i true
        (by rfl)
        (by omega)
        (by
          show _ = sumSizes (slice g.blocks i 1)
          rw [slice_one g.blocks i hi]
          simp only [sumSizes_cons, sumSizes_nil])
        m hm (by omega)
    · rw [length_setNextPrevAlloc]
      show i < (replaceAt g.blocks i 1 _).length
      rw [length_replaceAt g.blocks i 1 _ (by omega)]
      simp
      omega
    · rw [offsetOf_congr_sa _ _ (setNextPrevAlloc_sa _ i true) i]
      show offsetOf g.blocks i =
        offsetOf (replaceAt g.blocks i 1 [{ nth g.blocks i with alloc := true }]) i
      rw [offsetOf_replaceAt_le g.blocks i 1 _ i (le_refl i) (by omega)]
    · rw [nth_setNextPrevAlloc_of_ne _ _ _ i (by omega)]
      show (nth (maskAlloc g.blocks i) i).alloc = true
      rw [nth_maskAlloc_self g.blocks i hi]
    · exact hdistinct _ (le_refl _) (by
        have hp := hpos _ (nth_mem g.blocks i hi)
        omega)

/-- Allocated blocks survive a heap extension. -/
theorem extend_frame (h : Heap) (words : Nat) (hInv : Inv h) (hw : 0 < words)
    (p : Heap × Nat) (hr : extend_heap h words = some p) :
    AllocFrame h p.1 := by
  obtain ⟨hpos, hadj, ⟨hbits1, hbits2⟩, hlists, hsmall⟩ := hInv
  by_cases hsz : (if words % 2 = 1 then words + 1 else words) * 4 ≤ h.cap
  swap
  · unfold extend_heap at hr
    rw [if_neg hsz] at hr
    simp at hr
  unfold extend_heap at hr
  rw [if_pos hsz] at hr
  dsimp only at hr
  obtain rfl := Option.some.inj hr
  dsimp only
  have hnthN : nth (h.blocks ++
      [{ size := (if words % 2 = 1 then words + 1 else words) * 4, alloc := false,
         prevAlloc := h.epiPrevAlloc, data := zeroData }]) h.blocks.length =
      { size := (if words % 2 = 1 then words + 1 else words) * 4, alloc := false,
        prevAlloc := h.epiPrevAlloc, data := zeroData } := by
    have h0 := nth_append_right h.blocks
      [{ size := (if words % 2 = 1 then words + 1 else words) * 4, alloc := false,
         prevAlloc := h.epiPrevAlloc, data := zeroData }] 0
    rw [Nat.add_zero] at h0
    exact h0
  have hstep1 : AllocFrame h
      { h with
        blocks := h.blocks ++
          [{ size := (if words % 2 = 1 then words + 1 else words) * 4, alloc := false,
             prevAlloc := h.epiPrevAlloc, data := zeroData }],
        cap := h.cap - (if words % 2 = 1 then words + 1 else words) * 4,
        grows := (if words % 2 = 1 then words + 1 else words) * 4 :: h.grows,
        epiPrevAlloc := false } := by
    intro m hm ha
    refine ⟨m, ?_, ?_, ?_⟩
    · show m < (h.blocks ++ _).length
      rw [List.length_append]
      simp
      omega
    · show offsetOf (h.blocks ++ _) m = _
      rw [offsetOf, offsetOf, take_append_of_le _ _ m (by omega)]
    · show sad (nth (h.blocks ++ _) m) = _
      rw [nth_append_left _ _ m hm]
  refine AllocFrame_trans _ _ _ hstep1 ?_
  apply coalesce_frame
  · show h.blocks.length < (h.blocks ++ _).length
    rw [List.length_append]
    simp
  · show (nth (h.blocks ++ _) h.blocks.length).alloc = false
    rw [hnthN]
  · show prevOkAt (h.blocks ++ _) h.blocks.length
    unfold prevOkAt
    rw [hnthN]
    by_cases hk0 : h.blocks.length = 0
    · rw [if_pos hk0]
      rw [if_pos hk0] at hbits2
      exact hbits2
    · rw [if_neg hk0]
      rw [if_neg hk0] at hbits2
      rw [nth_append_left _ _ (h.blocks.length - 1) (by omega)]
      exact hbits2

/-- mm_malloc: allocated blocks survive; a returned pointer names an
allocated block at a fresh offset. -/
theorem malloc_props (h : Heap) (n : Nat) (hInv : Inv h) :
    AllocFrame h (mm_malloc h n).heap ∧
    ∀ np, (mm_malloc h n).ret = some np →
      (∃ ip, ip < (mm_malloc h n).heap.blocks.length ∧
        np = offsetOf (mm_malloc h n).heap.blocks ip ∧
        (nth (mm_malloc h n).heap.blocks ip).alloc = true) ∧
      (∀ m, m < h.blocks.length → (nth h.blocks m).alloc = true →
        np ≠ offsetOf h.blocks m) := by
  by_cases hn : n = 0
  · subst hn
    unfold mm_malloc
    rw [if_pos rfl]
    exact ⟨AllocFrame_refl h, by intro np hnp; simp at hnp⟩
  · have ha16 := adjust_ge16 n
    unfold mm_malloc
    rw [if_neg hn]
    dsimp only
    cases hf : find_fit h (adjust_block_size n) with
    | some off =>
      dsimp only
      obtain ⟨c, hc1, hc2, hc3, hc4⟩ :=
        findLoop_some h.blocks h.freeLists (adjust_block_size n) 12 _ off hf
      obtain ⟨k, hk, hkfree, hkcl, hksz⟩ :=
        class_list_mem h hInv.1 hInv.2.2.2.1 c off hc2 hc3
      obtain ⟨hklen, hkoff⟩ := indexOfOffset_some h.blocks off k hk
      rw [hksz] at hc4
      subst hkoff
      obtain ⟨hfr, ⟨ip, hip1, hip2, hip3⟩, hdist⟩ :=
        place_props h k (adjust_block_size n) hInv hklen hkfree (by omega) hc4
      exact ⟨hfr, fun np hnp => by
        have hnpe : (place h (offsetOf h.blocks k) (adjust_block_size n)).2 = np :=
          Option.some.inj hnp
        rw [← hnpe]
        exact ⟨⟨ip, hip1, hip2, hip3⟩, hdist⟩⟩
    | none =>
      dsimp only
      cases he : extend_heap h (max (adjust_block_size n) 8192 / 4) with
      | none =>
        exact ⟨AllocFrame_refl h, by intro np hnp; simp at hnp⟩
      | some r =>
        dsimp only
        have hm8 := adjust_mod8 n
        have hwpos : 0 < max (adjust_block_size n) 8192 / 4 := by omega
        obtain ⟨hInvR, idx, hlt, hoff, hfree, hsz⟩ :=
          extend_inv h (max (adjust_block_size n) 8192 / 4) hInv hwpos r he
        have hfr1 := extend_frame h (max (adjust_block_size n) 8192 / 4) hInv hwpos r he
        have hle2 : adjust_block_size n ≤ (nth r.1.blocks idx).size := by
          have hq : adjust_block_size n ≤
              (if max (adjust_block_size n) 8192 / 4 % 2 = 1
                then max (adjust_block_size n) 8192 / 4 + 1
                else max (adjust_block_size n) 8192 / 4) * 4 := by
            split_ifs <;> omega
          omega
        obtain ⟨hfr2, ⟨ip, hip1, hip2, hip3⟩, hdist⟩ :=
          place_props r.1 idx (adjust_block_size n) hInvR hlt hfree (by omega) hle2
        rw [← hoff] at hfr2 hip2 hdist hip1 hip3
        refine ⟨AllocFrame_trans _ _ _ hfr1 hfr2, fun np hnp => ?_⟩
        have hnpe : (place r.1 r.2 (adjust_block_size n)).2 = np := Option.some.inj hnp
        rw [← hnpe]
        refine ⟨⟨ip, hip1, hip2, hip3⟩, ?_⟩
        intro m hm ha he2
        obtain ⟨m', hm', hoff', hsad'⟩ := hfr1 m hm ha
        have ha' : (nth r.1.blocks m').alloc = true := by
          rw [sad_alloc _ _ hsad']
          exact ha
        exact hdist m' hm' ha' (by rw [hoff']; exact he2)

/-- Allocated blocks other than the freed one survive mm_free. -/
theorem free_frame (h : Heap) (off i : Nat) (hInv : Inv h)
    (hidx : indexOfOffset h.blocks off = some i)
    (halloc : (nth h.blocks i).alloc = true) :
    ∀ m, m < h.blocks.length → (nth h.blocks m).alloc = true → m ≠ i →
    ∃ m', m' < (mm_free h off).blocks.length ∧
      offsetOf (mm_free h off).blocks m' = offsetOf h.blocks m ∧
      sad (nth (mm_free h off).blocks m') = sad (nth h.blocks m) := by
  obtain ⟨hpos, hadj, ⟨hbits1, hbits2⟩, hlists, hsmall⟩ := hInv
  have hi : i < h.blocks.length := (indexOfOffset_some h.blocks off i hidx).1
  intro m hm ha hmi
  unfold mm_free
  rw [hidx]
  dsimp only
  have hstep1 : ∃ m1, m1 < (replaceAt h.blocks i 1
      [{ size := (nth h.blocks i).size, alloc := false,
         prevAlloc := (nth h.blocks i).prevAlloc, data := zeroData }]).length ∧
      nth (replaceAt h.blocks i 1
        [{ size := (nth h.blocks i).size, alloc := false,
           prevAlloc := (nth h.blocks i).prevAlloc, data := zeroData }]) m1 = nth h.blocks m ∧
      offsetOf (replaceAt h.blocks i 1
        [{ size := (nth h.blocks i).size, alloc := false,
           prevAlloc := (nth h.blocks i).prevAlloc, data := zeroData }]) m1 =
        offsetOf h.blocks m :=
    frame_replaceAt h.blocks i 1 _ m (by omega)
      (by
        show _ = sumSizes (slice h.blocks i 1)
        rw [slice_one h.blocks i hi]
        simp only [sumSizes_cons, sumSizes_nil])
      hm (by omega)
  obtain ⟨m1, hm1, hnth1, hoff1⟩ := hstep1
  have hfr2 := coalesce_frame
    { h with
      blocks :=
        replaceAt h.blocks i 1
          [{ size := (nth h.blocks i).size, alloc := false,
             prevAlloc := (nth h.blocks i).prevAlloc, data := zeroData }] } i
    (by
      show i < (replaceAt h.blocks i 1 _).length
      rw [length_replaceAt h.blocks i 1 _ (by omega)]
      simp
      omega)
    (by
      show (nth (replaceAt h.blocks i 1 _) i).alloc = false
      have hmid := nth_replaceAt_mid h.blocks i 1
        [{ size := (nth h.blocks i).size, alloc := false,
           prevAlloc := (nth h.blocks i).prevAlloc, data := zeroData }] 0 (by simp) (by omega)
      rw [Nat.add_zero] at hmid
      rw [hmid]
      rfl)
    (by
      show prevOkAt (replaceAt h.blocks i 1 _) i
      unfold prevOkAt
      have hmid := nth_replaceAt_mid h.blocks i 1
        [{ size := (nth h.blocks i).size, alloc := false,
           prevAlloc := (nth h.blocks i).prevAlloc, data := zeroData }] 0 (by simp) (by omega)
      rw [Nat.add_zero] at hmid
      rw [hmid]
      have hpok := hbits1 i hi
      unfold prevOkAt at hpok
      by_cases hk0 : i = 0
      · rw [if_pos hk0] at hpok ⊢
        exact hpok
      · rw [if_neg hk0] at hpok ⊢
        rw [nth_replaceAt_out h.blocks i 1
          [{ size := (nth h.blocks i).size, alloc := false,
             prevAlloc := (nth h.blocks i).prevAlloc, data := zeroData }]
          (i - 1) rfl (by omega) (by omega)]
        exact hpok)
  obtain ⟨m', hm', hoff', hsad'⟩ := hfr2 m1 (by exact hm1)
    (by
      show (nth (replaceAt h.blocks i 1 _) m1).alloc = true
      rw [hnth1]
      exact ha)
  refine ⟨m', hm', ?_, ?_⟩
  · rw [hoff']
    show offsetOf (replaceAt h.blocks i 1 _) m1 = _
    rw [hoff1]
  · rw [hsad']
    show sad (nth (replaceAt h.blocks i 1 _) m1) = _
    rw [hnth1]

theorem updateDataAt_sa (h : Heap) (off : Nat) (g : (Nat → Nat) → (Nat → Nat)) :
    (updateDataAt h off g).blocks.map sa = h.blocks.map sa := by
  unfold updateDataAt
  cases hidx : indexOfOffset h.blocks off with
  | none => rfl
  | some ip =>
    dsimp only
    exact replace_same_sa h.blocks ip (indexOfOffset_some h.blocks off ip hidx).1 _ rfl rfl

theorem indexOfOffset_congr_sa (bs bs' : List Block) (h : bs.map sa = bs'.map sa) (off : Nat) :
    indexOfOffset bs off = indexOfOffset bs' off :=
  idxOfAux_congr bs bs' 64 off h

/-- mm_realloc on a valid allocated pointer preserves the invariant. -/
theorem realloc_inv_some (h : Heap) (off n i : Nat) (hInv : Inv h)
    (hidx : indexOfOffset h.blocks off = some i)
    (halloc : (nth h.blocks i).alloc = true) :
    Inv (mm_realloc h (some off) n).heap := by
  have hi : i < h.blocks.length := (indexOfOffset_some h.blocks off i hidx).1
  have hoff : off = offsetOf h.blocks i := (indexOfOffset_some h.blocks off i hidx).2
  unfold mm_realloc
  dsimp only
  by_cases hn : n = 0
  · subst hn
    rw [if_pos rfl]
    exact free_inv h off i hInv hidx halloc
  · rw [if_neg hn]
    rw [hidx]
    dsimp only
    by_cases hA : adjust_block_size n ≤ (nth h.blocks i).size
    · rw [if_pos hA]
      by_cases h16 : 16 ≤ (nth h.blocks i).size - adjust_block_size n
      · rw [if_pos h16]
        dsimp only
        exact (shrink_split_inv h i (adjust_block_size n) hInv hi halloc
          (by have := adjust_ge16 n; omega) h16).1
      · rw [if_neg h16]
        exact hInv
    · rw [if_neg hA]
      cases hcond : (!nextAllocB h.blocks i &&
          decide (adjust_block_size n ≤ (nth h.blocks i).size + (nth h.blocks (i + 1)).size)) with
      | false =>
        rw [if_neg (by simp)]
        cases hret : (mm_malloc h n).ret with
        | none =>
          dsimp only
          exact malloc_inv h n hInv
        | some np =>
          dsimp only
          have hminv := malloc_inv h n hInv
          obtain ⟨hfr, hretp⟩ := malloc_props h n hInv
          obtain ⟨io, hio1, hio2, hio3⟩ := hfr i hi halloc
          have hioidx : indexOfOffset (mm_malloc h n).heap.blocks off = some io := by
            rw [hoff, ← hio2]
            exact indexOfOffset_offsetOf _ io hio1 hminv.1
          have hsa1 := updateDataAt_sa (mm_malloc h n).heap np
            (fun d => memcpyData d (nth h.blocks i).data (min n (nth h.blocks i).size))
          have hu := updateDataAt_inv (mm_malloc h n).heap np
            (fun d => memcpyData d (nth h.blocks i).data (min n (nth h.blocks i).size)) hminv
          have hidx1 : indexOfOffset (updateDataAt (mm_malloc h n).heap np
              (fun d => memcpyData d (nth h.blocks i).data
                (min n (nth h.blocks i).size))).blocks off = some io := by
            rw [indexOfOffset_congr_sa _ _ hsa1 off]
            exact hioidx
          have halloc1 : (nth (updateDataAt (mm_malloc h n).heap np
              (fun d => memcpyData d (nth h.blocks i).data
                (min n (nth h.blocks i).size))).blocks io).alloc = true := by
            rw [(nth_congr_sa _ _ hsa1 io).2]
            rw [sad_alloc _ _ hio3]
            exact halloc
          exact free_inv _ off io hu hidx1 halloc1
      | true =>
        rw [if_pos rfl]
        have hnx : nextAllocB h.blocks i = false := by
          cases hx : nextAllocB h.blocks i
          · rfl
          · rw [hx] at hcond
            simp at hcond
        have hale : adjust_block_size n ≤ (nth h.blocks i).size + (nth h.blocks (i + 1)).size := by
          by_contra hcon
          rw [decide_eq_false hcon] at hcond
          simp at hcond
        have hi1 : i + 1 < h.blocks.length := by
          by_contra hcon
          rw [nextAllocB_of_ge h.blocks i hcon] at hnx
          simp at hnx
        have hnb : (nth h.blocks (i + 1)).alloc = false := by
          have hna := nextAllocB_of_lt h.blocks i hi1
          rw [hna] at hnx
          exact hnx
        by_cases h16 : 16 ≤ (nth h.blocks i).size + (nth h.blocks (i + 1)).size -
            adjust_block_size n
        · rw [if_pos h16]
          dsimp only
          rw [hoff]
          exact absorb_split_inv h i (adjust_block_size n) hInv hi1 halloc hnb
            (by have := adjust_ge16 n; omega) hale h16
        · rw [if_neg h16]
          dsimp only
          exact absorb_whole_inv h i (adjust_block_size n) hInv hi1 halloc hnb

/-- mm_realloc with a null pointer preserves the invariant. -/
theorem realloc_inv_none (h : Heap) (n : Nat) (hInv : Inv h) :
    Inv (mm_realloc h none n).heap := by
  unfold mm_realloc
  exact malloc_inv h n hInv

/-- mm_calloc preserves the invariant. -/
theorem calloc_inv (h : Heap) (a b : Nat) (hInv : Inv h) :
    Inv (mm_calloc h a b).heap := by
  unfold mm_calloc
  dsimp only
  cases hret : (mm_malloc h (a * b % TWO64)).ret with
  | none =>
    dsimp only
    exact malloc_inv h _ hInv
  | some p =>
    dsimp only
    exact updateDataAt_inv _ p _ (malloc_inv h _ hInv)

theorem mm_init_inv (cap0 : Nat) (h : Heap) (hcap : cap0 ≤ 2 ^ 32)
    (hr : mm_init cap0 = some h) : Inv h := by
  unfold mm_init at hr
  by_cases h64 : 64 ≤ cap0
  · rw [if_pos h64] at hr
    dsimp only at hr
    have hInv0 : Inv
        { blocks := [], freeLists := List.replicate 12 [], strategy := false,
          epiPrevAlloc := true, cap := cap0 - 64, grows := [] } := by
      refine ⟨?_, ?_, ⟨?_, ?_⟩, ⟨?_, ?_⟩, ?_⟩
      · intro b hb
        exact absurd hb (by simp)
      · intro k hk hk1
        exact absurd hk (by simp)
      · intro k hk
        exact absurd hk (by simp)
      · rfl
      · simp
      · intro c hc
        interval_cases c <;> rfl
      · show sumSizes ([] : List Block) + (cap0 - 64) ≤ 2 ^ 32
        rw [sumSizes_nil]
        omega
    cases hre : extend_heap
        { blocks := [], freeLists := List.replicate 12 [], strategy := false,
          epiPrevAlloc := true, cap := cap0 - 64, grows := [] } 2048 with
    | none =>
      rw [hre] at hr
      simp at hr
    | some r =>
      rw [hre] at hr
      obtain rfl := Option.some.inj hr
      exact (extend_inv _ 2048 hInv0 (by omega) r hre).1
  · rw [if_neg h64] at hr
    simp at hr

/-- Every heap state reachable through the public interface satisfies the
allocator invariant. -/
theorem reachable_inv (h : Heap) (hr : Reachable h) : Inv h := by
  induction hr with
  | init cap0 h hcap hinit => exact mm_init_inv cap0 h hcap hinit
  | mstep h n _ ih => exact malloc_inv h n ih
  | fstep h off i _ hidx halloc ih => exact free_inv h off i ih hidx halloc
  | rstep h off i n _ hidx halloc ih => exact realloc_inv_some h off n i ih hidx halloc
  | rnull h n _ ih => exact realloc_inv_none h n ih
  | cstep h a b _ ih => exact calloc_inv h a b ih

/-- C1: in every heap state reachable through the public interface, no
two physically adjacent regular blocks are both free: a free block's
immediate physical successor in the linear walk is allocated. -/
theorem claim_c1_no_adjacent_free (h : Heap) (hr : Reachable h) (k : Nat)
    (hk1 : k + 1 < h.blocks.length) (hfree : (nth h.blocks k).alloc = false) :
    (nth h.blocks (k + 1)).alloc = true := by
  have hInv := reachable_inv h hr
  rcases hInv.2.1 k (by omega) hk1 with hA | hA
  · rw [hfree] at hA
    exact absurd hA (by simp)
  · exact hA

/-- Witness for C1: after two allocations and a release of the first on
the freshly initialised heap, the freed first block's physical successor
is allocated. -/
theorem claim_c1_no_adjacent_free_witness :
    (nth (mm_free (mm_malloc (mm_malloc hInit 16).heap 16).heap 64).blocks 1).alloc = true :=
  claim_c1_no_adjacent_free _
    (Reachable.fstep _ 64 0
      (Reachable.mstep _ 16 (Reachable.mstep _ 16
        (Reachable.init 1000000 hInit (by norm_num) mm_init_million)))
      (by decide) (by decide))
    0 (by decide) (by decide)

theorem ms_coe_nil : (([] : List Nat) : Multiset Nat) = 0 := rfl

theorem ms_coe_ite (P : Prop) [Decidable P] (x y : List Nat) :
    ((if P then x else y : List Nat) : Multiset Nat) =
      if P then (x : Multiset Nat) else (y : Multiset Nat) := by
  split <;> rfl

theorem freeOffsets_partition (bs : List Block) (cur : Nat) :
    (freeOffsetsAux bs cur : Multiset Nat) =
      ∑ c ∈ Finset.range 12, (freeClassAux c bs cur : Multiset Nat) := by
  induction bs generalizing cur with
  | nil =>
    simp [freeOffsetsAux, freeClassAux, ms_coe_nil]
  | cons b rest ih =>
    by_cases hb : b.alloc = false
    · simp only [freeOffsetsAux, freeClassAux, hb, eq_self_iff_true, true_and, if_true]
      simp only [ms_coe_append, ms_coe_ite, ms_coe_nil]
      rw [Finset.sum_add_distrib, Finset.sum_ite_eq,
        if_pos (Finset.mem_range.mpr (list_index_lt_12 b.size)), ih]
    · have hb' : (b.alloc = false) = False := eq_false hb
      simp only [freeOffsetsAux, freeClassAux, hb', false_and, if_false, List.nil_append]
      exact ih (cur + b.size)

theorem joinLists_ms (fls : List (List Nat)) :
    (joinLists fls : Multiset Nat) = ∑ c ∈ Finset.range 12, (fls.getD c [] : Multiset Nat) := by
  unfold joinLists
  rw [show List.range 12 = [0, 1, 2, 3, 4, 5, 6, 7, 8, 9, 10, 11] from rfl]
  dsimp only [List.foldr]
  simp only [Finset.sum_range_succ, Finset.sum_range_zero, ms_coe_append, ms_coe_nil]
  abel

/-- C3: in every reachable heap state, the nodes visited by walking all
twelve class free lists are exactly the free blocks of the linear heap
walk (as a multiset of offsets), so the two free-block counts agree and
the final comparison of mm_checkheap never calls heap_error. -/
theorem claim_c3_lists_match_linear (h : Heap) (hr : Reachable h) :
    (joinLists h.freeLists : Multiset Nat) = (freeOffsets h.blocks : Multiset Nat) ∧
    check_free_lists_count h = check_heap_linear_count h ∧
    count_mismatch_fatal h = false := by
  have hInv := reachable_inv h hr
  obtain ⟨hlen, hcls⟩ := hInv.2.2.2.1
  have hmain : (joinLists h.freeLists : Multiset Nat) = (freeOffsets h.blocks : Multiset Nat) := by
    rw [joinLists_ms]
    rw [show (freeOffsets h.blocks : Multiset Nat) =
        ∑ c ∈ Finset.range 12, (freeClassAux c h.blocks 64 : Multiset Nat) from
      freeOffsets_partition h.blocks 64]
    exact Finset.sum_congr rfl fun c hc => hcls c (Finset.mem_range.mp hc)
  have hcount : check_free_lists_count h = check_heap_linear_count h := by
    have hcard := congrArg Multiset.card hmain
    simpa [check_free_lists_count, check_heap_linear_count, Multiset.coe_card] using hcard
  refine ⟨hmain, hcount, ?_⟩
  unfold count_mismatch_fatal
  simp [hcount]

/-- Witness for C3 on the freshly initialised heap. -/
theorem claim_c3_lists_match_linear_witness :
    (joinLists hInit.freeLists : Multiset Nat) = (freeOffsets hInit.blocks : Multiset Nat) ∧
    check_free_lists_count hInit = check_heap_linear_count hInit ∧
    count_mismatch_fatal hInit = false :=
  claim_c3_lists_match_linear hInit
    (Reachable.init 1000000 hInit (by norm_num) mm_init_million)

theorem split_coalesce_frame (h : Heap) (i : Nat) (ab sp : Block)
    (hi : i < h.blocks.length)
    (habA : ab.alloc = true) (hspA : sp.alloc = false) (hspP : sp.prevAlloc = true) :
    ∃ i', i' <
        (coalesce (setNextPrevAlloc { h with blocks := replaceAt h.blocks i 1 [ab, sp] }
          (i + 1) false) (i + 1)).1.blocks.length ∧
      offsetOf (coalesce (setNextPrevAlloc { h with blocks := replaceAt h.blocks i 1 [ab, sp] }
          (i + 1) false) (i + 1)).1.blocks i' = offsetOf h.blocks i ∧
      sad (nth (coalesce (setNextPrevAlloc { h with blocks := replaceAt h.blocks i 1 [ab, sp] }
          (i + 1) false) (i + 1)).1.blocks i') = sad ab := by
  have hlen1 : (replaceAt h.blocks i 1 [ab, sp]).length = h.blocks.length + 1 := by
    rw [length_replaceAt h.blocks i 1 _ (by omega)]
    simp
    omega
  have hlen2 : (setNextPrevAlloc { h with blocks := replaceAt h.blocks i 1 [ab, sp] }
      (i + 1) false).blocks.length = h.blocks.length + 1 := by
    rw [length_setNextPrevAlloc]
    exact hlen1
  have hab : nth (setNextPrevAlloc { h with blocks := replaceAt h.blocks i 1 [ab, sp] }
      (i + 1) false).blocks i = ab := by
    rw [nth_setNextPrevAlloc_of_ne _ (i + 1) false i (by omega)]
    exact nth_replaceAt_mid h.blocks i 1 [ab, sp] 0 (by simp) (by omega)
  have hsp : nth (setNextPrevAlloc { h with blocks := replaceAt h.blocks i 1 [ab, sp] }
      (i + 1) false).blocks (i + 1) = sp := by
    rw [nth_setNextPrevAlloc_of_ne _ (i + 1) false (i + 1) (by omega)]
    exact nth_replaceAt_mid h.blocks i 1 [ab, sp] 1 (by simp) (by omega)
  have hfree2 : (nth (setNextPrevAlloc { h with blocks := replaceAt h.blocks i 1 [ab, sp] }
      (i + 1) false).blocks (i + 1)).alloc = false := by
    rw [hsp]
    exact hspA
  have hpok2 : prevOkAt (setNextPrevAlloc { h with blocks := replaceAt h.blocks i 1 [ab, sp] }
      (i + 1) false).blocks (i + 1) := by
    unfold prevOkAt
    rw [if_neg (by omega : ¬ i + 1 = 0), hsp]
    rw [show i + 1 - 1 = i from rfl, hab, hspP, habA]
  have hi1 : i + 1 < (setNextPrevAlloc { h with blocks := replaceAt h.blocks i 1 [ab, sp] }
      (i + 1) false).blocks.length := by
    rw [hlen2]
    omega
  obtain ⟨i', h1, h2, h3⟩ :=
    coalesce_frame _ (i + 1) hi1 hfree2 hpok2 i (by rw [hlen2]; omega) (by rw [hab]; exact habA)
  refine ⟨i', h1, ?_, by rw [h3, hab]⟩
  rw [h2, offsetOf_congr_sa _ _ (setNextPrevAlloc_sa _ (i + 1) false) i]
  exact offsetOf_replaceAt_le h.blocks i 1 [ab, sp] i (le_refl i) (by omega)

/-- C9: shrinking in place: on a currently allocated block whose size
already covers the adjusted request, realloc returns the same pointer and
the block at that address keeps its payload bytes unchanged. -/
theorem claim_c9_shrink_in_place (h : Heap) (off n i : Nat) (hInv : Inv h)
    (hidx : indexOfOffset h.blocks off = some i)
    (halloc : (nth h.blocks i).alloc = true)
    (hn : 0 < n)
    (hle : adjust_block_size n ≤ (nth h.blocks i).size) :
    (mm_realloc h (some off) n).ret = some off ∧
    ∃ i', i' < (mm_realloc h (some off) n).heap.blocks.length ∧
      offsetOf (mm_realloc h (some off) n).heap.blocks i' = off ∧
      (nth (mm_realloc h (some off) n).heap.blocks i').alloc = true ∧
      ∀ k < n, (nth (mm_realloc h (some off) n).heap.blocks i').data k =
        (nth h.blocks i).data k := by
  have hi : i < h.blocks.length := (indexOfOffset_some h.blocks off i hidx).1
  have hoff : off = offsetOf h.blocks i := (indexOfOffset_some h.blocks off i hidx).2
  unfold mm_realloc
  dsimp only
  rw [if_neg (by omega : ¬ n = 0), hidx]
  dsimp only
  rw [if_pos hle]
  by_cases h16 : 16 ≤ (nth h.blocks i).size - adjust_block_size n
  · rw [if_pos h16]
    dsimp only
    refine ⟨rfl, ?_⟩
    obtain ⟨i', h1, h2, h3⟩ := split_coalesce_frame h i
      { size := adjust_block_size n, alloc := true, prevAlloc := (nth h.blocks i).prevAlloc,
        data := (nth h.blocks i).data }
      { size := (nth h.blocks i).size - adjust_block_size n, alloc := false, prevAlloc := true,
        data := zeroData } hi rfl rfl rfl
    exact ⟨i', h1, by rw [h2]; exact hoff.symm, by rw [sad_alloc _ _ h3],
      fun k _ => by rw [sad_data _ _ h3]⟩
  · rw [if_neg h16]
    exact ⟨rfl, i, hi, hoff.symm, halloc, fun k _ => rfl⟩

/-- Witness for C9: shrinking a 104-byte allocated block to 50 bytes on a
heap produced by the public interface keeps the pointer. -/
theorem claim_c9_shrink_in_place_witness :
    (mm_realloc (mm_malloc hInit 100).heap (some 64) 50).ret = some 64 ∧
    ∃ i', i' < (mm_realloc (mm_malloc hInit 100).heap (some 64) 50).heap.blocks.length ∧
      offsetOf (mm_realloc (mm_malloc hInit 100).heap (some 64) 50).heap.blocks i' = 64 ∧
      (nth (mm_realloc (mm_malloc hInit 100).heap (some 64) 50).heap.blocks i').alloc = true ∧
      ∀ k < 50, (nth (mm_realloc (mm_malloc hInit 100).heap (some 64) 50).heap.blocks i').data k =
        (nth (mm_malloc hInit 100).heap.blocks 0).data k :=
  claim_c9_shrink_in_place (mm_malloc hInit 100).heap 64 50 0
    (malloc_inv hInit 100 (mm_init_inv 1000000 hInit (by norm_num) mm_init_million))
    (by decide) (by decide) (by decide) (by decide)

theorem payload_le_adjust (n : Nat) (hn : n + 12 ≤ TWO64) : n + 4 ≤ adjust_block_size n := by
  unfold adjust_block_size alignUp8
  dsimp only
  rw [show n + 4 + 7 = n + 11 from by omega, Nat.mod_eq_of_lt (by omega)]
  have hdm := Nat.div_add_mod (n + 11) 8
  have hm8 : (n + 11) % 8 < 8 := Nat.mod_lt _ (by omega)
  split <;> omega

theorem absorb_split_frame (h : Heap) (i : Nat) (ab sp : Block) (p s q r : Nat)
    (hi1 : i + 1 < h.blocks.length) :
    i < (setNextPrevAlloc (insert_free
        { remove_free h p s with blocks := replaceAt (remove_free h p s).blocks i 2 [ab, sp] }
        q r) (i + 1) false).blocks.length ∧
    nth (setNextPrevAlloc (insert_free
        { remove_free h p s with blocks := replaceAt (remove_free h p s).blocks i 2 [ab, sp] }
        q r) (i + 1) false).blocks i = ab ∧
    offsetOf (setNextPrevAlloc (insert_free
        { remove_free h p s with blocks := replaceAt (remove_free h p s).blocks i 2 [ab, sp] }
        q r) (i + 1) false).blocks i = offsetOf h.blocks i := by
  refine ⟨?_, ?_, ?_⟩
  · rw [length_setNextPrevAlloc]
    show i < (replaceAt h.blocks i 2 [ab, sp]).length
    rw [length_replaceAt h.blocks i 2 _ (by omega)]
    simp only [List.length_cons, List.length_nil]
    omega
  · rw [nth_setNextPrevAlloc_of_ne _ (i + 1) false i (by omega)]
    exact nth_replaceAt_mid h.blocks i 2 [ab, sp] 0 (by simp) (by omega)
  · rw [offsetOf_congr_sa _ _ (setNextPrevAlloc_sa _ (i + 1) false) i]
    exact offsetOf_replaceAt_le h.blocks i 2 [ab, sp] i (le_refl i) (by omega)

theorem absorb_whole_frame (h : Heap) (i : Nat) (ab : Block) (p s : Nat)
    (hi1 : i + 1 < h.blocks.length) :
    i < (setNextPrevAlloc
        { remove_free h p s with blocks := replaceAt (remove_free h p s).blocks i 2 [ab] }
        i true).blocks.length ∧
    nth (setNextPrevAlloc
        { remove_free h p s with blocks := replaceAt (remove_free h p s).blocks i 2 [ab] }
        i true).blocks i = ab ∧
    offsetOf (setNextPrevAlloc
        { remove_free h p s with blocks := replaceAt (remove_free h p s).blocks i 2 [ab] }
        i true).blocks i = offsetOf h.blocks i := by
  refine ⟨?_, ?_, ?_⟩
  · rw [length_setNextPrevAlloc]
    show i < (replaceAt h.blocks i 2 [ab]).length
    rw [length_replaceAt h.blocks i 2 _ (by omega)]
    simp only [List.length_cons, List.length_nil]
    omega
  · rw [nth_setNextPrevAlloc_of_ne _ i true i (by omega)]
    exact nth_replaceAt_mid h.blocks i 2 [ab] 0 (by simp) (by omega)
  · rw [offsetOf_congr_sa _ _ (setNextPrevAlloc_sa _ i true) i]
    exact offsetOf_replaceAt_le h.blocks i 2 [ab] i (le_refl i) (by omega)

theorem realloc_fallback_frame (h : Heap) (off n2 i np : Nat) (hInv : Inv h)
    (hidx : indexOfOffset h.blocks off = some i)
    (halloc : (nth h.blocks i).alloc = true)
    (hret : (mm_malloc h n2).ret = some np) :
    ∃ m', m' < (mm_free (updateDataAt (mm_malloc h n2).heap np
        (fun d => memcpyData d (nth h.blocks i).data
          (min n2 (nth h.blocks i).size))) off).blocks.length ∧
      offsetOf (mm_free (updateDataAt (mm_malloc h n2).heap np
        (fun d => memcpyData d (nth h.blocks i).data
          (min n2 (nth h.blocks i).size))) off).blocks m' = np ∧
      (nth (mm_free (updateDataAt (mm_malloc h n2).heap np
        (fun d => memcpyData d (nth h.blocks i).data
          (min n2 (nth h.blocks i).size))) off).blocks m').alloc = true ∧
      ∀ k, k < min n2 (nth h.blocks i).size →
        (nth (mm_free (updateDataAt (mm_malloc h n2).heap np
          (fun d => memcpyData d (nth h.blocks i).data
            (min n2 (nth h.blocks i).size))) off).blocks m').data k =
          (nth h.blocks i).data k := by
  have hi : i < h.blocks.length := (indexOfOffset_some h.blocks off i hidx).1
  have hoff : off = offsetOf h.blocks i := (indexOfOffset_some h.blocks off i hidx).2
  obtain ⟨hfr, hprops⟩ := malloc_props h n2 hInv
  have hminv := malloc_inv h n2 hInv
  obtain ⟨⟨ip, hip, hnpoff, hipalloc⟩, hfresh⟩ := hprops np hret
  obtain ⟨io, hio1, hio2, hio3⟩ := hfr i hi halloc
  have hioidx : indexOfOffset (mm_malloc h n2).heap.blocks off = some io := by
    rw [hoff, ← hio2]
    exact indexOfOffset_offsetOf _ io hio1 hminv.1
  have hipidx : indexOfOffset (mm_malloc h n2).heap.blocks np = some ip := by
    rw [hnpoff]
    exact indexOfOffset_offsetOf _ ip hip hminv.1
  have hne : np ≠ off := by
    rw [hoff]
    exact hfresh i hi halloc
  have hioip : ip ≠ io := by
    intro he
    exact hne (hnpoff.trans (by rw [he, hio2, ← hoff]))
  have h1eq : updateDataAt (mm_malloc h n2).heap np
      (fun d => memcpyData d (nth h.blocks i).data (min n2 (nth h.blocks i).size)) =
      { (mm_malloc h n2).heap with
        blocks :=
          replaceAt (mm_malloc h n2).heap.blocks ip 1
            [{ nth (mm_malloc h n2).heap.blocks ip with
               data := memcpyData (nth (mm_malloc h n2).heap.blocks ip).data
                 (nth h.blocks i).data (min n2 (nth h.blocks i).size) }] } := by
    unfold updateDataAt
    rw [hipidx]
  have hlen1 : (updateDataAt (mm_malloc h n2).heap np
      (fun d => memcpyData d (nth h.blocks i).data
        (min n2 (nth h.blocks i).size))).blocks.length =
      (mm_malloc h n2).heap.blocks.length := by
    rw [h1eq]
    dsimp only
    rw [length_replaceAt _ ip 1 _ (by omega)]
    simp only [List.length_cons, List.length_nil]
    omega
  have hnth_ip : nth (updateDataAt (mm_malloc h n2).heap np
      (fun d => memcpyData d (nth h.blocks i).data
        (min n2 (nth h.blocks i).size))).blocks ip =
      { nth (mm_malloc h n2).heap.blocks ip with
        data := memcpyData (nth (mm_malloc h n2).heap.blocks ip).data
          (nth h.blocks i).data (min n2 (nth h.blocks i).size) } := by
    rw [h1eq]
    exact nth_replaceAt_mid _ ip 1 _ 0 (by simp) (by omega)
  have hInv1 := updateDataAt_inv (mm_malloc h n2).heap np
    (fun d => memcpyData d (nth h.blocks i).data (min n2 (nth h.blocks i).size)) hminv
  have hsa1 := updateDataAt_sa (mm_malloc h n2).heap np
    (fun d => memcpyData d (nth h.blocks i).data (min n2 (nth h.blocks i).size))
  have hidx1 : indexOfOffset (updateDataAt (mm_malloc h n2).heap np
      (fun d => memcpyData d (nth h.blocks i).data
        (min n2 (nth h.blocks i).size))).blocks off = some io := by
    rw [indexOfOffset_congr_sa _ _ hsa1 off]
    exact hioidx
  have halloc1 : (nth (updateDataAt (mm_malloc h n2).heap np
      (fun d => memcpyData d (nth h.blocks i).data
        (min n2 (nth h.blocks i).size))).blocks io).alloc = true := by
    rw [(nth_congr_sa _ _ hsa1 io).2, sad_alloc _ _ hio3]
    exact halloc
  obtain ⟨m', hm1, hm2, hm3⟩ :=
    free_frame _ off io hInv1 hidx1 halloc1 ip (by rw [hlen1]; exact hip)
      (by rw [hnth_ip]; exact hipalloc) hioip
  refine ⟨m', hm1, ?_, ?_, ?_⟩
  · rw [hm2, offsetOf_congr_sa _ _ hsa1 ip]
    exact hnpoff.symm
  · rw [sad_alloc _ _ hm3, hnth_ip]
    exact hipalloc
  · intro k hk
    rw [sad_data _ _ hm3, hnth_ip]
    show memcpyData (nth (mm_malloc h n2).heap.blocks ip).data (nth h.blocks i).data
      (min n2 (nth h.blocks i).size) k = (nth h.blocks i).data k
    unfold memcpyData
    rw [if_pos hk]

/-- C6: realloc preserves content: for a block allocated with request n1
(so its block size covers the adjusted request) holding an arbitrary
payload pattern, a successful resize to n2 > 0 returns a pointer to an
allocated block whose first min(n1, n2) payload bytes equal the old
payload bytes, on every path: shrink in place with or without a split,
absorbing the free successor with or without a split, and the fall-back
allocate-copy-free path that copies min(n2, oldsize) bytes. -/
theorem claim_c6_realloc_preserves_content (h : Heap) (off n1 n2 i : Nat) (hInv : Inv h)
    (hidx : indexOfOffset h.blocks off = some i)
    (halloc : (nth h.blocks i).alloc = true)
    (hcap : adjust_block_size n1 ≤ (nth h.blocks i).size)
    (hn1 : n1 + 12 ≤ TWO64)
    (hn2 : 0 < n2) (np : Nat)
    (hr : (mm_realloc h (some off) n2).ret = some np) :
    ∃ i', i' < (mm_realloc h (some off) n2).heap.blocks.length ∧
      offsetOf (mm_realloc h (some off) n2).heap.blocks i' = np ∧
      (nth (mm_realloc h (some off) n2).heap.blocks i').alloc = true ∧
      ∀ k < min n1 n2, (nth (mm_realloc h (some off) n2).heap.blocks i').data k =
        (nth h.blocks i).data k := by
  have hi : i < h.blocks.length := (indexOfOffset_some h.blocks off i hidx).1
  have hoff : off = offsetOf h.blocks i := (indexOfOffset_some h.blocks off i hidx).2
  have hpl : n1 + 4 ≤ adjust_block_size n1 := payload_le_adjust n1 hn1
  unfold mm_realloc at hr ⊢
  dsimp only at hr ⊢
  rw [if_neg (by omega : ¬ n2 = 0), hidx] at hr ⊢
  dsimp only at hr ⊢
  by_cases hA : adjust_block_size n2 ≤ (nth h.blocks i).size
  · rw [if_pos hA] at hr ⊢
    by_cases h16 : 16 ≤ (nth h.blocks i).size - adjust_block_size n2
    · rw [if_pos h16] at hr ⊢
      dsimp only at hr ⊢
      obtain rfl := Option.some.inj hr
      obtain ⟨i', h1, h2, h3⟩ := split_coalesce_frame h i
        { size := adjust_block_size n2, alloc := true, prevAlloc := (nth h.blocks i).prevAlloc,
          data := (nth h.blocks i).data }
        { size := (nth h.blocks i).size - adjust_block_size n2, alloc := false,
          prevAlloc := true, data := zeroData } hi rfl rfl rfl
      exact ⟨i', h1, by rw [h2]; exact hoff.symm, by rw [sad_alloc _ _ h3],
        fun k _ => by rw [sad_data _ _ h3]⟩
    · rw [if_neg h16] at hr ⊢
      dsimp only at hr
      obtain rfl := Option.some.inj hr
      exact ⟨i, hi, hoff.symm, halloc, fun k _ => rfl⟩
  · rw [if_neg hA] at hr ⊢
    cases hcond : (!nextAllocB h.blocks i &&
        decide (adjust_block_size n2 ≤ (nth h.blocks i).size + (nth h.blocks (i + 1)).size)) with
    | false =>
      rw [hcond] at hr
      rw [if_neg (by simp)] at hr ⊢
      cases hret : (mm_malloc h n2).ret with
      | none =>
        rw [hret] at hr
        dsimp only at hr
        exact absurd hr (by simp)
      | some np' =>
        rw [hret] at hr
        dsimp only at hr ⊢
        obtain rfl := Option.some.inj hr
        obtain ⟨m', hm1, hm2, hm3, hm4⟩ :=
          realloc_fallback_frame h off n2 i np' hInv hidx halloc hret
        exact ⟨m', hm1, hm2, hm3, fun k hk => hm4 k (by omega)⟩
    | true =>
      rw [hcond] at hr
      rw [if_pos rfl] at hr ⊢
      have hnx : nextAllocB h.blocks i = false := by
        cases hx : nextAllocB h.blocks i
        · rfl
        · rw [hx] at hcond
          simp at hcond
      have hi1 : i + 1 < h.blocks.length := by
        by_contra hcon
        rw [nextAllocB_of_ge h.blocks i hcon] at hnx
        simp at hnx
      by_cases h16 : 16 ≤ (nth h.blocks i).size + (nth h.blocks (i + 1)).size -
          adjust_block_size n2
      · rw [if_pos h16] at hr ⊢
        dsimp only at hr ⊢
        obtain rfl := Option.some.inj hr
        obtain ⟨hl, hn, ho⟩ := absorb_split_frame h i
          { size := adjust_block_size n2, alloc := true,
            prevAlloc := (nth h.blocks i).prevAlloc, data := (nth h.blocks i).data }
          { size := (nth h.blocks i).size + (nth h.blocks (i + 1)).size - adjust_block_size n2,
            alloc := false, prevAlloc := true, data := zeroData }
          (offsetOf h.blocks (i + 1)) (nth h.blocks (i + 1)).size
          (off + adjust_block_size n2)
          ((nth h.blocks i).size + (nth h.blocks (i + 1)).size - adjust_block_size n2) hi1
        exact ⟨i, hl, by rw [ho]; exact hoff.symm, by rw [hn], fun k _ => by rw [hn]⟩
      · rw [if_neg h16] at hr ⊢
        dsimp only at hr ⊢
        obtain rfl := Option.some.inj hr
        obtain ⟨hl, hn, ho⟩ := absorb_whole_frame h i
          { size := (nth h.blocks i).size + (nth h.blocks (i + 1)).size, alloc := true,
            prevAlloc := (nth h.blocks i).prevAlloc, data := (nth h.blocks i).data }
          (offsetOf h.blocks (i + 1)) (nth h.blocks (i + 1)).size hi1
        exact ⟨i, hl, by rw [ho]; exact hoff.symm, by rw [hn], fun k _ => by rw [hn]⟩

/-- Witness for C6: a block allocated with request 100 and resized to 50
keeps its first min(100, 50) payload bytes. -/
theorem claim_c6_realloc_preserves_content_witness :
    ∃ i', i' < (mm_realloc (mm_malloc hInit 100).heap (some 64) 50).heap.blocks.length ∧
      offsetOf (mm_realloc (mm_malloc hInit 100).heap (some 64) 50).heap.blocks i' = 64 ∧
      (nth (mm_realloc (mm_malloc hInit 100).heap (some 64) 50).heap.blocks i').alloc = true ∧
      ∀ k < min 100 50,
        (nth (mm_realloc (mm_malloc hInit 100).heap (some 64) 50).heap.blocks i').data k =
          (nth (mm_malloc hInit 100).heap.blocks 0).data k :=
  claim_c6_realloc_preserves_content (mm_malloc hInit 100).heap 64 100 50 0
    (malloc_inv hInit 100 (mm_init_inv 1000000 hInit (by norm_num) mm_init_million))
    (by decide) (by decide) (by decide) (by decide) (by decide) 64 (by decide)

end MM
